import Mathlib

/-!
# Verification of the MESA namelist parser/serializer (`mesa_namelists.py`)

A shallow embedding of the Fortran-namelist document model of the repository:
the value parser `Namelist._parse_value`, the document parser
`Namelist.__init__` (comment filtering, `&...,/` group extraction, line
assembly, per-line splitting, indexed/inline array resolution,
`Namelist._check_lists` densification), the serializer `dump` /
`format_value_to_fortran`, and the dotted-access wrapper
`AttributeMapper.__setattr__`.

Strings are modelled as `List Char`.  Python `OrderedDict`s are modelled as
insertion-ordered association lists whose update-in-place keeps the original
key position, exactly like `dict` assignment.  Python `float` values are
modelled as exact rationals (`ℚ`); the model of `float(str)` accepts the
decimal literal grammar (sign, digits with optional single underscores
between digits, optional fraction, optional `e`/`E` exponent, surrounding
whitespace) and deliberately omits the non-finite spellings `inf`/`nan`,
which cannot be represented in `ℚ` and are unreachable from the inputs the
claims are about.  Fallible Python code is modelled with `Except PyErr`.
-/

set_option maxRecDepth 20000

abbrev Chars := List Char

/-- The whitespace characters stripped by Python's `str.strip()` (ASCII part)
and matched by the regex class `\s`. -/
def pyIsSpace (c : Char) : Bool :=
  c = ' ' || c = '\t' || c = '\n' || c = '\u000b' || c = '\u000c' || c = '\r'

/-- `str.lstrip()`. -/
def pyLStrip (l : Chars) : Chars := l.dropWhile pyIsSpace

/-- `str.rstrip()`. -/
def pyRStrip (l : Chars) : Chars := (l.reverse.dropWhile pyIsSpace).reverse

/-- `str.strip()`. -/
def pyStrip (l : Chars) : Chars := pyRStrip (pyLStrip l)

/-- `str.split(sep)` for a one-character separator: always returns at least
one (possibly empty) part, one part more than the number of separators. -/
def splitOnChar (sep : Char) : Chars → List Chars
  | [] => [[]]
  | c :: rest =>
    let r := splitOnChar sep rest
    if c = sep then [] :: r
    else
      match r with
      | [] => [[c]]
      | h :: t => (c :: h) :: t

/-- Number of occurrences of a character, as in `str.count(c)`. -/
def countChar (sep : Char) : Chars → ℕ
  | [] => 0
  | c :: rest => (if c = sep then 1 else 0) + countChar sep rest

/-- Split at the first occurrence of `sep`, if any (separator removed). -/
def splitAtFirstChar (sep : Char) : Chars → Option (Chars × Chars)
  | [] => none
  | c :: rest =>
    if c = sep then some ([], rest)
    else (splitAtFirstChar sep rest).map (fun p => (c :: p.1, p.2))

/-- `str.replace(a, b)` for single characters. -/
def replaceChar (a b : Char) (l : Chars) : Chars :=
  l.map (fun c => if c = a then b else c)

/-- Does the (already stripped) line start with `'!'`?  Models
`line.startswith('!')`. -/
def startsWithBang : Chars → Bool
  | '!' :: _ => true
  | _ => false

/-- `str.split()` with no argument: split on runs of whitespace, dropping
empty tokens.  `splitWsGo cur l` scans `l` with the reversed current token
`cur`. -/
def splitWsGo : Chars → Chars → List Chars
  | cur, [] => if cur = [] then [] else [cur.reverse]
  | cur, c :: rest =>
    if pyIsSpace c then
      if cur = [] then splitWsGo [] rest else cur.reverse :: splitWsGo [] rest
    else splitWsGo (c :: cur) rest

def splitWs (l : Chars) : List Chars := splitWsGo [] l

/-- Association-list lookup (first match); Python `dict` keys are unique, so
first-match lookup coincides with `dict` lookup. -/
def lookupA {α β : Type} [DecidableEq α] : List (α × β) → α → Option β
  | [], _ => none
  | (k, v) :: rest, key => if key = k then some v else lookupA rest key

/-- Replace the value of the first entry with key `key`, keeping its
position: Python `d[key] = v` when `key` is already present. -/
def updateA {α β : Type} [DecidableEq α] : List (α × β) → α → β → List (α × β)
  | [], _, _ => []
  | (k, v) :: rest, key, nv =>
    if key = k then (k, nv) :: rest else (k, v) :: updateA rest key nv

/-- Python `d[key] = v`: update in place when present, append when absent. -/
def insertOrUpdate {α β : Type} [DecidableEq α] (d : List (α × β)) (key : α) (nv : β) :
    List (α × β) :=
  match lookupA d key with
  | some _ => updateA d key nv
  | none => d ++ [(key, nv)]

/-- A run of regex digits (`\d*`): `(run, rest)`. -/
def digitRun (l : Chars) : Chars × Chars :=
  (l.takeWhile Char.isDigit, l.dropWhile Char.isDigit)

/-- Continuation of a Python numeric digit group after its first digit:
digits with single underscores allowed between digits (`1_000`); stops
before an underscore that is not followed by a digit. -/
def digitsUAux : Chars → Chars × Chars
  | [] => ([], [])
  | c :: rest =>
    if c.isDigit then
      let p := digitsUAux rest
      (c :: p.1, p.2)
    else if c = '_' then
      match rest with
      | d :: rest2 =>
        if d.isDigit then
          let p := digitsUAux rest2
          (d :: p.1, p.2)
        else ([], c :: rest)
      | [] => ([], [c])
    else ([], c :: rest)

/-- A Python numeric digit group: a digit followed by digits or
underscore-digit pairs.  `none` when the input does not start with a digit. -/
def takeDigitsU : Chars → Option (Chars × Chars)
  | [] => none
  | c :: rest =>
    if c.isDigit then
      let p := digitsUAux rest
      some (c :: p.1, p.2)
    else none

/-- Value of a list of decimal digit characters. -/
def digitsVal (l : Chars) : ℕ :=
  l.foldl (fun a c => 10 * a + (c.toNat - 48)) 0

/-- An optional leading sign: the common prefix handling of Python's
`int` and `float` conversions. -/
def signSplitZ : Chars → ℤ × Chars
  | [] => (1, [])
  | c :: r => if c = '+' then (1, r) else if c = '-' then (-1, r) else (1, c :: r)

/-- Python `int(s)`: optional surrounding whitespace, optional sign, a
nonempty digit group, nothing else. -/
def pyInt (s : Chars) : Option ℤ :=
  let t := pyStrip s
  let p := signSplitZ t
  match takeDigitsU p.2 with
  | some (ds, []) => some (p.1 * (digitsVal ds : ℤ))
  | _ => none

/-- Build the rational `sgn * (ip.fp) * 10^ex` from the sign, the
integer-part digits, the fraction digits and the exponent.  Computed with
integer arithmetic and a single `mkRat` so that it evaluates by kernel
reduction. -/
def qOfParts (sgn : ℤ) (ip fp : Chars) (ex : ℤ) : ℚ :=
  let m : ℤ := sgn * ((digitsVal ip * 10 ^ fp.length + digitsVal fp : ℕ) : ℤ)
  if 0 ≤ ex then mkRat (m * ((10 ^ ex.toNat : ℕ) : ℤ)) (10 ^ fp.length)
  else mkRat m (10 ^ fp.length * 10 ^ (-ex).toNat)

/-- Exponent suffix of a Python float literal (`e`/`E`, optional sign,
digit group); returns the exponent and the rest.  `none` when an `e`/`E` is
present but malformed. -/
def pyFloatExp : Chars → Option (ℤ × Chars)
  | [] => some (0, [])
  | c :: r =>
    if c = 'e' ∨ c = 'E' then
      let p := signSplitZ r
      match takeDigitsU p.2 with
      | some (ds, rest) => some (p.1 * (digitsVal ds : ℤ), rest)
      | none => none
    else some (0, c :: r)

/-- Python `float(s)` on finite decimal literals: optional surrounding
whitespace, optional sign, then `digits[.digits]`, `digits.`, or `.digits`,
then an optional exponent.  The special spellings `inf`, `infinity` and
`nan` are not modelled (they are not representable in `ℚ`). -/
def pyFloat (s : Chars) : Option ℚ :=
  let t := pyStrip s
  let p := signSplitZ t
  match takeDigitsU p.2 with
  | some (ip, r1) =>
    match r1 with
    | '.' :: r2 =>
      match takeDigitsU r2 with
      | some (fp, r3) =>
        match pyFloatExp r3 with
        | some (ex, []) => some (qOfParts p.1 ip fp ex)
        | _ => none
      | none =>
        match pyFloatExp r2 with
        | some (ex, []) => some (qOfParts p.1 ip [] ex)
        | _ => none
    | _ =>
      match pyFloatExp r1 with
      | some (ex, []) => some (qOfParts p.1 ip [] ex)
      | _ => none
  | none =>
    match p.2 with
    | '.' :: r2 =>
      match takeDigitsU r2 with
      | some (fp, r3) =>
        match pyFloatExp r3 with
        | some (ex, []) => some (qOfParts p.1 [] fp ex)
        | _ => none
      | none => none
    | _ => none

/-- A Python value as produced/consumed by `mesa_namelists.py`: `int`,
`float` (modelled as an exact rational), `bool`, `str`, `complex` (two
floats), `list`, and `None` (which appears only as the unfilled slots of
`[None]*num_entries` in `_check_lists`). -/
inductive PyVal : Type
  | int (n : ℤ)
  | real (q : ℚ)
  | bool (b : Bool)
  | str (s : Chars)
  | complex (re im : ℚ)
  | list (xs : List PyVal)
  | noneV

/-- Python exceptions raised by the code paths under verification.
`noSingleValue` is `NoSingleValueFoundException`; `nameErr` is the
`NameError` raised when a `raise`-path mentions an undefined name;
`excErr` is a plain `Exception(...)`. -/
inductive PyErr : Type
  | valueErr (s : Chars)
  | noSingleValue (s : Chars)
  | indexErr
  | typeErr
  | nameErr (s : Chars)
  | keyErr (s : Chars)
  | notImplErr
  | attributeErr
  | excErr (s : Chars)
deriving DecidableEq

/-- An entry of a group while (and after) parsing: either a plain value, or
the index-keyed `dict` used to collect indexed assignments.  In the Python
code that dict always carries the `'_is_list': True` marker (it is created
as `{'_is_list': True}` and only ever extended with integer keys), so the
marker is represented by the `arr` constructor itself; the integer-keyed
part is an insertion-ordered association list. -/
inductive GVal : Type
  | val (v : PyVal)
  | arr (es : List (ℤ × PyVal))

/-- One namelist group: ordered mapping, variable name to entry. -/
abbrev NlGroup := List (Chars × GVal)

/-- `Namelist.groups`: ordered mapping, group name to group. -/
abbrev NlDoc := List (Chars × NlGroup)

/-- The regex `^\((\d+.?\d*),(\d+.?\d*)\)$` (note the unescaped `.`, which
matches any single character): the candidate parses of one side
`\d+.?\d*`, in the backtracking engine's preference order.  The leading
`\d+` takes the maximal digit run (shortening it can never help, since the
following element would then have to match a digit), `.?` prefers to
consume one character, and the trailing `\d*` takes the maximal digit run. -/
def sideCandidates (l : Chars) : List (Chars × Chars) :=
  let p := digitRun l
  if p.1 = [] then []
  else
    match p.2 with
    | [] => [(p.1, [])]
    | c :: r2 =>
      let p2 := digitRun r2
      [(p.1 ++ c :: p2.1, p2.2), (p.1, c :: r2)]

/-- First `some` produced by `f` along the list. -/
def firstSome {α β : Type} (f : α → Option β) : List α → Option β
  | [] => none
  | x :: xs =>
    match f x with
    | some y => some y
    | none => firstSome f xs

/-- `re.findall(self._complex_re, s)` for the anchored pattern
`^\((\d+.?\d*),(\d+.?\d*)\)$`: the two captured sides of the unique match,
if any. -/
def matchComplex (s : Chars) : Option (Chars × Chars) :=
  match s with
  | '(' :: rest =>
    firstSome
      (fun p =>
        match p.2 with
        | ',' :: r2 =>
          firstSome
            (fun p2 => if p2.2 = [')'] then some (p.1, p2.1) else none)
            (sideCandidates r2)
        | _ => none)
      (sideCandidates rest)
  | _ => none

/-- `\w` for the ASCII inputs at hand. -/
def isWordChar (c : Char) : Bool := c.isAlphanum || c = '_'

/-- `re.findall(array_re, k)` with `array_re = (\w+)\((\d+)\)`: all
non-overlapping matches, each as (identifier, digits).  A failed attempt
advances one position, which for this pattern is equivalent to skipping
past the maximal word run (every start inside the same word run fails the
same way).  Fuel-driven recursion; `findallArray` supplies ample fuel. -/
def findallArrayGo : ℕ → Chars → List (Chars × Chars)
  | 0, _ => []
  | _ + 1, [] => []
  | fuel + 1, c :: rest =>
    if isWordChar c then
      let w := rest.takeWhile isWordChar
      let r1 := rest.dropWhile isWordChar
      match r1 with
      | '(' :: r2 =>
        let p := digitRun r2
        match p.1, p.2 with
        | _ :: _, ')' :: r4 => (c :: w, p.1) :: findallArrayGo fuel r4
        | _, _ => findallArrayGo fuel r1
      | _ => findallArrayGo fuel r1
    else findallArrayGo fuel rest

def findallArray (l : Chars) : List (Chars × Chars) :=
  findallArrayGo (l.length + 1) l

/-- `re.findall(string_re, s)` with `string_re = \'\s*\w[^']*\'`: all
non-overlapping matches (each match includes its quotes).  At a quote the
engine takes the maximal `\s*` run, requires a word character, takes the
maximal quote-free run, and requires a closing quote; no backtracking can
help, so a failure advances one position. -/
def stringReGo : ℕ → Chars → List Chars
  | 0, _ => []
  | _ + 1, [] => []
  | fuel + 1, c :: rest =>
    if c = '\'' then
      let ws := rest.takeWhile pyIsSpace
      let r1 := rest.dropWhile pyIsSpace
      match r1 with
      | w :: r2 =>
        if isWordChar w then
          let body := r2.takeWhile (fun x => x ≠ '\'')
          let r3 := r2.dropWhile (fun x => x ≠ '\'')
          match r3 with
          | _ :: r4 => ('\'' :: ws ++ w :: body ++ ['\'']) :: stringReGo fuel r4
          | [] => stringReGo fuel rest
        else stringReGo fuel rest
      | [] => stringReGo fuel rest
    else stringReGo fuel rest

def stringReFindall (l : Chars) : List Chars :=
  stringReGo (l.length + 1) l

/-- `Namelist._parse_value`: try `int(...)`; then
`float(... .replace('d','E'))`; then the complex regex (whose captured
sides go through `float(...)`, an uncaught `ValueError` when they are not
float literals); then the boolean spellings; then a singly- or
doubly-quoted string with exactly two quote characters; otherwise raise
`NoSingleValueFoundException`. -/
def pyParseValue (v : Chars) : Except PyErr PyVal :=
  match pyInt v with
  | some n => .ok (.int n)
  | none =>
    match pyFloat (replaceChar 'd' 'E' v) with
    | some q => .ok (.real q)
    | none =>
      match matchComplex v with
      | some (a, b) =>
        match pyFloat a with
        | none => .error (.valueErr a)
        | some x =>
          match pyFloat b with
          | none => .error (.valueErr b)
          | some y => .ok (.complex x y)
      | none =>
        if v = ".true.".data ∨ v = "T".data then .ok (.bool true)
        else if v = ".false.".data ∨ v = "F".data then .ok (.bool false)
        else if v.head? = some '\'' ∧ v.getLast? = some '\'' ∧ countChar '\'' v = 2 then
          .ok (.str v.tail.dropLast)
        else if v.head? = some '"' ∧ v.getLast? = some '"' ∧ countChar '"' v = 2 then
          .ok (.str v.tail.dropLast)
        else .error (.noSingleValue v)

/-- Decimal digits of `n`, fuel-driven (`natDec` supplies ample fuel);
used for `str(...)` of the duplicate-group counter and for `'{:d}'.format`. -/
def digitChar (k : ℕ) : Char := Char.ofNat (48 + k)

def natDecGo : ℕ → ℕ → Chars
  | 0, _ => []
  | fuel + 1, n =>
    if n = 0 then [] else natDecGo fuel (n / 10) ++ [digitChar (n % 10)]

/-- Decimal rendering of a natural number, as Python's `str`/`'{:d}'.format`. -/
def natDec (n : ℕ) : Chars := if n = 0 then ['0'] else natDecGo (n + 1) n

/-- `'{:d}'.format` of a Python int. -/
def intDec (i : ℤ) : Chars := if i < 0 then '-' :: natDec i.natAbs else natDec i.natAbs

/-- `k, v = line.split('=')`: succeeds exactly when the line contains one
`=` (Python raises `ValueError` both on zero and on several `=`s, since the
unpacking needs exactly two parts). -/
def splitEq2 (l : Chars) : Option (Chars × Chars) :=
  match splitOnChar '=' l with
  | [k, v] => some (k, v)
  | _ => none

/-- The line-assembly loop of `Namelist.__init__` (lines 122-139): strip
each raw body line, drop blanks and comment lines, keep lines that split
into exactly two parts on `=`; a line that does not is appended to the
previous kept line when that one ends with a comma (`block_lines[-1] +=
line`), and otherwise the `ValueError` is re-raised; with no previous line,
`block_lines[-1]` raises `IndexError`. -/
def assembleBody : List Chars → List Chars → Except PyErr (List Chars)
  | acc, [] => .ok acc
  | acc, l :: ls =>
    let l' := pyStrip l
    if l' = [] then assembleBody acc ls
    else if startsWithBang l' then assembleBody acc ls
    else if (splitEq2 l').isSome then assembleBody (acc ++ [l']) ls
    else
      match acc.getLast? with
      | none => .error .indexErr
      | some last =>
        if last.getLast? = some ',' then assembleBody (acc.dropLast ++ [last ++ l']) ls
        else .error (.valueErr l')

/-- The per-line preprocessing of `Namelist.__init__` (lines 141-152):
strip one trailing comma, truncate at the first `!` and strip, then
`k, v = line.split('=')`. -/
def perLineKV (l : Chars) : Except PyErr (Chars × Chars) :=
  let l1 := if l.getLast? = some ',' then l.dropLast else l
  let l2 := if '!' ∈ l1 then pyStrip (l1.takeWhile (fun c => c ≠ '!')) else l1
  match splitEq2 l2 with
  | some p => .ok p
  | none => .error (.valueErr l2)

/-- `group[name][index] = value` after `if not name in group:
group[name] = {'_is_list': True}`: creates or extends the index-keyed dict;
when the existing entry is a plain value, Python's item assignment on it
raises `TypeError`. -/
def arrInsert (g : NlGroup) (nm : Chars) (idx : ℤ) (pv : PyVal) : Except PyErr NlGroup :=
  match lookupA g nm with
  | none => .ok (g ++ [(nm, .arr [(idx, pv)])])
  | some (.arr es) => .ok (updateA g nm (.arr (insertOrUpdate es idx pv)))
  | some (.val _) => .error .typeErr

/-- The inline-array tokenization (lines 171-185): with zero or two
single quotes, split on whitespace when a parenthesis is present, else on
commas-replaced-by-spaces; otherwise extract the single-quoted substrings
with `string_re` and strip each. -/
def inlineTokens (vval : Chars) : List Chars :=
  if countChar '\'' vval = 0 ∨ countChar '\'' vval = 2 then
    if countChar '(' vval ≠ 0 then splitWs vval
    else splitWs (replaceChar ',' ' ' vval)
  else (stringReFindall vval).map pyStrip

/-- The `enumerate(variable_arr_entries)` loop (lines 188-196): parse each
token and assign it at index 0, 1, …; a token that fails
`_parse_value` lets the exception escape. -/
def inlineAssign (g : NlGroup) (nm : Chars) (vval : Chars) : Except PyErr NlGroup :=
  (inlineTokens vval).enum.foldlM
    (fun acc p => do
      let pv ← pyParseValue p.2
      arrInsert acc nm (p.1 : ℤ) pv)
    g

/-- Processing of one assembled data line (lines 141-196): split into raw
name and value, detect `name(index)` with `array_re` (used only when there
is exactly one match), parse the value as a scalar, and on
`NoSingleValueFoundException` fall back to the inline-array path (which
always assigns at enumeration indices 0, 1, …). -/
def processLine (g : NlGroup) (l : Chars) : Except PyErr NlGroup := do
  let kv ← perLineKV l
  let vname := pyStrip kv.1
  let vval := pyStrip kv.2
  match findallArray kv.1 with
  | [(nm, ds)] =>
    let idx : ℤ := (digitsVal ds : ℤ) - 1
    match pyParseValue vval with
    | .ok pv => arrInsert g nm idx pv
    | .error (.noSingleValue _) => inlineAssign g nm vval
    | .error e => .error e
  | _ =>
    match pyParseValue vval with
    | .ok pv => .ok (insertOrUpdate g vname (.val pv))
    | .error (.noSingleValue _) => inlineAssign g vname vval
    | .error e => .error e

/-- `variable_list[i] = value` on a Python list: negative indices count
from the end; out-of-range raises `IndexError`. -/
def pyListSet (l : List PyVal) (i : ℤ) (v : PyVal) : Except PyErr (List PyVal) :=
  let n : ℤ := l.length
  let j := if i < 0 then i + n else i
  if 0 ≤ j ∧ j < n then .ok (l.set j.toNat v) else .error .indexErr

/-- The body of `Namelist._check_lists` for one marker dict: build
`[None]*num_entries` and fill it; an index `i >= num_entries` triggers the
`raise Exception(...format(variable))` line, whose message formatting
references the undefined name `variable` and therefore raises `NameError`
before any `Exception` is constructed. -/
def densifyArr (es : List (ℤ × PyVal)) : Except PyErr (List PyVal) :=
  es.foldlM
    (fun lst p =>
      if (es.length : ℤ) ≤ p.1 then .error (.nameErr "variable".data)
      else pyListSet lst p.1 p.2)
    (List.replicate es.length PyVal.noneV)

/-- Sequence a fallible map over a list, stopping at the first error
(the behavior of a Python `for` loop that raises). -/
def exMapM {α β : Type} (f : α → Except PyErr β) : List α → Except PyErr (List β)
  | [] => .ok []
  | x :: xs => do
    let y ← f x
    let ys ← exMapM f xs
    .ok (y :: ys)

/-- `Namelist._check_lists` over one group: replace each marker dict by its
densified list. -/
def checkListsGroup (g : NlGroup) : Except PyErr NlGroup :=
  exMapM
    (fun p =>
      match p.2 with
      | (.arr es : GVal) => (densifyArr es).map (fun lv => (p.1, GVal.val (.list lv)))
      | v => .ok (p.1, v))
    g

/-- `Namelist._check_lists` over all groups. -/
def checkListsDoc (d : NlDoc) : Except PyErr NlDoc :=
  exMapM (fun p => (checkListsGroup p.2).map (fun g => (p.1, g))) d

/-- The last `/` of an `&`-free run with a nonempty prefix before it: the
greedy capture of `&([^&]+)/`.  Returns the captured text (before that
`/`).  When the only `/` is the run's first character the capture `[^&]+`
would be empty, so there is no match. -/
def lastSlashCapture (run : Chars) : Option Chars :=
  match splitAtFirstChar '/' run.reverse with
  | some (_, b) => if b = [] then none else some b.reverse
  | none => none

/-- `re.findall(group_re, text)` with `group_re = &([^&]+)/` under
`re.DOTALL`: for each maximal `&`-free run following an `&`, the greedy
`[^&]+` extends to just before the run's last `/` (with nonempty capture);
runs without such a `/` yield no match, and scanning resumes after the
consumed `/`, which cannot skip a later `&`. -/
def pyFindGroups (s : Chars) : List Chars :=
  match splitOnChar '&' s with
  | [] => []
  | _ :: runs => runs.filterMap lastSlashCapture

/-- Comment-line filtering (lines 105-110): drop every line whose stripped
form starts with `!`. -/
def filteredLines (input : Chars) : List Chars :=
  (splitOnChar '\n' input).filter (fun l => !startsWithBang (pyStrip l))

/-- Processing of one group block (lines 116-207): pop the first line as
the group name, assemble and process the body lines, resolve a duplicate
name with the `group_cnt` counter (`0`, `1`, … appended to the 2nd, 3rd, …
occurrences), store the group, and run `_check_lists` over all groups. -/
def processBlock (st : NlDoc × List (Chars × ℕ)) (block : Chars) :
    Except PyErr (NlDoc × List (Chars × ℕ)) := do
  let ls := splitOnChar '\n' block
  let gname := pyStrip ls.headI
  let body := ls.tail
  let bls ← assembleBody [] body
  let g ← bls.foldlM processLine ([] : NlGroup)
  let groups := st.1
  let cnt := st.2
  let p : Chars × List (Chars × ℕ) :=
    if (lookupA groups gname).isSome then
      match lookupA cnt gname with
      | none => (gname ++ natDec 0, insertOrUpdate cnt gname 0)
      | some c => (gname ++ natDec (c + 1), insertOrUpdate cnt gname (c + 1))
    else (gname, cnt)
  let groups2 := insertOrUpdate groups p.1 g
  let groups3 ← checkListsDoc groups2
  .ok (groups3, p.2)

/-- `Namelist.__init__`: filter comment lines, extract the `&...&/` blocks
from the rejoined text, and process each block in order. -/
def pyNamelist (input : Chars) : Except PyErr NlDoc :=
  ((pyFindGroups (List.intercalate ['\n'] (filteredLines input))).foldlM
    processBlock (([] : NlDoc), ([] : List (Chars × ℕ)))).map (·.1)

/-- Floor of log10 of `n / d` (for `n, d ≥ 1`), computed from decimal
digit counts with one integer comparison to settle the boundary case. -/
def natExp10 (n d : ℕ) : ℤ :=
  let c : ℤ := ((natDec n).length : ℤ) - ((natDec d).length : ℤ)
  let ok : Bool := d * 10 ^ c.toNat ≤ n * 10 ^ (-c).toNat
  if ok then c else c - 1

/-- Round half to even on a rational, computed on the numerator and
denominator (`t` is twice the fractional part scaled by the denominator),
matching the rounding of Python's float formatting. -/
def rhe (x : ℚ) : ℤ :=
  let f := x.floor
  let t : ℤ := 2 * (x.num - f * (x.den : ℤ))
  if t < (x.den : ℤ) then f
  else if (x.den : ℤ) < t then f + 1
  else if f % 2 = 0 then f else f + 1

/-- The three-significant-digit mantissa (in `[100, 1000]`, `1000` on a
rounded-up carry) and decimal exponent chosen by `'{:.2e}'.format` for a
nonzero value with magnitude `n / d`. -/
def mantissaE2 (n d : ℕ) : ℤ × ℤ :=
  let e := natExp10 n d
  let scaled : ℚ :=
    if e ≤ 2 then mkRat ((n * 10 ^ (2 - e).toNat : ℕ) : ℤ) d
    else mkRat (n : ℤ) (d * 10 ^ (e - 2).toNat)
  (rhe scaled, e)

/-- `'{:.2e}'.format(value)` on the exact rational model of the float:
sign, mantissa digit, point, two mantissa digits, `e`, exponent sign,
exponent of at least two digits. -/
def formatE2 (q : ℚ) : Chars :=
  if q = 0 then "0.00e+00".data
  else
    let sgn : Chars := if q < 0 then ['-'] else []
    let p := mantissaE2 q.num.natAbs q.den
    let p2 : ℤ × ℤ := if p.1 = 1000 then (100, p.2 + 1) else p
    let mn := p2.1.toNat
    sgn ++ [digitChar (mn / 100), '.', digitChar (mn / 10 % 10), digitChar (mn % 10), 'e']
      ++ (if p2.2 < 0 then ['-'] else ['+'])
      ++ (if p2.2.natAbs < 10 then '0' :: natDec p2.2.natAbs else natDec p2.2.natAbs)

/-- The value `'{:.2e}'` rounds a nonzero rational to: the three
significant mantissa digits at the chosen exponent.  (On a carry,
`1000 * 10^(e-2) = 100 * 10^(e-1)`, so no separate case is needed.) -/
def roundE2val (q : ℚ) : ℚ :=
  if q = 0 then 0
  else
    let sgn : ℤ := if q < 0 then -1 else 1
    let p := mantissaE2 q.num.natAbs q.den
    if 2 ≤ p.2 then mkRat (sgn * p.1 * ((10 ^ (p.2 - 2).toNat : ℕ) : ℤ)) 1
    else mkRat (sgn * p.1) (10 ^ (2 - p.2).toNat)

/-- The float branch of `format_value_to_fortran`:
`('{:.2e}'.format(value)).replace('e','d')`. -/
def fmtRealF (q : ℚ) : Chars := replaceChar 'e' 'd' (formatE2 q)

/-- `format_value_to_fortran`: booleans to `.true.`/`.false.`, ints to
decimal, floats to two-decimal scientific with `d`, strings wrapped in
single quotes, complex as `(re,im)` with each part formatted as a float;
anything else raises `Exception("Variable type not understood: ...")`. -/
def formatValueToFortran : PyVal → Except PyErr Chars
  | .bool b => .ok (if b then ".true.".data else ".false.".data)
  | .int n => .ok (intDec n)
  | .real q => .ok (fmtRealF q)
  | .str s => .ok ('\'' :: s ++ ['\''])
  | .complex x y => .ok ('(' :: fmtRealF x ++ ',' :: fmtRealF y ++ [')'])
  | .list _ => .error (.excErr "Variable type not understood".data)
  | .noneV => .error (.excErr "Variable type not understood".data)

/-- The serialized line(s) for one variable in `dump`: lists inline
(space-joined) or one indexed line per element (1-based); scalars as
`   name = value`.  A leftover index dict reaches
`format_value_to_fortran` and raises. -/
def dumpLines (nm : Chars) (gv : GVal) (inline : Bool) : Except PyErr (List Chars) :=
  match gv with
  | .val (.list xs) =>
    if inline then do
      let toks ← exMapM formatValueToFortran xs
      .ok ["   ".data ++ nm ++ " = ".data ++ List.intercalate [' '] toks]
    else
      exMapM
        (fun (p : ℕ × PyVal) => do
          let t ← formatValueToFortran p.2
          .ok ("   ".data ++ nm ++ '(' :: natDec (p.1 + 1) ++ ") = ".data ++ t))
        xs.enum
  | .val v => do
    let t ← formatValueToFortran v
    .ok ["   ".data ++ nm ++ " = ".data ++ t]
  | .arr _ => .error (.excErr "Variable type not understood".data)

/-- `dump(cls, namelist, array_inline)`: header `&name`, one entry per
variable in insertion order, terminator `/ ! end of name namelist`, joined
with newlines plus a trailing newline. -/
def pyDump (doc : NlDoc) (nl : Chars) (inline : Bool) : Except PyErr Chars :=
  match lookupA doc nl with
  | none => .error (.keyErr nl)
  | some g => do
    let lns ← exMapM (fun p => dumpLines p.1 p.2 inline) g
    .ok (List.intercalate ['\n']
          (('&' :: nl) :: lns.flatten ++ ["/ ! end of ".data ++ nl ++ " namelist".data])
        ++ ['\n'])

/-- `AttributeMapper.__setattr__`: replace the value when the key is
already a key of the wrapped dict, otherwise raise `NotImplementedError`
(the wrapped dict is left untouched). -/
def amSetattr {β : Type} (d : List (Chars × β)) (k : Chars) (v : β) :
    Except PyErr (List (Chars × β)) :=
  if (lookupA d k).isSome then .ok (updateA d k v) else .error .notImplErr

/-- `AttributeMapper.__getattr__` restricted to non-dict values: the value
when present, `AttributeError` otherwise. -/
def amGetattr {β : Type} (d : List (Chars × β)) (k : Chars) : Except PyErr β :=
  match lookupA d k with
  | some v => .ok v
  | none => .error .attributeErr

/-- `MESA(input_str).groups`, on a `String`. -/
def parseNamelist (s : String) : Except PyErr NlDoc := pyNamelist s.data

/-! ## Decidable shape predicates used by the claims -/

/-- Is the value one of the five scalar variants? -/
def isScalarB : PyVal → Bool
  | .int _ => true
  | .real _ => true
  | .bool _ => true
  | .str _ => true
  | .complex _ _ => true
  | .list _ => false
  | .noneV => false

/-- Is the value the `None` placeholder? -/
def isNoneB : PyVal → Bool
  | .noneV => true
  | _ => false

/-- Shape of a finished group entry: a scalar, or a flat list whose
elements are scalars or `None` holes; in particular never the internal
index-keyed marker dict. -/
def finalShapeB : GVal → Bool
  | .val (.list xs) => xs.all (fun x => isScalarB x || isNoneB x)
  | .val v => isScalarB v
  | .arr _ => false

/-- Shape of a group entry while its block is still being processed: a
scalar, or an index dict holding scalars. -/
def rawShapeB : GVal → Bool
  | .val v => isScalarB v
  | .arr es => es.all (fun p => isScalarB p.2)

/-- A group entry satisfies the parse-time invariant: plain scalar value or
index dict of scalars. -/
def groupRawP (g : NlGroup) : Prop := ∀ p ∈ g, rawShapeB p.2 = true

/-- Either parse-time or finished shape: what a group entry can look like
when `_check_lists` runs. -/
def entryMixedP (gv : GVal) : Prop := rawShapeB gv = true ∨ finalShapeB gv = true

/-- Every group of the document has only finished-shape entries. -/
def docFinalP (d : NlDoc) : Prop := ∀ g ∈ d, ∀ p ∈ g.2, finalShapeB p.2 = true

/-- The scaled value whose round-half-even gives the mantissa digits. -/
def scaledE2 (n d : ℕ) : ℚ := (n : ℚ) / d * 10 ^ (2 - natExp10 n d)

/-- The carry-resolved mantissa printed by `'{:.2e}'`: `p2.1.toNat` in
`format_value_to_fortran`'s float branch. -/
def fe2mn (q : ℚ) : ℕ :=
  (if (mantissaE2 q.num.natAbs q.den).1 = 1000 then (100:ℤ)
   else (mantissaE2 q.num.natAbs q.den).1).toNat

/-- The carry-resolved exponent printed by `'{:.2e}'`. -/
def fe2e (q : ℚ) : ℤ :=
  if (mantissaE2 q.num.natAbs q.den).1 = 1000 then (mantissaE2 q.num.natAbs q.den).2 + 1
  else (mantissaE2 q.num.natAbs q.den).2

/-- The value the round trip turns `v` into: every float replaced by its
serialized-then-reparsed two-decimal-exponent rounding. -/
def roundScalar : PyVal → PyVal
  | .real q => .real (roundE2val q)
  | v => v

def roundVal : PyVal → PyVal
  | .real q => .real (roundE2val q)
  | .list xs => .list (xs.map roundScalar)
  | v => v

/-- Text scalars surviving the round trip: free of quotes (the two-quote
parse), `=` (line split), `!` (comment truncation), `&` and newline
(block/line structure). -/
def strOKB (s : Chars) : Bool :=
  s.all (fun c => !(c = '\'' || c = '=' || c = '!' || c = '&' || c = '\n'))

/-- Scalar shapes the round trip preserves. -/
def scalarWF : PyVal → Bool
  | .int _ => true
  | .real _ => true
  | .bool _ => true
  | .str s => strOKB s
  | _ => false

/-- Non-text scalars: the elements the inline-list round trip supports. -/
def numScalarB : PyVal → Bool
  | .int _ => true
  | .real _ => true
  | .bool _ => true
  | _ => false

/-- Text elements the inline-list round trip supports: quote/=/!/&/newline
free, and starting (after optional spaces) with a word character, so that
the `string_re` scan recovers exactly the quoted tokens. -/
def textElemB : PyVal → Bool
  | .str s => strOKB s &&
      (match pyLStrip s with
       | c :: _ => isWordChar c
       | [] => false)
  | _ => false

/-- Values the round trip preserves: supported scalars, or flat lists of at
least two elements that are all non-text scalars or all supported texts. -/
def valWF : PyVal → Bool
  | .list xs => 2 ≤ xs.length && (xs.all numScalarB || xs.all textElemB)
  | v => scalarWF v

/-- One group entry as produced before a dump: a word-character name bound
to a plain supported value. -/
def entryWF : Chars × GVal → Bool
  | (nm, .val v) => (!nm.isEmpty && nm.all isWordChar) && valWF v
  | _ => false

/-- Characters of a serialized non-text scalar: digits and the fixed
letters/signs of int, float and boolean spellings. -/
def goodTokChar (c : Char) : Bool :=
  c.isDigit || c = '-' || c = '+' || c = '.' || c = 'd' || c = 't' || c = 'r' || c = 'u'
    || c = 'e' || c = 'f' || c = 'a' || c = 'l' || c = 's'

/-- The rendered entry as it sits in the group right after its line is
processed: a plain rounded value for scalars, the enumeration-indexed dict
for inline lists. -/
def rawEntry : PyVal → GVal
  | .list xs => GVal.arr ((xs.map roundScalar).enum.map (fun p => ((p.1 : ℤ), p.2)))
  | v => GVal.val (roundVal v)

/-- Rounding at the level of parsed group entries. -/
def roundGVal : GVal → GVal
  | .val v => GVal.val (roundVal v)
  | .arr es => GVal.arr es

/-- The group the round trip promises back: same names, rounded values. -/
def roundGroup (g : NlGroup) : NlGroup := g.map (fun p => (p.1, roundGVal p.2))

/-- Entry shape right after the group body fold, before `_check_lists`. -/
def rawEntryG : GVal → GVal
  | .val v => rawEntry v
  | .arr es => GVal.arr es

def rawGroup (g : NlGroup) : NlGroup := g.map (fun p => (p.1, rawEntryG p.2))

/-! ## Claims -/

/-- Claim C2 (confirmed).  Indexed array assignments are ordered by their
written 1-based index converted to 0-based, not by input order: a group
body `a(2)=2.0` followed by `a(1)=1.0` parses to the dense list
`[1.0, 2.0]` under `a`. -/
theorem parse_indexed_order :
    parseNamelist "&grp\na(2)=2.0\na(1)=1.0\n/"
      = .ok [("grp".data, [("a".data, .val (.list [.real 1, .real 2]))])] := by
  rfl

/-- Claim C3 (code_bug).  On the gap input `a(1)=1.0, a(3)=3.0` the parse
does fail as a whole and no document is returned, but instead of the
intended `Exception` naming the variable (the code's own message reads
"The variable '{}' has an array index assignment that is inconsistent
..."), the message formatting references the undefined name `variable`
(`_check_lists` binds only `variable_name`), so Python raises
`NameError: name 'variable' is not defined`. -/
theorem gap_detection_code_bug :
    parseNamelist "&g\na(1)=1.0\na(3)=3.0\n/" = .error (.nameErr "variable".data) := by
  rfl

/-- Claim C4 (confirmed).  When a group name repeats, the first occurrence
keeps the bare name and the 2nd, 3rd, … occurrences are stored with
suffixes `0`, `1`, …, each with its own content, in insertion order: two
`&controls` blocks give keys `controls`, `controls0`, and a third gives
`controls1`. -/
theorem duplicate_group_naming :
    parseNamelist "&controls\nx = 1\n/\n&controls\ny = 2\n/"
        = .ok [("controls".data, [("x".data, .val (.int 1))]),
               ("controls0".data, [("y".data, .val (.int 2))])] ∧
    parseNamelist "&controls\nx = 1\n/\n&controls\ny = 2\n/\n&controls\nz = 3\n/"
        = .ok [("controls".data, [("x".data, .val (.int 1))]),
               ("controls0".data, [("y".data, .val (.int 2))]),
               ("controls1".data, [("z".data, .val (.int 3))])] := by
  exact ⟨by rfl, by rfl⟩

/-- Claim C5, counterexample.  The claim says an uppercase `D` exponent
marker is rewritten like lowercase `d`, so that `1.5D2` yields Real 150.0;
but `_parse_value` only does `.replace('d','E')`, `float('1.5D2')` fails,
and the scalar chain ends in `NoSingleValueFoundException` (so a document
line `x = 1.5D2` makes the whole parse fail). -/
theorem upperD_counterexample :
    pyParseValue "1.5D2".data = .error (.noSingleValue "1.5D2".data) ∧
    parseNamelist "&g\nx = 1.5D2\n/" = .error (.noSingleValue "1.5D2".data) := by
  exact ⟨by rfl, by rfl⟩

/-- Claim C5 (corrected).  Only a lowercase `d` exponent marker is
rewritten (to `E`) before the float conversion: `1.5d2` parses as
Real 150.0, while `1.5D2` is not accepted by any alternative of the scalar
chain and raises `NoSingleValueFoundException`. -/
theorem d_exponent_amended :
    pyParseValue "1.5d2".data = .ok (.real 150) ∧
    pyParseValue "1.5D2".data = .error (.noSingleValue "1.5D2".data) ∧
    replaceChar 'd' 'E' "1.5d2".data = "1.5E2".data ∧
    replaceChar 'd' 'E' "1.5D2".data = "1.5D2".data := by
  exact ⟨by rfl, by rfl, by rfl, by rfl⟩

/-- Claim C8, counterexample.  The claim allows an optional sign on each
side of a complex literal, so `(-1.0,2.0)` would parse as
Complex(-1.0, 2.0); but the regex `^\((\d+.?\d*),(\d+.?\d*)\)$` requires
each side to start with a digit, so the scalar chain rejects it
(`NoSingleValueFoundException`). -/
theorem complex_sign_counterexample :
    pyParseValue "(-1.0,2.0)".data = .error (.noSingleValue "(-1.0,2.0)".data) := by
  rfl

/-- Claim C8 (corrected).  The scalar chain (after integer and real, before
boolean and quoted string) recognizes `(<side>,<side>)` where each side
must start with a digit — no sign — and is digits, optionally followed by
one arbitrary character (the pattern's unescaped `.`) and more digits;
each captured side then goes through `float()`.  So `(1.0,2.0)` and
`(1,2)` parse as Complex, `(-1.0,2.0)` does not, and `(1x5,2.0)` matches
the pattern but crashes `float()` with `ValueError`. -/
theorem complex_literal_amended :
    pyParseValue "(1.0,2.0)".data = .ok (.complex 1 2) ∧
    pyParseValue "(1,2)".data = .ok (.complex 1 2) ∧
    pyParseValue "(-1.0,2.0)".data = .error (.noSingleValue "(-1.0,2.0)".data) ∧
    pyParseValue "(1x5,2.0)".data = .error (.valueErr "1x5".data) := by
  exact ⟨by rfl, by rfl, by rfl, by rfl⟩

theorem updateA_map_fst {α β : Type} [DecidableEq α] (d : List (α × β)) (k : α) (v : β) :
    (updateA d k v).map Prod.fst = d.map Prod.fst := by
  induction d with
  | nil => rfl
  | cons hd tl ih =>
    obtain ⟨k0, v0⟩ := hd
    by_cases h : k = k0 <;> simp [updateA, h, ih]

theorem lookupA_updateA_self {α β : Type} [DecidableEq α] (d : List (α × β)) (k : α) (v : β)
    (h : (lookupA d k).isSome) : lookupA (updateA d k v) k = some v := by
  induction d with
  | nil => simp [lookupA] at h
  | cons hd tl ih =>
    obtain ⟨k0, v0⟩ := hd
    by_cases hk : k = k0
    · simp [updateA, lookupA, hk]
    · simp only [lookupA, if_neg hk] at h
      simp [updateA, lookupA, hk, ih h]

theorem lookupA_updateA_ne {α β : Type} [DecidableEq α] (d : List (α × β)) (k k2 : α) (v : β)
    (h : k2 ≠ k) : lookupA (updateA d k v) k2 = lookupA d k2 := by
  induction d with
  | nil => rfl
  | cons hd tl ih =>
    obtain ⟨k0, v0⟩ := hd
    by_cases hk : k = k0
    · subst hk
      simp [updateA, lookupA, if_neg h]
    · by_cases hk2 : k2 = k0 <;> simp [updateA, lookupA, hk, hk2, ih]

/-- Claim C10 (confirmed).  `AttributeMapper.__setattr__` never changes the
wrapped group's set of variable names: assigning to a name already present
replaces that variable's value in place (same keys in the same order, the
named value replaced, all other values untouched), and assigning to an
absent name raises `NotImplementedError`, returning no modified group. -/
theorem attribute_setattr_preserves_names {β : Type} (d : List (Chars × β)) (k : Chars) (v : β) :
    ((lookupA d k).isSome →
      amSetattr d k v = .ok (updateA d k v) ∧
      (updateA d k v).map Prod.fst = d.map Prod.fst ∧
      lookupA (updateA d k v) k = some v ∧
      ∀ k2, k2 ≠ k → lookupA (updateA d k v) k2 = lookupA d k2) ∧
    (¬(lookupA d k).isSome → amSetattr d k v = .error .notImplErr) := by
  constructor
  · intro h
    refine ⟨by simp [amSetattr, h], updateA_map_fst d k v,
      lookupA_updateA_self d k v h, fun k2 hk2 => lookupA_updateA_ne d k k2 v hk2⟩
  · intro h
    simp [amSetattr, h]

/-- Witness for `attribute_setattr_preserves_names` at a concrete group. -/
theorem attribute_setattr_preserves_names_witness :
    amSetattr [("a".data, (0 : ℤ)), ("b".data, 5)] "a".data 1
        = .ok [("a".data, 1), ("b".data, 5)] ∧
    amSetattr [("a".data, (0 : ℤ)), ("b".data, 5)] "c".data 1 = .error .notImplErr := by
  constructor
  · have h := (attribute_setattr_preserves_names
      [("a".data, (0 : ℤ)), ("b".data, 5)] "a".data 1).1 (by decide)
    exact h.1.trans (by rfl)
  · exact (attribute_setattr_preserves_names
      [("a".data, (0 : ℤ)), ("b".data, 5)] "c".data 1).2 (by decide)

/-- Claim C9, counterexample.  The claim says every parsed List is dense
with no unfilled holes; but a written index `0` becomes internal index
`-1`, which Python list assignment wraps to the last slot, so
`a(0)=1.0, a(2)=2.0` parses successfully to `a = [None, 2.0]` — a list
with an unfilled `None` hole. -/
theorem list_hole_counterexample :
    parseNamelist "&g\na(0)=1.0\na(2)=2.0\n/"
      = .ok [("g".data, [("a".data, .val (.list [.noneV, .real 2]))])] := by
  rfl

/-- Claim C6, counterexample.  The claim says each assembled line is split
on its first `=` so that a value containing `=` still parses; but
`k, v = line.split('=')` splits on every `=` and needs exactly two parts,
so the line `x = 'a=b'` (three parts) is treated as a continuation
candidate and, with no previous line, `block_lines[-1]` raises
`IndexError` — the claimed binding of `x` to Text `a=b` never happens. -/
theorem first_eq_split_counterexample :
    parseNamelist "&g\nx = 'a=b'\n/" = .error .indexErr := by
  rfl

/-- Claim C7, counterexample.  The claim says an inline `!` truncates the
line before any further processing, so `x = 1 ! y=2` would parse exactly
like `x = 1`; but the line-assembly split on `=` runs before inline
comments are removed, sees three parts, and fails with `IndexError`,
while `x = 1` parses fine — the two lines do not parse identically. -/
theorem inline_comment_counterexample :
    parseNamelist "&g\nx = 1 ! y=2\n/" = .error .indexErr ∧
    parseNamelist "&g\nx = 1\n/" = .ok [("g".data, [("x".data, .val (.int 1))])] := by
  exact ⟨by rfl, by rfl⟩

/-- Claim C1, counterexample.  The claim includes Complex among the
round-trippable scalars; but the serializer renders a complex value with
`d`-exponent float parts, e.g. `(1.50d+00,2.50d+00)`, which the complex
regex (digits, one character, digits on each side) cannot match, so
re-parsing the dumped group fails with `NoSingleValueFoundException`
instead of restoring the mapping. -/
theorem roundtrip_complex_counterexample :
    pyDump [("g".data, [("x".data, .val (.complex (mkRat 3 2) (mkRat 5 2)))])] "g".data true
        = .ok "&g\n   x = (1.50d+00,2.50d+00)\n/ ! end of g namelist\n".data ∧
    (pyDump [("g".data, [("x".data, .val (.complex (mkRat 3 2) (mkRat 5 2)))])] "g".data
        true).bind pyNamelist
      = .error (.noSingleValue "(1.50d+00,2.50d+00)".data) := by
  exact ⟨by rfl, by rfl⟩

/-! ## String-processing lemmas -/

theorem countChar_append (sep : Char) (a b : Chars) :
    countChar sep (a ++ b) = countChar sep a + countChar sep b := by
  induction a with
  | nil => simp [countChar]
  | cons c t ih => simp [countChar, ih]; ring

theorem countChar_eq_zero (sep : Char) (l : Chars) (h : sep ∉ l) : countChar sep l = 0 := by
  induction l with
  | nil => rfl
  | cons c t ih =>
    simp only [List.mem_cons, not_or] at h
    simp [countChar, Ne.symm h.1, ih h.2]

theorem splitOnChar_no_sep (sep : Char) (l : Chars) (h : sep ∉ l) :
    splitOnChar sep l = [l] := by
  induction l with
  | nil => rfl
  | cons c t ih =>
    simp only [List.mem_cons, not_or] at h
    simp [splitOnChar, Ne.symm h.1, ih h.2]

theorem splitOnChar_append_sep (sep : Char) (a b : Chars) (h : sep ∉ a) :
    splitOnChar sep (a ++ sep :: b) = a :: splitOnChar sep b := by
  induction a with
  | nil => simp [splitOnChar]
  | cons c t ih =>
    simp only [List.mem_cons, not_or] at h
    simp only [List.cons_append, splitOnChar, List.append_eq, ih h.2, if_neg (Ne.symm h.1)]

theorem splitOnChar_length (sep : Char) (l : Chars) :
    (splitOnChar sep l).length = countChar sep l + 1 := by
  induction l with
  | nil => rfl
  | cons c t ih =>
    by_cases h : c = sep
    · simp [splitOnChar, countChar, h, ih]
      omega
    · simp only [splitOnChar, countChar, if_neg h]
      rcases hs : splitOnChar sep t with _ | ⟨hd, tl⟩
      · rw [hs] at ih; simp at ih
      · rw [hs] at ih
        simpa using ih

theorem splitEq2_none_of_count (l : Chars) (h : countChar '=' l ≠ 1) : splitEq2 l = none := by
  unfold splitEq2
  rcases hs : splitOnChar '=' l with _ | ⟨k, _ | ⟨v, _ | ⟨w, t⟩⟩⟩ <;> try rfl
  · exfalso
    have := splitOnChar_length '=' l
    rw [hs] at this
    simp at this
    omega

theorem splitAtFirstChar_append (sep : Char) (k v : Chars) (h : sep ∉ k) :
    splitAtFirstChar sep (k ++ sep :: v) = some (k, v) := by
  induction k with
  | nil => simp [splitAtFirstChar]
  | cons c t ih =>
    simp only [List.mem_cons, not_or] at h
    simp [splitAtFirstChar, Ne.symm h.1, ih h.2]

theorem splitAtFirstChar_some (sep : Char) (l k v : Chars)
    (h : splitAtFirstChar sep l = some (k, v)) : l = k ++ sep :: v ∧ sep ∉ k := by
  induction l generalizing k with
  | nil => simp [splitAtFirstChar] at h
  | cons c t ih =>
    by_cases hc : c = sep
    · subst hc
      rw [splitAtFirstChar, if_pos rfl] at h
      simp only [Option.some.injEq, Prod.mk.injEq] at h
      simp [← h.1, ← h.2]
    · rw [splitAtFirstChar, if_neg hc] at h
      rcases hr : splitAtFirstChar sep t with _ | ⟨k2, v2⟩
      · rw [hr] at h; simp at h
      · rw [hr] at h
        simp only [Option.map_some', Option.some.injEq, Prod.mk.injEq] at h
        obtain ⟨hk, hv⟩ := h
        subst hv
        obtain ⟨h1, h2⟩ := ih k2 hr
        refine ⟨by simp [← hk, h1], ?_⟩
        rw [← hk]
        simp only [List.mem_cons, not_or]
        exact ⟨Ne.symm hc, h2⟩

theorem countChar_ne_zero_of_mem (sep : Char) (l : Chars) (h : sep ∈ l) :
    countChar sep l ≠ 0 := by
  induction l with
  | nil => simp at h
  | cons c t ih =>
    rcases List.mem_cons.1 h with h1 | h1
    · simp [countChar, h1.symm]
    · have := ih h1
      simp only [countChar]
      omega

theorem splitEq2_first (l k v : Chars) (h : splitAtFirstChar '=' l = some (k, v))
    (hv : countChar '=' v = 0) : splitEq2 l = some (k, v) := by
  obtain ⟨hl, hk⟩ := splitAtFirstChar_some '=' l k v h
  have hv2 : '=' ∉ v := fun hm => countChar_ne_zero_of_mem '=' v hm hv
  rw [hl]
  unfold splitEq2
  rw [splitOnChar_append_sep _ _ _ hk, splitOnChar_no_sep _ _ hv2]

theorem pyLStrip_cons_nonspace (c : Char) (l : Chars) (h : pyIsSpace c = false) :
    pyLStrip (c :: l) = c :: l := by
  simp [pyLStrip, List.dropWhile_cons, h]

theorem pyRStrip_cons_nonspace (c : Char) (l : Chars) (h : pyIsSpace c = false) :
    pyRStrip (c :: l) = c :: pyRStrip l := by
  unfold pyRStrip
  rw [show (c :: l).reverse = l.reverse ++ [c] by simp, List.dropWhile_append]
  by_cases he : (l.reverse.dropWhile pyIsSpace).isEmpty
  · simp only [he, if_pos]
    simp only [List.isEmpty_iff] at he
    simp [List.dropWhile_cons, h, he]
  · simp only [he, if_neg, Bool.false_eq_true, not_false_iff]
    simp

theorem pyStrip_cons_nonspace (c : Char) (l : Chars) (h : pyIsSpace c = false) :
    pyStrip (c :: l) = c :: pyRStrip l := by
  rw [pyStrip, pyLStrip_cons_nonspace c l h, pyRStrip_cons_nonspace c l h]

theorem pyRStrip_append (a b : Chars) :
    pyRStrip (a ++ b) = if pyRStrip b = [] then pyRStrip a else a ++ pyRStrip b := by
  unfold pyRStrip
  rw [show (a ++ b).reverse = b.reverse ++ a.reverse by simp, List.dropWhile_append]
  by_cases he : (b.reverse.dropWhile pyIsSpace).isEmpty
  · simp only [he, if_pos]
    simp only [List.isEmpty_iff] at he
    simp [he]
  · simp only [he, Bool.false_eq_true, if_neg, not_false_iff]
    simp only [List.isEmpty_iff] at he
    rw [if_neg (by simpa using he)]
    simp

theorem mem_pyRStrip (x : Char) (l : Chars) (h : x ∈ pyRStrip l) : x ∈ l := by
  unfold pyRStrip at h
  rw [List.mem_reverse] at h
  have := (List.dropWhile_sublist (l := l.reverse) (p := pyIsSpace)).mem h
  rwa [List.mem_reverse] at this

/-- Claim C6 (corrected).  The per-line split strips a trailing comma if
present and then requires the remaining line to contain exactly one `=`,
splitting there — which coincides with splitting on the first `=` (the
`splitAtFirstChar` hypothesis); under the stated assumption that values
contain no `=`, no line is dropped.  A line with any other number of `=`s
does not split (`k, v = line.split('=')` raises `ValueError`). -/
theorem per_line_split_amended :
    (∀ l k v, splitAtFirstChar '=' l = some (k, v) → countChar '=' v = 0 →
      '!' ∉ l → l.getLast? ≠ some ',' → perLineKV l = .ok (k, v)) ∧
    (∀ l k v, splitAtFirstChar '=' l = some (k, v) → countChar '=' v = 0 →
      '!' ∉ l → perLineKV (l ++ [',']) = .ok (k, v)) ∧
    (∀ l, countChar '=' l ≠ 1 → splitEq2 l = none) := by
  refine ⟨?_, ?_, fun l h => splitEq2_none_of_count l h⟩
  · intro l k v h hv hb hc
    simp only [perLineKV]
    rw [if_neg hc]
    rw [if_neg hb, splitEq2_first l k v h hv]
  · intro l k v h hv hb
    simp only [perLineKV]
    rw [List.getLast?_concat, if_pos rfl, List.dropLast_concat]
    rw [if_neg hb, splitEq2_first l k v h hv]

/-- Witness for `per_line_split_amended` at concrete lines. -/
theorem per_line_split_amended_witness :
    perLineKV "x = 1".data = .ok ("x ".data, " 1".data) ∧
    perLineKV ("x = 1".data ++ [',']) = .ok ("x ".data, " 1".data) ∧
    splitEq2 "x = 'a=b'".data = none := by
  refine ⟨?_, ?_, per_line_split_amended.2.2 "x = 'a=b'".data (by decide)⟩
  · exact per_line_split_amended.1 "x = 1".data "x ".data " 1".data
      (by decide) (by decide) (by decide) (by decide)
  · exact per_line_split_amended.2.1 "x = 1".data "x ".data " 1".data
      (by decide) (by decide) (by decide)

theorem splitEq2_isSome_of_count (l : Chars) (h : countChar '=' l = 1) :
    (splitEq2 l).isSome := by
  unfold splitEq2
  have hl := splitOnChar_length '=' l
  rw [h] at hl
  rcases hs : splitOnChar '=' l with _ | ⟨k, _ | ⟨v, _ | ⟨w, t⟩⟩⟩ <;>
    rw [hs] at hl <;> simp at hl ⊢

theorem lastSlashCapture_concat (A : Chars) (hA : A ≠ []) :
    lastSlashCapture (A ++ ['/']) = some A := by
  unfold lastSlashCapture
  rw [show (A ++ ['/']).reverse = '/' :: A.reverse by simp]
  rw [splitAtFirstChar, if_pos rfl]
  simp [hA]

theorem pyFindGroups_single (A : Chars) (h : '&' ∉ A) (hA : A ≠ []) :
    pyFindGroups ('&' :: (A ++ ['/'])) = [A] := by
  unfold pyFindGroups
  rw [splitOnChar, if_pos rfl,
    splitOnChar_no_sep '&' (A ++ ['/']) (by
      rw [List.mem_append]
      rintro (hx | hx)
      · exact h hx
      · simp at hx)]
  simp [lastSlashCapture_concat A hA]

theorem intercalate_nl3 (a b c : Chars) :
    List.intercalate ['\n'] [a, b, c] = a ++ '\n' :: b ++ '\n' :: c := by
  simp [List.intercalate]

/-- The inline-comment truncation is independent of the comment text: for
any `d`, the per-line processing of `x = 1 ! ` followed by `d` yields the
split of `x = 1`. -/
theorem perLineKV_inline (d : Chars) :
    perLineKV ("x = 1 ! ".data ++ d) = .ok ("x ".data, " 1".data) := by
  have hsplit : ∀ d2 : Chars,
      pyStrip (List.takeWhile (fun c => decide (c ≠ '!')) ("x = 1 ! ".data ++ d2))
        = "x = 1".data := by
    intro d2
    rw [show "x = 1 ! ".data ++ d2 = "x = 1 ".data ++ ('!' :: ' ' :: d2) by simp,
      List.takeWhile_append, if_pos (by decide)]
    rw [show List.takeWhile (fun c => decide (c ≠ '!')) ('!' :: ' ' :: d2) = [] by
      simp [List.takeWhile_cons]]
    decide
  have hmem : ∀ d2 : Chars, '!' ∈ "x = 1 ! ".data ++ d2 := by
    intro d2
    exact List.mem_append.2 (Or.inl (by decide))
  simp only [perLineKV]
  by_cases hlast : ("x = 1 ! ".data ++ d).getLast? = some ','
  · rw [if_pos hlast]
    have hd : d ≠ [] := by
      intro hn
      rw [hn] at hlast
      simp at hlast
    rw [List.dropLast_append_of_ne_nil _ hd, if_pos (hmem d.dropLast), hsplit d.dropLast]
    rfl
  · rw [if_neg hlast, if_pos (hmem d), hsplit d]
    rfl

theorem strip_inline (c : Chars) :
    pyStrip ("x = 1 ! ".data ++ c) = 'x' :: pyRStrip (" = 1 ! ".data ++ c) := by
  rw [show "x = 1 ! ".data ++ c = 'x' :: (" = 1 ! ".data ++ c) from rfl,
    pyStrip_cons_nonspace _ _ (by decide)]

theorem filteredLines_comment_line (c : Chars) (h : '\n' ∉ c) :
    filteredLines ("&g\n! ".data ++ c ++ "\nx = 1\n/".data)
      = ["&g".data, "x = 1".data, "/".data] := by
  have e1 : "&g\n! ".data ++ c ++ "\nx = 1\n/".data
      = "&g".data ++ '\n' :: (('!' :: ' ' :: c) ++ '\n' :: ("x = 1".data ++ '\n' :: "/".data)) := by
    simp
  have hnc : '\n' ∉ '!' :: ' ' :: c := by
    simp only [List.mem_cons, not_or]
    exact ⟨by decide, by decide, h⟩
  unfold filteredLines
  rw [e1, splitOnChar_append_sep _ _ _ (by decide),
    splitOnChar_append_sep _ _ _ hnc,
    splitOnChar_append_sep _ _ _ (by decide),
    splitOnChar_no_sep _ _ (by decide)]
  have hpred : (!startsWithBang (pyStrip ('!' :: ' ' :: c))) = false := by
    rw [pyStrip_cons_nonspace _ _ (by decide)]
    rfl
  have h1 : (!startsWithBang (pyStrip "&g".data)) = true := by decide
  have h3 : (!startsWithBang (pyStrip "x = 1".data)) = true := by decide
  have h4 : (!startsWithBang (pyStrip "/".data)) = true := by decide
  simp [List.filter_cons, hpred, h1, h3, h4]

theorem filteredLines_inline (c : Chars) (h : '\n' ∉ c) :
    filteredLines ("&g\nx = 1 ! ".data ++ c ++ "\n/".data)
      = ["&g".data, "x = 1 ! ".data ++ c, "/".data] := by
  have e1 : "&g\nx = 1 ! ".data ++ c ++ "\n/".data
      = "&g".data ++ '\n' :: (("x = 1 ! ".data ++ c) ++ '\n' :: "/".data) := by
    simp
  have hnc : '\n' ∉ "x = 1 ! ".data ++ c := by
    rw [List.mem_append]
    rintro (hx | hx)
    · exact absurd hx (by decide)
    · exact h hx
  unfold filteredLines
  rw [e1, splitOnChar_append_sep _ _ _ (by decide),
    splitOnChar_append_sep _ _ _ hnc,
    splitOnChar_no_sep _ _ (by decide)]
  have hpred : (!startsWithBang (pyStrip ("x = 1 ! ".data ++ c))) = true := by
    rw [strip_inline]
    rfl
  have h1 : (!startsWithBang (pyStrip "&g".data)) = true := by decide
  have h4 : (!startsWithBang (pyStrip "/".data)) = true := by decide
  simp only [List.filter_cons, hpred, h1, h4]
  simp

theorem assembleBody_inline (c : Chars) (he : '=' ∉ c) :
    assembleBody [] ["x = 1 ! ".data ++ c, []]
      = .ok [pyStrip ("x = 1 ! ".data ++ c)] := by
  have hcount : countChar '=' (pyStrip ("x = 1 ! ".data ++ c)) = 1 := by
    rw [strip_inline, pyRStrip_append]
    by_cases hc : pyRStrip c = []
    · rw [if_pos hc]; decide
    · rw [if_neg hc,
        show ('x' :: (" = 1 ! ".data ++ pyRStrip c)) = "x = 1 ! ".data ++ pyRStrip c from rfl,
        countChar_append,
        countChar_eq_zero '=' (pyRStrip c) (fun hm => he (mem_pyRStrip _ _ hm))]
      decide
  have hne : ¬(pyStrip ("x = 1 ! ".data ++ c) = []) := by
    rw [strip_inline]
    simp
  have hbang : ¬(startsWithBang (pyStrip ("x = 1 ! ".data ++ c)) = true) := by
    rw [strip_inline]
    simp [startsWithBang]
  have hsome : (splitEq2 (pyStrip ("x = 1 ! ".data ++ c))).isSome =  true :=
    splitEq2_isSome_of_count _ hcount
  simp only [assembleBody]
  rw [if_neg hne, if_neg hbang, if_pos hsome]
  rfl

theorem processLine_inline (c : Chars) :
    processLine [] (pyStrip ("x = 1 ! ".data ++ c))
      = .ok [("x".data, GVal.val (.int 1))] := by
  rw [strip_inline, pyRStrip_append]
  by_cases hc : pyRStrip c = []
  · rw [if_pos hc]
    rfl
  · rw [if_neg hc,
      show ('x' :: (" = 1 ! ".data ++ pyRStrip c)) = "x = 1 ! ".data ++ pyRStrip c from rfl]
    simp only [processLine]
    rw [perLineKV_inline]
    rfl

theorem exc_bind_ok {α β : Type} (x : α) (f : α → Except PyErr β) :
    (Except.ok x >>= f) = f x := rfl

theorem exc_bind_err {α β : Type} (e : PyErr) (f : α → Except PyErr β) :
    ((Except.error e : Except PyErr α) >>= f) = .error e := rfl

theorem processBlock_inline (c : Chars) (h1 : '\n' ∉ c) (he : '=' ∉ c) :
    processBlock ([], []) ('g' :: '\n' :: (("x = 1 ! ".data ++ c) ++ ['\n']))
      = .ok ([("g".data, [("x".data, GVal.val (.int 1))])], []) := by
  have hnc : '\n' ∉ "x = 1 ! ".data ++ c := by
    rw [List.mem_append]
    rintro (hx | hx)
    · exact absurd hx (by decide)
    · exact h1 hx
  have hls : splitOnChar '\n' ('g' :: '\n' :: (("x = 1 ! ".data ++ c) ++ ['\n']))
      = [['g'], "x = 1 ! ".data ++ c, []] := by
    rw [show ('g' :: '\n' :: (("x = 1 ! ".data ++ c) ++ ['\n']))
        = ['g'] ++ '\n' :: (("x = 1 ! ".data ++ c) ++ '\n' :: ([] : Chars)) by simp,
      splitOnChar_append_sep _ _ _ (by decide), splitOnChar_append_sep _ _ _ hnc]
    rfl
  have hpl := processLine_inline c
  have hab := assembleBody_inline c he
  simp only [processBlock, hls, List.headI, List.tail_cons, hab, exc_bind_ok,
    List.foldlM_cons, List.foldlM_nil, hpl]
  rfl

/-- Claim C7 (corrected).  A line whose stripped form starts with `!` is
dropped entirely before group extraction, whatever follows the `!`.  An
inline `!` truncates a data line at the first `!` only after the assembly
split on `=` and the trailing-comma strip have run — not before any
further processing — so `x = 1 ! comment` parses identically to `x = 1`
for every comment free of `=`, `&` and newlines (and in particular for the
literal line `x = 1 ! comment`). -/
theorem comment_stripping_amended :
    (∀ c : Chars, '\n' ∉ c →
      pyNamelist ("&g\n! ".data ++ c ++ "\nx = 1\n/".data)
        = pyNamelist "&g\nx = 1\n/".data) ∧
    (∀ c : Chars, '\n' ∉ c → '=' ∉ c → '&' ∉ c →
      pyNamelist ("&g\nx = 1 ! ".data ++ c ++ "\n/".data)
        = pyNamelist "&g\nx = 1\n/".data) ∧
    parseNamelist "&g\nx = 1 ! comment\n/" = parseNamelist "&g\nx = 1\n/" := by
  refine ⟨?_, ?_, by rfl⟩
  · intro c h
    unfold pyNamelist
    rw [filteredLines_comment_line c h]
    rfl
  · intro c h1 h2 h3
    have hamp : '&' ∉ 'g' :: '\n' :: (("x = 1 ! ".data ++ c) ++ ['\n']) := by
      simp only [List.mem_cons, List.mem_append, not_or]
      exact ⟨by decide, by decide, ⟨by decide, h3⟩, by decide⟩
    unfold pyNamelist
    rw [filteredLines_inline c h1, intercalate_nl3,
      show "&g".data ++ '\n' :: ("x = 1 ! ".data ++ c) ++ '\n' :: "/".data
        = '&' :: (('g' :: '\n' :: (("x = 1 ! ".data ++ c) ++ ['\n'])) ++ ['/']) by simp,
      pyFindGroups_single _ hamp (by simp)]
    simp only [List.foldlM_cons, List.foldlM_nil]
    rw [processBlock_inline c h1 h2]
    rfl

/-- Witness for `comment_stripping_amended` at a concrete comment. -/
theorem comment_stripping_amended_witness :
    pyNamelist ("&g\n! ".data ++ "note".data ++ "\nx = 1\n/".data)
        = pyNamelist "&g\nx = 1\n/".data ∧
    pyNamelist ("&g\nx = 1 ! ".data ++ "note, more!".data ++ "\n/".data)
        = pyNamelist "&g\nx = 1\n/".data := by
  exact ⟨comment_stripping_amended.1 "note".data (by decide),
    comment_stripping_amended.2.1 "note, more!".data (by decide) (by decide) (by decide)⟩

/-! ## Shape invariants of the parse pipeline (claim C9) -/

theorem pyParseValue_scalar (v : Chars) (pv : PyVal) (h : pyParseValue v = .ok pv) :
    isScalarB pv = true := by
  unfold pyParseValue at h
  repeat' split at h
  all_goals cases h
  all_goals rfl

theorem lookupA_mem {α β : Type} [DecidableEq α] (d : List (α × β)) (k : α) (v : β)
    (h : lookupA d k = some v) : (k, v) ∈ d := by
  induction d with
  | nil => simp [lookupA] at h
  | cons hd tl ih =>
    obtain ⟨k0, v0⟩ := hd
    by_cases hk : k = k0
    · subst hk
      rw [lookupA, if_pos rfl] at h
      cases h
      exact List.mem_cons_self _ _
    · rw [lookupA, if_neg hk] at h
      exact List.mem_cons_of_mem _ (ih h)

theorem updateA_forall {α β : Type} [DecidableEq α] (P : β → Prop) (d : List (α × β))
    (k : α) (v : β) (hd : ∀ p ∈ d, P p.2) (hv : P v) :
    ∀ p ∈ updateA d k v, P p.2 := by
  induction d with
  | nil => simp [updateA]
  | cons hd0 tl ih =>
    obtain ⟨k0, v0⟩ := hd0
    intro p hp
    by_cases hk : k = k0
    · rw [updateA, if_pos hk] at hp
      rcases List.mem_cons.1 hp with h1 | h1
      · rw [h1]; exact hv
      · exact hd p (List.mem_cons_of_mem _ h1)
    · rw [updateA, if_neg hk] at hp
      rcases List.mem_cons.1 hp with h1 | h1
      · rw [h1]; exact hd _ (List.mem_cons_self _ _)
      · exact ih (fun q hq => hd q (List.mem_cons_of_mem _ hq)) p h1

theorem insertOrUpdate_forall {α β : Type} [DecidableEq α] (P : β → Prop) (d : List (α × β))
    (k : α) (v : β) (hd : ∀ p ∈ d, P p.2) (hv : P v) :
    ∀ p ∈ insertOrUpdate d k v, P p.2 := by
  unfold insertOrUpdate
  match lookupA d k with
  | some _ => exact updateA_forall P d k v hd hv
  | none =>
    intro p hp
    rcases List.mem_append.1 hp with h1 | h1
    · exact hd p h1
    · rcases List.mem_singleton.1 h1 with h2
      rw [h2]; exact hv

theorem arrInsert_raw (g g2 : NlGroup) (nm : Chars) (idx : ℤ) (pv : PyVal)
    (hg : groupRawP g) (hpv : isScalarB pv = true)
    (h : arrInsert g nm idx pv = .ok g2) : groupRawP g2 := by
  unfold arrInsert at h
  rcases hl : lookupA g nm with _ | gv
  · rw [hl] at h
    cases h
    intro p hp
    rcases List.mem_append.1 hp with h1 | h1
    · exact hg p h1
    · rcases List.mem_singleton.1 h1 with h2
      rw [h2]
      simpa [rawShapeB] using hpv
  · rw [hl] at h
    rcases gv with v | es
    · cases h
    · cases h
      have hes : rawShapeB (GVal.arr es) = true := hg _ (lookupA_mem g nm _ hl)
      simp only [rawShapeB, List.all_eq_true] at hes
      intro p hp
      refine updateA_forall (fun w => rawShapeB w = true) g nm _ hg ?_ p hp
      simp only [rawShapeB, List.all_eq_true]
      intro q hq
      exact insertOrUpdate_forall (fun w => isScalarB w = true) es idx pv
        (fun r hr => hes r hr) hpv q hq

theorem foldlM_preserve {σ α : Type} (P : σ → Prop) (f : σ → α → Except PyErr σ)
    (hf : ∀ g a g2, f g a = .ok g2 → P g → P g2) :
    ∀ (l : List α) (g : σ) (g2 : σ), P g → List.foldlM f g l = .ok g2 → P g2 := by
  intro l
  induction l with
  | nil =>
    intro g g2 hP h
    simp only [List.foldlM_nil] at h
    cases h
    exact hP
  | cons x xs ih =>
    intro g g2 hP h
    rw [List.foldlM_cons] at h
    rcases hx : f g x with e | a
    · rw [hx] at h
      rw [exc_bind_err] at h
      cases h
    · rw [hx] at h
      exact ih a g2 (hf g x a hx hP) h

theorem inlineAssign_raw (g g2 : NlGroup) (nm : Chars) (vval : Chars)
    (hg : groupRawP g) (h : inlineAssign g nm vval = .ok g2) : groupRawP g2 := by
  unfold inlineAssign at h
  refine foldlM_preserve groupRawP _ ?_ _ g g2 hg h
  intro g0 p g3 hstep hP
  rcases hpv : pyParseValue p.2 with e | pv
  · rw [hpv] at hstep
    rw [exc_bind_err] at hstep
    cases hstep
  · rw [hpv] at hstep
    rw [exc_bind_ok] at hstep
    exact arrInsert_raw g0 g3 nm _ pv hP (pyParseValue_scalar _ _ hpv) hstep

theorem processLine_raw (g g2 : NlGroup) (l : Chars)
    (hg : groupRawP g) (h : processLine g l = .ok g2) : groupRawP g2 := by
  unfold processLine at h
  rcases hkv : perLineKV l with e | kv <;> rw [hkv] at h
  · cases h
  · rw [exc_bind_ok] at h
    have harr : ∀ (nm : Chars) (idx : ℤ) (pv : PyVal),
        pyParseValue (pyStrip kv.2) = .ok pv → arrInsert g nm idx pv = .ok g2 →
        groupRawP g2 := fun nm idx pv hpv hstep =>
      arrInsert_raw g g2 nm idx pv hg (pyParseValue_scalar _ _ hpv) hstep
    split at h
    · dsimp only at h
      split at h
      · exact harr _ _ _ (by assumption) h
      · exact inlineAssign_raw g g2 _ _ hg h
      · cases h
    · dsimp only at h
      split at h
      · cases h
        refine insertOrUpdate_forall (fun w => rawShapeB w = true) g _ _ hg ?_
        simpa [rawShapeB] using pyParseValue_scalar _ _ (by assumption)
      · exact inlineAssign_raw g g2 _ _ hg h
      · cases h

theorem exc_map_ok {α β : Type} (x : α) (f : α → β) :
    (Except.ok x : Except PyErr α).map f = .ok (f x) := rfl

theorem exc_map_err {α β : Type} (e : PyErr) (f : α → β) :
    (Except.error e : Except PyErr α).map f = .error e := rfl

theorem foldlM_preserve_mem {σ α : Type} (P : σ → Prop) (f : σ → α → Except PyErr σ) :
    ∀ (l : List α), (∀ g a g2, a ∈ l → f g a = .ok g2 → P g → P g2) →
    ∀ g g2, P g → List.foldlM f g l = .ok g2 → P g2 := by
  intro l
  induction l with
  | nil =>
    intro _ g g2 hP h
    simp only [List.foldlM_nil] at h
    cases h
    exact hP
  | cons x xs ih =>
    intro hf g g2 hP h
    rw [List.foldlM_cons] at h
    rcases hx : f g x with e | a <;> rw [hx] at h
    · rw [exc_bind_err] at h
      cases h
    · exact ih (fun g0 a0 g1 hm => hf g0 a0 g1 (List.mem_cons_of_mem _ hm)) a g2
        (hf g x a (List.mem_cons_self _ _) hx hP) h

theorem list_set_forall (P : PyVal → Prop) (l : List PyVal) (i : ℕ) (v : PyVal)
    (hl : ∀ x ∈ l, P x) (hv : P v) : ∀ x ∈ l.set i v, P x := by
  intro x hx
  rcases List.mem_or_eq_of_mem_set hx with h1 | h1
  · exact hl x h1
  · rw [h1]; exact hv

theorem pyListSet_forall (P : PyVal → Prop) (l r : List PyVal) (i : ℤ) (v : PyVal)
    (h : pyListSet l i v = .ok r) (hl : ∀ x ∈ l, P x) (hv : P v) : ∀ x ∈ r, P x := by
  unfold pyListSet at h
  dsimp only at h
  by_cases hc : 0 ≤ (if i < 0 then i + (l.length : ℤ) else i) ∧
      (if i < 0 then i + (l.length : ℤ) else i) < (l.length : ℤ)
  · rw [if_pos hc] at h
    cases h
    exact list_set_forall P l _ v hl hv
  · rw [if_neg hc] at h
    cases h

theorem densifyArr_shape (es : List (ℤ × PyVal)) (lv : List PyVal)
    (hes : ∀ p ∈ es, isScalarB p.2 = true) (h : densifyArr es = .ok lv) :
    ∀ x ∈ lv, (isScalarB x || isNoneB x) = true := by
  unfold densifyArr at h
  refine foldlM_preserve_mem (fun lst => ∀ x ∈ lst, (isScalarB x || isNoneB x) = true) _
    es ?_ _ lv ?_ h
  · intro l0 p l1 hm hstep hP
    split at hstep
    · cases hstep
    · refine pyListSet_forall _ _ _ _ _ hstep hP ?_
      rw [hes p hm]
      rfl
  · intro x hx
    rw [List.eq_of_mem_replicate hx]
    rfl

theorem exMapM_forall {α β : Type} (P : α → Prop) (Q : β → Prop) (f : α → Except PyErr β)
    (hf : ∀ a b, P a → f a = .ok b → Q b) :
    ∀ (l : List α) (r : List β), (∀ a ∈ l, P a) → exMapM f l = .ok r → ∀ b ∈ r, Q b := by
  intro l
  induction l with
  | nil =>
    intro r _ h
    cases h
    simp
  | cons x xs ih =>
    intro r hP h
    unfold exMapM at h
    rcases hx : f x with e | y <;> rw [hx] at h
    · rw [exc_bind_err] at h
      cases h
    · rw [exc_bind_ok] at h
      rcases hxs : exMapM f xs with e | ys <;> rw [hxs] at h
      · rw [exc_bind_err] at h
        cases h
      · rw [exc_bind_ok] at h
        cases h
        intro b hb
        rcases List.mem_cons.1 hb with h1 | h1
        · rw [h1]
          exact hf x y (hP x (List.mem_cons_self _ _)) hx
        · exact ih ys (fun a ha => hP a (List.mem_cons_of_mem _ ha)) hxs b h1

theorem val_raw_to_final (v : PyVal) (h : rawShapeB (GVal.val v) = true) :
    finalShapeB (GVal.val v) = true := by
  cases v <;> simp_all [rawShapeB, finalShapeB, isScalarB]

theorem checkListsGroup_shape (g g2 : NlGroup)
    (hg : ∀ p ∈ g, entryMixedP p.2) (h : checkListsGroup g = .ok g2) :
    ∀ p ∈ g2, finalShapeB p.2 = true := by
  unfold checkListsGroup at h
  refine exMapM_forall (fun p => entryMixedP p.2) (fun p => finalShapeB p.2 = true) _
    ?_ g g2 hg h
  rintro ⟨nm, gv⟩ b hPa hab
  dsimp only at hPa hab
  rcases gv with v | es
  · cases hab
    rcases hPa with h1 | h1
    · exact val_raw_to_final v h1
    · exact h1
  · replace hab : Except.map (fun lv => (nm, GVal.val (PyVal.list lv))) (densifyArr es)
        = Except.ok b := hab
    rcases hd : densifyArr es with e | lv <;> rw [hd] at hab
    · rw [exc_map_err] at hab
      cases hab
    · rw [exc_map_ok] at hab
      cases hab
      have hes : ∀ p ∈ es, isScalarB p.2 = true := by
        rcases hPa with h1 | h1
        · simpa [rawShapeB, List.all_eq_true] using h1
        · simp [finalShapeB] at h1
      simp only [finalShapeB, List.all_eq_true]
      exact densifyArr_shape es lv hes hd

theorem checkListsDoc_shape (d d2 : NlDoc)
    (hd : ∀ g ∈ d, ∀ p ∈ g.2, entryMixedP p.2) (h : checkListsDoc d = .ok d2) :
    docFinalP d2 := by
  unfold checkListsDoc at h
  refine exMapM_forall (fun g => ∀ p ∈ g.2, entryMixedP p.2)
    (fun g => ∀ p ∈ g.2, finalShapeB p.2 = true) _ ?_ d d2 hd h
  rintro ⟨nm, grp⟩ b hPa hab
  rcases hc : checkListsGroup grp with e | g3 <;> rw [hc] at hab
  · rw [exc_map_err] at hab
    cases hab
  · rw [exc_map_ok] at hab
    cases hab
    exact checkListsGroup_shape grp g3 hPa hc

theorem processBlock_shape (st st2 : NlDoc × List (Chars × ℕ)) (b : Chars)
    (hst : docFinalP st.1) (h : processBlock st b = .ok st2) : docFinalP st2.1 := by
  unfold processBlock at h
  dsimp only at h
  rcases hab : assembleBody [] (splitOnChar '\n' b).tail with e | bls <;> rw [hab] at h
  · rw [exc_bind_err] at h
    cases h
  · rw [exc_bind_ok] at h
    rcases hfld : List.foldlM processLine [] bls with e | g <;> rw [hfld] at h
    · rw [exc_bind_err] at h
      cases h
    · rw [exc_bind_ok] at h
      have hgraw : groupRawP g :=
        foldlM_preserve groupRawP processLine
          (fun g0 a g1 hstep hP => processLine_raw g0 g1 a hP hstep) bls [] g
          (by intro p hp; cases hp) hfld
      rcases hcl : checkListsDoc _ with e | d3 <;> rw [hcl] at h
      · rw [exc_bind_err] at h
        cases h
      · rw [exc_bind_ok] at h
        cases h
        refine checkListsDoc_shape _ d3 ?_ hcl
        refine insertOrUpdate_forall (fun grpv => ∀ p ∈ grpv, entryMixedP p.2) st.1 _ g
          ?_ ?_
        · intro grp hgrp p hp
          exact Or.inr (hst grp hgrp p hp)
        · intro p hp
          exact Or.inl (hgraw p hp)

theorem pyNamelist_shape (s : Chars) (doc : NlDoc) (h : pyNamelist s = .ok doc) :
    docFinalP doc := by
  unfold pyNamelist at h
  rcases hf : List.foldlM processBlock (([] : NlDoc), ([] : List (Chars × ℕ)))
      (pyFindGroups (List.intercalate ['\n'] (filteredLines s))) with e | st <;> rw [hf] at h
  · rw [exc_map_err] at h
    cases h
  · rw [exc_map_ok] at h
    cases h
    exact foldlM_preserve (fun st => docFinalP st.1) processBlock
      (fun g0 a g1 hstep hP => processBlock_shape g0 g1 a hP hstep) _ _ st
      (by intro g hg; cases hg) hf

theorem pyListSet_nonneg (l r : List PyVal) (i : ℤ) (v : PyVal) (hi : 0 ≤ i)
    (h : pyListSet l i v = .ok r) :
    i < (l.length : ℤ) ∧ r = l.set i.toNat v := by
  unfold pyListSet at h
  dsimp only at h
  rw [if_neg (by omega : ¬ i < 0)] at h
  by_cases hc : 0 ≤ i ∧ i < (l.length : ℤ)
  · rw [if_pos hc] at h
    cases h
    exact ⟨hc.2, rfl⟩
  · rw [if_neg hc] at h
    cases h

theorem densify_fold_get (b : ℕ) (msg : Chars) :
    ∀ (l : List (ℤ × PyVal)) (acc r : List PyVal),
    (∀ p ∈ l, 0 ≤ p.1) →
    List.foldlM
      (fun lst p => if (b : ℤ) ≤ p.1 then Except.error (PyErr.nameErr msg)
        else pyListSet lst p.1 p.2) acc l = .ok r →
    r.length = acc.length ∧ (∀ p ∈ l, p.1 < (b : ℤ)) ∧
    ∀ j : ℕ, ((r.get? j = acc.get? j ∧ (j : ℤ) ∉ l.map Prod.fst) ∨
      ∃ p ∈ l, p.1 = (j : ℤ) ∧ r.get? j = some p.2) := by
  intro l
  induction l with
  | nil =>
    intro acc r _ h
    simp only [List.foldlM_nil] at h
    cases h
    exact ⟨rfl, by simp, fun j => Or.inl ⟨rfl, by simp⟩⟩
  | cons p l' ih =>
    intro acc r hpos h
    rw [List.foldlM_cons] at h
    by_cases hble : (b : ℤ) ≤ p.1
    · rw [if_pos hble, exc_bind_err] at h
      cases h
    · rw [if_neg hble] at h
      rcases hset : pyListSet acc p.1 p.2 with e | acc1 <;> rw [hset] at h
      · rw [exc_bind_err] at h
        cases h
      · rw [exc_bind_ok] at h
        have hp0 : 0 ≤ p.1 := hpos p (List.mem_cons_self _ _)
        obtain ⟨hilt, hacc1⟩ := pyListSet_nonneg acc acc1 p.1 p.2 hp0 hset
        obtain ⟨ihlen, ihlt, ihget⟩ :=
          ih acc1 r (fun q hq => hpos q (List.mem_cons_of_mem _ hq)) h
        refine ⟨by rw [ihlen, hacc1, List.length_set], ?_, ?_⟩
        · intro q hq
          rcases List.mem_cons.1 hq with h1 | h1
          · rw [h1]; omega
          · exact ihlt q h1
        · intro j
          rcases ihget j with ⟨heq, hnot⟩ | ⟨q, hq, hqj, hqx⟩
          · by_cases hj : p.1.toNat = j
            · right
              refine ⟨p, List.mem_cons_self _ _, by omega, ?_⟩
              rw [heq, hacc1, hj]
              exact List.get?_set_eq_of_lt p.2 (by omega)
            · left
              refine ⟨by rw [heq, hacc1, List.get?_set_ne _ _ hj], ?_⟩
              simp only [List.map_cons, List.mem_cons, not_or]
              exact ⟨by omega, hnot⟩
          · right
            exact ⟨q, List.mem_cons_of_mem _ hq, hqj, hqx⟩

theorem keys_complete (ks : List ℤ) (n : ℕ) (hnd : ks.Nodup) (hlen : ks.length = n)
    (hrange : ∀ k ∈ ks, 0 ≤ k ∧ k < (n : ℤ)) : ∀ j : ℕ, j < n → (j : ℤ) ∈ ks := by
  intro j hj
  have hsub : ks.toFinset ⊆ Finset.Ico (0 : ℤ) n := by
    intro k hk
    rw [List.mem_toFinset] at hk
    rw [Finset.mem_Ico]
    exact hrange k hk
  have hcard : (Finset.Ico (0 : ℤ) (n : ℤ)).card ≤ ks.toFinset.card := by
    rw [Int.card_Ico, List.toFinset_card_of_nodup hnd, hlen]
    simp
  have heq := Finset.eq_of_subset_of_card_le hsub hcard
  have : (j : ℤ) ∈ ks.toFinset := by
    rw [heq, Finset.mem_Ico]
    constructor
    · positivity
    · exact_mod_cast hj
  rwa [List.mem_toFinset] at this

theorem densifyArr_dense (es : List (ℤ × PyVal)) (lv : List PyVal)
    (hpos : ∀ p ∈ es, 0 ≤ p.1) (hnd : (es.map Prod.fst).Nodup)
    (hnn : ∀ p ∈ es, isNoneB p.2 = false)
    (h : densifyArr es = .ok lv) : ∀ x ∈ lv, isNoneB x = false := by
  unfold densifyArr at h
  obtain ⟨hlen, hlt, hget⟩ :=
    densify_fold_get es.length "variable".data es (List.replicate es.length PyVal.noneV) lv
      hpos h
  intro x hx
  obtain ⟨j, hjx⟩ := List.mem_iff_get?.mp hx
  have hjlen : j < lv.length := (List.get?_eq_some.mp hjx).1
  have hjn : j < es.length := by
    rw [hlen, List.length_replicate] at hjlen
    exact hjlen
  rcases hget j with ⟨heq, hnot⟩ | ⟨p, hp, hpj, hpx⟩
  · exfalso
    refine hnot (keys_complete (es.map Prod.fst) es.length hnd (by simp) ?_ j hjn)
    intro k hk
    obtain ⟨q, hq, hqk⟩ := List.mem_map.1 hk
    exact ⟨hqk ▸ hpos q hq, hqk ▸ hlt q hq⟩
  · rw [hjx] at hpx
    cases hpx
    exact hnn p hp

/-- Claim C9 (corrected).  Every successful parse returns only scalar
values or flat lists of scalars-or-`None` — no nested lists and never the
internal `_is_list` marker dict — and densification of an index dict with
distinct non-negative indices and non-`None` values yields a list with no
`None` hole.  (A written index `0` produces internal index `-1`, which
wraps around and can leave holes; see `list_hole_counterexample`.) -/
theorem parse_result_shape_amended :
    (∀ (s : Chars) (doc : NlDoc), pyNamelist s = .ok doc →
      ∀ g ∈ doc, ∀ p ∈ g.2, finalShapeB p.2 = true) ∧
    (∀ (es : List (ℤ × PyVal)) (lv : List PyVal),
      (∀ p ∈ es, 0 ≤ p.1) → (es.map Prod.fst).Nodup →
      (∀ p ∈ es, isNoneB p.2 = false) →
      densifyArr es = .ok lv → ∀ x ∈ lv, isNoneB x = false) :=
  ⟨fun s doc h => pyNamelist_shape s doc h,
   fun es lv hpos hnd hnn h => densifyArr_dense es lv hpos hnd hnn h⟩

/-- Witness for `parse_result_shape_amended` at a concrete parse and a
concrete index dict. -/
theorem parse_result_shape_amended_witness :
    (∀ p ∈ [("a".data, GVal.val (.list [.real 1, .real 2]))], finalShapeB p.2 = true) ∧
    (∀ x ∈ [PyVal.real 1, PyVal.real 2], isNoneB x = false) := by
  constructor
  · intro p hp
    refine parse_result_shape_amended.1 "&grp\na(2)=2.0\na(1)=1.0\n/".data
      [("grp".data, [("a".data, GVal.val (.list [.real 1, .real 2]))])] (by rfl)
      ("grp".data, [("a".data, GVal.val (.list [.real 1, .real 2]))]) (by simp) p hp
  · intro x hx
    refine parse_result_shape_amended.2 [((0 : ℤ), PyVal.real 1), (1, PyVal.real 2)]
      [PyVal.real 1, PyVal.real 2] (by decide) (by decide) (by decide) (by rfl) x hx

/-! ## Digit rendering and parsing lemmas (for the round-trip claim C1) -/

theorem digitChar_isDigit (k : ℕ) (h : k < 10) : (digitChar k).isDigit = true := by
  interval_cases k <;> decide

theorem digitChar_toNat (k : ℕ) (h : k < 10) : (digitChar k).toNat - 48 = k := by
  interval_cases k <;> decide

theorem digitChar_not_space (k : ℕ) (h : k < 10) : pyIsSpace (digitChar k) = false := by
  interval_cases k <;> decide

theorem digitsVal_foldl (b : Chars) : ∀ A : ℕ,
    List.foldl (fun a c => 10 * a + (c.toNat - 48)) A b = A * 10 ^ b.length + digitsVal b := by
  induction b with
  | nil => intro A; simp [digitsVal]
  | cons c t ih =>
    intro A
    show List.foldl _ (10 * A + (c.toNat - 48)) t = _
    rw [ih]
    have hc : digitsVal (c :: t) = (c.toNat - 48) * 10 ^ t.length + digitsVal t := by
      show List.foldl _ (10 * 0 + (c.toNat - 48)) t = _
      rw [ih]
      ring_nf
    rw [hc, List.length_cons]
    ring

theorem digitsVal_append (a b : Chars) :
    digitsVal (a ++ b) = digitsVal a * 10 ^ b.length + digitsVal b := by
  show List.foldl _ 0 (a ++ b) = _
  rw [List.foldl_append]
  exact digitsVal_foldl b _

theorem natDecGo_zero (f : ℕ) : natDecGo f 0 = [] := by
  cases f <;> simp [natDecGo]

theorem natDecGo_digits : ∀ fuel n, n < fuel → ∀ c ∈ natDecGo fuel n, c.isDigit = true := by
  intro fuel
  induction fuel with
  | zero => intro n h; omega
  | succ f ih =>
    intro n h c hc
    rw [natDecGo] at hc
    by_cases hn : n = 0
    · rw [if_pos hn] at hc
      cases hc
    · rw [if_neg hn] at hc
      rcases List.mem_append.1 hc with h1 | h1
      · exact ih _ (by omega) c h1
      · rw [List.mem_singleton.1 h1]
        exact digitChar_isDigit _ (Nat.mod_lt _ (by omega))

theorem natDecGo_val : ∀ fuel n, n < fuel → digitsVal (natDecGo fuel n) = n := by
  intro fuel
  induction fuel with
  | zero => intro n h; omega
  | succ f ih =>
    intro n h
    rw [natDecGo]
    by_cases hn : n = 0
    · rw [if_pos hn, hn]
      rfl
    · rw [if_neg hn, digitsVal_append, ih _ (by omega)]
      have h10 : n % 10 < 10 := Nat.mod_lt _ (by omega)
      have hone : digitsVal [digitChar (n % 10)] = n % 10 := by
        show 10 * 0 + ((digitChar (n % 10)).toNat - 48) = n % 10
        rw [Nat.mul_zero, Nat.zero_add]
        exact digitChar_toNat _ h10
      rw [hone]
      simp only [List.length_singleton, pow_one]
      omega

theorem natDec_digits (n : ℕ) : ∀ c ∈ natDec n, c.isDigit = true := by
  unfold natDec
  by_cases h : n = 0
  · rw [if_pos h]
    intro c hc
    rw [List.mem_singleton.1 hc]
    rfl
  · rw [if_neg h]
    exact natDecGo_digits _ _ (by omega)

theorem natDec_val (n : ℕ) : digitsVal (natDec n) = n := by
  unfold natDec
  by_cases h : n = 0
  · rw [if_pos h, h]
    rfl
  · rw [if_neg h]
    exact natDecGo_val _ _ (by omega)

theorem natDec_ne_nil (n : ℕ) : natDec n ≠ [] := by
  unfold natDec
  by_cases h : n = 0
  · rw [if_pos h]
    simp
  · rw [if_neg h, natDecGo, if_neg h]
    simp

theorem natDecGo_length_bounds : ∀ fuel n, n < fuel → 1 ≤ n →
    10 ^ ((natDecGo fuel n).length - 1) ≤ n ∧ n < 10 ^ (natDecGo fuel n).length := by
  intro fuel
  induction fuel with
  | zero => intro n h; omega
  | succ f ih =>
    intro n h h1
    rw [natDecGo, if_neg (by omega : ¬ n = 0)]
    by_cases hn : n < 10
    · have hz : n / 10 = 0 := by omega
      rw [hz, natDecGo_zero]
      constructor
      · simpa using by omega
      · simpa using hn
    · have hq1 : 1 ≤ n / 10 := by omega
      have hqf : n / 10 < f := by omega
      obtain ⟨hlo, hhi⟩ := ih (n / 10) hqf hq1
      have hlen : 1 ≤ (natDecGo f (n / 10)).length := by
        by_contra hcon
        have hnil : natDecGo f (n / 10) = [] := List.eq_nil_of_length_eq_zero (by omega)
        rw [hnil] at hhi
        simp at hhi
        omega
      rw [List.length_append, List.length_singleton]
      constructor
      · calc 10 ^ ((natDecGo f (n / 10)).length + 1 - 1)
            = 10 ^ ((natDecGo f (n / 10)).length - 1) * 10 := by
              rw [← pow_succ]
              congr 1
              omega
        _ ≤ n / 10 * 10 := Nat.mul_le_mul_right _ hlo
        _ ≤ n := by omega
      · calc n < (n / 10 + 1) * 10 := by omega
        _ ≤ 10 ^ (natDecGo f (n / 10)).length * 10 :=
              Nat.mul_le_mul_right _ (by omega)
        _ = 10 ^ ((natDecGo f (n / 10)).length + 1) := by rw [pow_succ]

theorem natDec_length_bounds (n : ℕ) (h : 1 ≤ n) :
    10 ^ ((natDec n).length - 1) ≤ n ∧ n < 10 ^ (natDec n).length := by
  unfold natDec
  rw [if_neg (by omega)]
  exact natDecGo_length_bounds _ _ (by omega) h

theorem dropWhile_id_of_false {p : Char → Bool} (l : Chars)
    (h : ∀ c ∈ l, p c = false) : l.dropWhile p = l := by
  cases l with
  | nil => rfl
  | cons c t =>
    rw [List.dropWhile_cons, h c (List.mem_cons_self _ _)]
    simp

theorem pyLStrip_id (l : Chars) (h : ∀ c ∈ l, pyIsSpace c = false) : pyLStrip l = l :=
  dropWhile_id_of_false l h

theorem pyRStrip_id (l : Chars) (h : ∀ c ∈ l, pyIsSpace c = false) : pyRStrip l = l := by
  unfold pyRStrip
  rw [dropWhile_id_of_false l.reverse (fun c hc => h c (List.mem_reverse.1 hc)),
    List.reverse_reverse]

theorem pyStrip_id (l : Chars) (h : ∀ c ∈ l, pyIsSpace c = false) : pyStrip l = l := by
  rw [pyStrip, pyLStrip_id l h, pyRStrip_id l h]

theorem isDigit_not_space (c : Char) (h : c.isDigit = true) : pyIsSpace c = false := by
  unfold pyIsSpace
  simp only [Bool.or_eq_false_iff, decide_eq_false_iff_not]
  unfold Char.isDigit at h
  simp only [Bool.and_eq_true, decide_eq_true_eq] at h
  repeat' constructor
  all_goals (intro he; subst he; revert h; decide)

theorem signSplitZ_default (t : Chars)
    (h : ∀ c, t.head? = some c → c ≠ '+' ∧ c ≠ '-') : signSplitZ t = (1, t) := by
  cases t with
  | nil => rfl
  | cons c r =>
    obtain ⟨h1, h2⟩ := h c rfl
    rw [signSplitZ, if_neg h1, if_neg h2]

theorem digitsUAux_digits (ds rest : Chars) (hds : ∀ c ∈ ds, c.isDigit = true)
    (hrest : ∀ c, rest.head? = some c → c.isDigit = false ∧ c ≠ '_') :
    digitsUAux (ds ++ rest) = (ds, rest) := by
  induction ds with
  | nil =>
    cases rest with
    | nil => rfl
    | cons c r =>
      obtain ⟨h1, h2⟩ := hrest c rfl
      rw [show ([] : Chars) ++ c :: r = c :: r from rfl, digitsUAux.eq_def]
      dsimp only
      rw [if_neg (by simp [h1]), if_neg h2]
  | cons d t ih =>
    have hd : d.isDigit = true := hds d (List.mem_cons_self _ _)
    have ih2 := ih (fun c hc => hds c (List.mem_cons_of_mem _ hc))
    rw [List.cons_append, digitsUAux.eq_def]
    dsimp only
    rw [if_pos hd, ih2]

theorem takeDigitsU_digits (ds rest : Chars) (hne : ds ≠ [])
    (hds : ∀ c ∈ ds, c.isDigit = true)
    (hrest : ∀ c, rest.head? = some c → c.isDigit = false ∧ c ≠ '_') :
    takeDigitsU (ds ++ rest) = some (ds, rest) := by
  cases ds with
  | nil => exact absurd rfl hne
  | cons d t =>
    have hd : d.isDigit = true := hds d (List.mem_cons_self _ _)
    rw [List.cons_append, takeDigitsU, if_pos hd]
    dsimp only
    rw [digitsUAux_digits t rest (fun c hc => hds c (List.mem_cons_of_mem _ hc)) hrest]

theorem natDec_not_space (n : ℕ) : ∀ c ∈ natDec n, pyIsSpace c = false :=
  fun c hc => isDigit_not_space c (natDec_digits n c hc)

theorem natDec_head_digit (n : ℕ) :
    ∀ c, (natDec n).head? = some c → c.isDigit = true := by
  intro c hc
  cases hn : natDec n with
  | nil => rw [hn] at hc; cases hc
  | cons d t =>
    rw [hn, List.head?_cons] at hc
    injection hc with h
    rw [← h]
    exact natDec_digits n d (by rw [hn]; exact List.mem_cons_self _ _)

theorem natDec_head_not_sign (n : ℕ) :
    ∀ c, (natDec n).head? = some c → c ≠ '+' ∧ c ≠ '-' := by
  intro c hc
  have hd := natDec_head_digit n c hc
  constructor <;> (intro he; rw [he] at hd; exact absurd hd (by decide))

theorem takeDigitsU_natDec (n : ℕ) : takeDigitsU (natDec n) = some (natDec n, []) := by
  have := takeDigitsU_digits (natDec n) [] (natDec_ne_nil n) (natDec_digits n)
    (fun c hc => by cases hc)
  rwa [List.append_nil] at this

theorem pyInt_natDec (n : ℕ) : pyInt (natDec n) = some (n : ℤ) := by
  unfold pyInt
  rw [pyStrip_id _ (natDec_not_space n)]
  dsimp only
  rw [signSplitZ_default _ (natDec_head_not_sign n)]
  dsimp only
  rw [takeDigitsU_natDec]
  show some (1 * (digitsVal (natDec n) : ℤ)) = some (n : ℤ)
  rw [natDec_val]
  simp

theorem pyInt_intDec (i : ℤ) : pyInt (intDec i) = some i := by
  unfold intDec
  by_cases h : i < 0
  · rw [if_pos h]
    unfold pyInt
    rw [pyStrip_id _ (by
      intro c hc
      rcases List.mem_cons.1 hc with h1 | h1
      · rw [h1]; rfl
      · exact natDec_not_space _ c h1)]
    dsimp only
    rw [show signSplitZ ('-' :: natDec i.natAbs) = (-1, natDec i.natAbs) from by
      rw [signSplitZ]
      simp]
    dsimp only
    rw [takeDigitsU_natDec]
    show some (-1 * (digitsVal (natDec i.natAbs) : ℤ)) = some i
    rw [natDec_val]
    congr 1
    omega
  · rw [if_neg h, pyInt_natDec]
    congr 1
    omega

/-- Claim C1 building block: formatted integers re-parse to themselves. -/
theorem pyParseValue_int (i : ℤ) : pyParseValue (intDec i) = .ok (.int i) := by
  unfold pyParseValue
  rw [pyInt_intDec]

theorem pyParseValue_bool (b : Bool) :
    pyParseValue (if b then ".true.".data else ".false.".data) = .ok (.bool b) := by
  cases b <;> rfl

theorem pyStrip_quote (s : Chars) : pyStrip ('\'' :: s ++ ['\'']) = '\'' :: s ++ ['\''] := by
  rw [show ('\'' :: s ++ ['\'']) = '\'' :: (s ++ ['\'']) from rfl,
    pyStrip_cons_nonspace _ _ (by decide), pyRStrip_append]
  rw [show pyRStrip ['\''] = ['\''] from rfl]
  simp

theorem pyInt_quote (s : Chars) : pyInt ('\'' :: s ++ ['\'']) = none := by
  unfold pyInt
  rw [pyStrip_quote]
  dsimp only
  rw [signSplitZ_default _ (by
    intro c hc
    cases hc
    exact ⟨by decide, by decide⟩)]
  rfl

theorem pyFloat_quote (s : Chars) : pyFloat ('\'' :: s ++ ['\'']) = none := by
  unfold pyFloat
  rw [pyStrip_quote]
  dsimp only
  rw [signSplitZ_default _ (by
    intro c hc
    cases hc
    exact ⟨by decide, by decide⟩)]
  rfl

/-- Claim C1 building block: a quoted quote-free text re-parses to the
text itself (whatever characters, including `d`, it contains — the
quoted-string branch reads the original, unreplaced value). -/
theorem pyParseValue_str (s : Chars) (hq : '\'' ∉ s) :
    pyParseValue ('\'' :: s ++ ['\'']) = .ok (.str s) := by
  unfold pyParseValue
  rw [pyInt_quote]
  rw [show replaceChar 'd' 'E' ('\'' :: s ++ ['\''])
      = '\'' :: replaceChar 'd' 'E' s ++ ['\''] from by
    unfold replaceChar
    simp]
  rw [pyFloat_quote]
  rw [show matchComplex ('\'' :: s ++ ['\'']) = none from rfl]
  rw [if_neg (by
    rintro (he | he) <;> cases he), if_neg (by
    rintro (he | he) <;> cases he)]
  rw [if_pos ?hc]
  case hc =>
    refine ⟨rfl, ?_, ?_⟩
    · rw [show ('\'' :: s ++ ['\'']) = ('\'' :: s) ++ ['\''] from rfl, List.getLast?_concat]
    · rw [show ('\'' :: s ++ ['\'']) = ('\'' :: s) ++ ['\''] from rfl, countChar_append,
        show countChar '\'' ['\''] = 1 from rfl]
      rw [show countChar '\'' ('\'' :: s) = 1 + countChar '\'' s from rfl,
        countChar_eq_zero _ _ hq]
  rw [show ('\'' :: s ++ ['\'']).tail = s ++ ['\''] from rfl, List.dropLast_concat]

theorem zpow_toNat_split (e : ℤ) :
    (10:ℚ) ^ e = ((10 ^ e.toNat : ℕ) : ℚ) / ((10 ^ (-e).toNat : ℕ) : ℚ) := by
  rcases le_or_lt 0 e with h | h
  · rw [show (-e).toNat = 0 by omega]
    rw [show ((10 ^ e.toNat : ℕ) : ℚ) = (10:ℚ) ^ e.toNat by push_cast; ring]
    rw [← zpow_natCast (10:ℚ) e.toNat]
    rw [show (e.toNat : ℤ) = e by omega]
    simp
  · rw [show e.toNat = 0 by omega]
    rw [show ((10 ^ (-e).toNat : ℕ) : ℚ) = (10:ℚ) ^ (-e).toNat by push_cast; ring]
    rw [← zpow_natCast (10:ℚ) (-e).toNat]
    rw [show ((-e).toNat : ℤ) = -e by omega]
    rw [zpow_neg]
    simp [one_div]

theorem q_le_div_iff (e : ℤ) (n d : ℕ) (hd : 1 ≤ d) :
    ((10:ℚ) ^ e ≤ (n : ℚ) / d) ↔ (d * 10 ^ e.toNat ≤ n * 10 ^ (-e).toNat) := by
  rw [zpow_toNat_split]
  have h1 : (0:ℚ) < ((10 ^ (-e).toNat : ℕ) : ℚ) := by positivity
  have h2 : (0:ℚ) < (d:ℚ) := by exact_mod_cast hd
  rw [div_le_div_iff h1 h2]
  rw [mul_comm (((10 ^ e.toNat : ℕ)) : ℚ) (d:ℚ)]
  norm_cast

theorem q_div_lt_iff (e : ℤ) (n d : ℕ) (hd : 1 ≤ d) :
    ((n : ℚ) / d < (10:ℚ) ^ e) ↔ (n * 10 ^ (-e).toNat < d * 10 ^ e.toNat) := by
  rw [zpow_toNat_split]
  have h1 : (0:ℚ) < ((10 ^ (-e).toNat : ℕ) : ℚ) := by positivity
  have h2 : (0:ℚ) < (d:ℚ) := by exact_mod_cast hd
  rw [div_lt_div_iff h2 h1]
  rw [mul_comm (((10 ^ e.toNat : ℕ)) : ℚ) (d:ℚ)]
  norm_cast

theorem natExp10_spec (n d : ℕ) (hn : 1 ≤ n) (hd : 1 ≤ d) :
    (10:ℚ) ^ (natExp10 n d) ≤ (n : ℚ) / d ∧ (n : ℚ) / d < 10 ^ (natExp10 n d + 1) := by
  obtain ⟨hn1, hn2⟩ := natDec_length_bounds n hn
  obtain ⟨hd1, hd2⟩ := natDec_length_bounds d hd
  have hLn : 1 ≤ (natDec n).length := List.length_pos.2 (natDec_ne_nil n)
  have hLd : 1 ≤ (natDec d).length := List.length_pos.2 (natDec_ne_nil d)
  have hnq : (0:ℚ) < (n:ℚ) := by exact_mod_cast hn
  have hdq : (0:ℚ) < (d:ℚ) := by exact_mod_cast hd
  set LN := (natDec n).length with hLNdef
  set LD := (natDec d).length with hLDdef
  have hqn1 : (10:ℚ) ^ ((LN : ℤ) - 1) ≤ (n:ℚ) := by
    rw [show (LN:ℤ) - 1 = ((LN - 1 : ℕ) : ℤ) by omega, zpow_natCast]
    exact_mod_cast hn1
  have hqn2 : (n:ℚ) < (10:ℚ) ^ (LN : ℤ) := by
    rw [zpow_natCast]
    exact_mod_cast hn2
  have hqd1 : (10:ℚ) ^ ((LD : ℤ) - 1) ≤ (d:ℚ) := by
    rw [show (LD:ℤ) - 1 = ((LD - 1 : ℕ) : ℤ) by omega, zpow_natCast]
    exact_mod_cast hd1
  have hqd2 : (d:ℚ) < (10:ℚ) ^ (LD : ℤ) := by
    rw [zpow_natCast]
    exact_mod_cast hd2
  have hub : (n : ℚ) / d < 10 ^ ((LN : ℤ) - LD + 1) := by
    have s1 : (n : ℚ) / d ≤ (n : ℚ) / (10:ℚ) ^ ((LD : ℤ) - 1) :=
      (div_le_div_iff_of_pos_left hnq hdq (by positivity)).mpr hqd1
    have s2 : (n : ℚ) / (10:ℚ) ^ ((LD : ℤ) - 1) < (10:ℚ) ^ (LN:ℤ) / (10:ℚ) ^ ((LD : ℤ) - 1) :=
      (div_lt_div_iff_of_pos_right (by positivity)).mpr hqn2
    calc (n : ℚ) / d ≤ (n : ℚ) / (10:ℚ) ^ ((LD : ℤ) - 1) := s1
      _ < (10:ℚ) ^ (LN:ℤ) / (10:ℚ) ^ ((LD : ℤ) - 1) := s2
      _ = 10 ^ ((LN : ℤ) - LD + 1) := by
          rw [← zpow_sub₀ (by norm_num : (10:ℚ) ≠ 0)]
          congr 1
          ring
  have hlb : (10:ℚ) ^ ((LN : ℤ) - LD - 1) ≤ (n : ℚ) / d := by
    calc (10:ℚ) ^ ((LN : ℤ) - LD - 1)
        = (10:ℚ) ^ ((LN : ℤ) - 1) / (10:ℚ) ^ (LD : ℤ) := by
          rw [← zpow_sub₀ (by norm_num : (10:ℚ) ≠ 0)]
          congr 1
          ring
      _ ≤ (n : ℚ) / d := div_le_div₀ (le_of_lt hnq) hqn1 hdq (le_of_lt hqd2)
  unfold natExp10
  dsimp only
  by_cases hok : d * 10 ^ ((LN:ℤ) - LD).toNat ≤ n * 10 ^ (-((LN:ℤ) - LD)).toNat
  · rw [if_pos (by simpa using hok)]
    exact ⟨(q_le_div_iff _ n d hd).mpr hok, hub⟩
  · rw [if_neg (by simpa using hok)]
    constructor
    · exact hlb
    · rw [show (LN:ℤ) - LD - 1 + 1 = (LN:ℤ) - LD by ring]
      exact (q_div_lt_iff _ n d hd).mpr (by omega)

theorem rhe_bounds (x : ℚ) :
    x - 1/2 ≤ (rhe x : ℚ) ∧ (rhe x : ℚ) ≤ x + 1/2 := by
  unfold rhe
  dsimp only
  have hfl : ((⌊x⌋ : ℤ) : ℚ) ≤ x := Int.floor_le x
  have hfu : x < (⌊x⌋ : ℚ) + 1 := Int.lt_floor_add_one x
  have hden : (0:ℚ) < (x.den : ℚ) := by
    have := x.pos
    exact_mod_cast this
  have hd0 : (x.den : ℚ) ≠ 0 := ne_of_gt hden
  have hnum : (x.num : ℚ) = x * x.den := by
    have h := Rat.num_div_den x
    rw [div_eq_iff hd0] at h
    exact h
  have hfloor_eq : x.floor = ⌊x⌋ := rfl
  rw [hfloor_eq]
  have ht : ((2 * (x.num - ⌊x⌋ * x.den) : ℤ) : ℚ) = 2 * x.den * (x - ⌊x⌋) := by
    push_cast
    rw [hnum]
    ring
  by_cases h1 : 2 * (x.num - ⌊x⌋ * x.den) < (x.den : ℤ)
  · rw [if_pos h1]
    have h1q : ((2 * (x.num - ⌊x⌋ * x.den) : ℤ) : ℚ) < (x.den : ℚ) := by exact_mod_cast h1
    rw [ht] at h1q
    exact ⟨by nlinarith, by nlinarith⟩
  · rw [if_neg h1]
    by_cases h2 : (x.den : ℤ) < 2 * (x.num - ⌊x⌋ * x.den)
    · rw [if_pos h2]
      have h2q : (x.den : ℚ) < ((2 * (x.num - ⌊x⌋ * x.den) : ℤ) : ℚ) := by exact_mod_cast h2
      rw [ht] at h2q
      push_cast
      exact ⟨by nlinarith, by nlinarith⟩
    · rw [if_neg h2]
      have heq : 2 * (x.num - ⌊x⌋ * x.den) = (x.den : ℤ) := by omega
      have heqq : 2 * (x.den : ℚ) * (x - ⌊x⌋) = (x.den : ℚ) := by
        rw [← ht, heq]
        push_cast
        ring
      have h4 : (2 * (x - ⌊x⌋) - 1) * (x.den : ℚ) = 0 := by nlinarith [heqq]
      have hx2 : x - ⌊x⌋ = 1/2 := by
        rcases mul_eq_zero.1 h4 with h5 | h5
        · linarith
        · exact absurd h5 hd0
      by_cases h3 : ⌊x⌋ % 2 = 0
      · rw [if_pos h3]
        exact ⟨by linarith, by linarith⟩
      · rw [if_neg h3]
        push_cast
        exact ⟨by linarith, by linarith⟩

theorem rhe_int_bounds (x : ℚ) (lo hi : ℤ)
    (hlo : (lo : ℚ) ≤ x) (hhi : x < (hi : ℚ)) : lo ≤ rhe x ∧ rhe x ≤ hi := by
  obtain ⟨h1, h2⟩ := rhe_bounds x
  constructor
  · have : (lo : ℚ) - 1/2 ≤ (rhe x : ℚ) := by linarith
    have : (lo : ℚ) - 1 < (rhe x : ℚ) := by linarith
    have : lo - 1 < rhe x := by exact_mod_cast this
    omega
  · have : (rhe x : ℚ) < (hi : ℚ) + 1/2 := by linarith
    have : (rhe x : ℚ) < (hi : ℚ) + 1 := by linarith
    have : rhe x < hi + 1 := by exact_mod_cast this
    omega

theorem mantissaE2_scaled (n d : ℕ) (hd : 1 ≤ d) :
    (if natExp10 n d ≤ 2 then mkRat ((n * 10 ^ (2 - natExp10 n d).toNat : ℕ) : ℤ) d
     else mkRat (n : ℤ) (d * 10 ^ (natExp10 n d - 2).toNat))
    = (n : ℚ) / d * 10 ^ (2 - natExp10 n d) := by
  set e := natExp10 n d with he
  have hdq : (0:ℚ) < (d:ℚ) := by exact_mod_cast hd
  by_cases h : e ≤ 2
  · rw [if_pos h, Rat.mkRat_eq_div]
    push_cast
    rw [show (10:ℚ) ^ ((2:ℤ) - e) = ((10:ℚ) ^ ((2 - e).toNat)) by
      rw [← zpow_natCast (10:ℚ) (2 - e).toNat]
      congr 1
      omega]
    ring
  · rw [if_neg h, Rat.mkRat_eq_div]
    push_cast
    rw [show (10:ℚ) ^ ((2:ℤ) - e) = ((10:ℚ) ^ ((e - 2).toNat))⁻¹ by
      rw [← zpow_natCast (10:ℚ) (e - 2).toNat, ← zpow_neg]
      congr 1
      omega]
    rw [div_mul_eq_div_div, div_eq_mul_inv]

theorem mantissaE2_eq_rhe (n d : ℕ) (hd : 1 ≤ d) :
    mantissaE2 n d = (rhe (scaledE2 n d), natExp10 n d) := by
  unfold mantissaE2
  dsimp only
  rw [mantissaE2_scaled n d hd]
  rfl

theorem scaledE2_bounds (n d : ℕ) (hn : 1 ≤ n) (hd : 1 ≤ d) :
    (100:ℚ) ≤ scaledE2 n d ∧ scaledE2 n d < 1000 := by
  obtain ⟨h1, h2⟩ := natExp10_spec n d hn hd
  unfold scaledE2
  set e := natExp10 n d with he
  have hp : (0:ℚ) < (10:ℚ) ^ ((2:ℤ) - e) := by positivity
  constructor
  · have := mul_le_mul_of_nonneg_right h1 (le_of_lt hp)
    calc (100:ℚ) = (10:ℚ) ^ (2:ℤ) := by norm_num
      _ = (10:ℚ) ^ e * (10:ℚ) ^ ((2:ℤ) - e) := by
          rw [← zpow_add₀ (by norm_num : (10:ℚ) ≠ 0)]
          congr 1
          ring
      _ ≤ (n : ℚ) / d * 10 ^ ((2:ℤ) - e) := this
  · have := mul_lt_mul_of_pos_right h2 hp
    calc (n : ℚ) / d * 10 ^ ((2:ℤ) - e) < (10:ℚ) ^ (e + 1) * (10:ℚ) ^ ((2:ℤ) - e) := this
      _ = (10:ℚ) ^ (3:ℤ) := by
          rw [← zpow_add₀ (by norm_num : (10:ℚ) ≠ 0)]
          congr 1
          ring
      _ = 1000 := by norm_num

theorem mantissaE2_bounds (n d : ℕ) (hn : 1 ≤ n) (hd : 1 ≤ d) :
    100 ≤ (mantissaE2 n d).1 ∧ (mantissaE2 n d).1 ≤ 1000 := by
  rw [mantissaE2_eq_rhe n d hd]
  obtain ⟨h1, h2⟩ := scaledE2_bounds n d hn hd
  exact rhe_int_bounds _ 100 1000 (by exact_mod_cast h1) (by exact_mod_cast h2)

theorem mantissaE2_close (n d : ℕ) (hn : 1 ≤ n) (hd : 1 ≤ d) :
    |((mantissaE2 n d).1 : ℚ) - scaledE2 n d| ≤ 1/2 := by
  rw [mantissaE2_eq_rhe n d hd]
  obtain ⟨h1, h2⟩ := rhe_bounds (scaledE2 n d)
  rw [abs_le]
  constructor <;> [linarith; linarith]

theorem qOfParts_val (sgn : ℤ) (ip fp : Chars) (ex : ℤ) :
    qOfParts sgn ip fp ex =
      ((sgn * ((digitsVal ip * 10 ^ fp.length + digitsVal fp : ℕ) : ℤ) : ℤ) : ℚ)
        * (10:ℚ) ^ (ex - fp.length) := by
  unfold qOfParts
  dsimp only
  set m : ℤ := sgn * ((digitsVal ip * 10 ^ fp.length + digitsVal fp : ℕ) : ℤ) with hm
  have h10 : (10:ℚ) ≠ 0 := by norm_num
  by_cases h : 0 ≤ ex
  · rw [if_pos h, Rat.mkRat_eq_div]
    push_cast
    rw [show (10:ℚ) ^ (ex - (fp.length:ℤ))
        = (10:ℚ) ^ ex.toNat / (10:ℚ) ^ fp.length by
      rw [← zpow_natCast (10:ℚ) ex.toNat, ← zpow_natCast (10:ℚ) fp.length,
        ← zpow_sub₀ h10]
      congr 1
      omega]
    ring
  · rw [if_neg h, Rat.mkRat_eq_div]
    push_cast
    rw [show (10:ℚ) ^ (ex - (fp.length:ℤ))
        = ((10:ℚ) ^ fp.length * (10:ℚ) ^ (-ex).toNat)⁻¹ by
      rw [← zpow_natCast (10:ℚ) (-ex).toNat, ← zpow_natCast (10:ℚ) fp.length,
        ← zpow_add₀ h10, ← zpow_neg]
      congr 1
      omega]
    rw [div_eq_mul_inv]

theorem roundE2val_val (q : ℚ) (hq : q ≠ 0) :
    roundE2val q =
      (((if q < 0 then (-1:ℤ) else 1) * (mantissaE2 q.num.natAbs q.den).1 : ℤ) : ℚ)
        * (10:ℚ) ^ ((mantissaE2 q.num.natAbs q.den).2 - 2) := by
  unfold roundE2val
  rw [if_neg hq]
  dsimp only
  set p := mantissaE2 q.num.natAbs q.den with hp
  set sgn : ℤ := if q < 0 then (-1:ℤ) else 1 with hsgn
  have h10 : (10:ℚ) ≠ 0 := by norm_num
  by_cases h : 2 ≤ p.2
  · rw [if_pos h, Rat.mkRat_eq_div]
    push_cast
    rw [show (10:ℚ) ^ (p.2 - 2) = (10:ℚ) ^ (p.2 - 2).toNat by
      rw [← zpow_natCast (10:ℚ) (p.2 - 2).toNat]
      congr 1
      omega]
    ring
  · rw [if_neg h, Rat.mkRat_eq_div]
    push_cast
    rw [show (10:ℚ) ^ (p.2 - 2) = ((10:ℚ) ^ (2 - p.2).toNat)⁻¹ by
      rw [← zpow_natCast (10:ℚ) (2 - p.2).toNat, ← zpow_neg]
      congr 1
      omega]
    rw [div_eq_mul_inv]

theorem abs_q_eq (q : ℚ) : (q.num.natAbs : ℚ) / (q.den : ℚ) = |q| := by
  have h1 : ((q.num.natAbs : ℚ)) = |(q.num : ℚ)| := by
    norm_cast
    rw [Int.abs_eq_natAbs]
    exact (Int.cast_natCast q.num.natAbs).symm
  have h2 : |(q.den : ℚ)| = (q.den : ℚ) :=
    abs_of_pos (show (0:ℚ) < (q.den:ℚ) by exact_mod_cast q.pos)
  rw [h1, ← h2, ← abs_div, Rat.num_div_den]

theorem roundE2val_close (q : ℚ) (hq : q ≠ 0) :
    |roundE2val q - q| ≤ (10:ℚ) ^ ((mantissaE2 q.num.natAbs q.den).2 - 2) / 2 := by
  set n := q.num.natAbs with hn
  set d := q.den with hd
  have hn1 : 1 ≤ n := by
    have : q.num ≠ 0 := Rat.num_ne_zero.2 hq
    omega
  have hd1 : 1 ≤ d := q.pos
  set e := (mantissaE2 n d).2 with he
  set m := (mantissaE2 n d).1 with hm
  have heq : e = natExp10 n d := by rw [he, mantissaE2_eq_rhe n d hd1]
  have habs : (n : ℚ) / d = |q| := abs_q_eq q
  have hrv := roundE2val_val q hq
  rw [← hn, ← hd, ← he, ← hm] at hrv
  have hclose := mantissaE2_close n d hn1 hd1
  rw [← hm] at hclose
  have hscaled : scaledE2 n d = ((n:ℚ)/d) * 10 ^ (2 - e) := by rw [scaledE2, heq]
  have hten : (10:ℚ) ^ ((2:ℤ) - e) * (10:ℚ) ^ (e - 2) = 1 := by
    rw [← zpow_add₀ (by norm_num : (10:ℚ) ≠ 0)]
    norm_num
  have hkey : roundE2val q - q
      = (if q < 0 then (-1:ℚ) else 1) * (((m:ℚ) - scaledE2 n d) * 10 ^ (e - 2)) := by
    rw [hrv, hscaled]
    by_cases h : q < 0
    · rw [if_pos h, if_pos h]
      have hqv : q = -((n:ℚ)/d) := by
        rw [habs, abs_of_neg h]
        ring
      push_cast
      rw [hqv]
      linear_combination (-((n:ℚ)/(d:ℚ))) * hten
    · rw [if_neg h, if_neg h]
      have hqv : q = ((n:ℚ)/d) := by
        rw [habs, abs_of_nonneg (le_of_not_lt h)]
      push_cast
      rw [hqv]
      linear_combination ((n:ℚ)/(d:ℚ)) * hten
  rw [hkey, abs_mul, abs_mul]
  have h1 : |if q < 0 then (-1:ℚ) else 1| = 1 := by
    by_cases h : q < 0
    · rw [if_pos h]; norm_num
    · rw [if_neg h]; norm_num
  rw [h1, one_mul]
  have h2 : |(10:ℚ) ^ (e - 2)| = (10:ℚ) ^ (e - 2) := abs_of_pos (by positivity)
  rw [h2, div_eq_mul_inv, mul_comm ((10:ℚ) ^ (e - 2)) 2⁻¹]
  exact mul_le_mul_of_nonneg_right (by linarith [hclose]) (by positivity)

theorem digit_ne_of_not_digit (k : ℕ) (h : k < 10) (c : Char) (hc : c.isDigit = false) :
    digitChar k ≠ c := by
  intro he
  rw [← he] at hc
  rw [digitChar_isDigit k h] at hc
  cases hc

theorem digitsVal_cons_zero (ds : Chars) : digitsVal ('0' :: ds) = digitsVal ds := rfl

theorem expDigits_val (e2 : ℤ) :
    digitsVal (if e2.natAbs < 10 then '0' :: natDec e2.natAbs else natDec e2.natAbs)
      = e2.natAbs := by
  by_cases h : e2.natAbs < 10
  · rw [if_pos h, digitsVal_cons_zero, natDec_val]
  · rw [if_neg h, natDec_val]

theorem expDigits_digits (e2 : ℤ) :
    ∀ c ∈ (if e2.natAbs < 10 then '0' :: natDec e2.natAbs else natDec e2.natAbs),
      c.isDigit = true := by
  intro c hc
  by_cases h : e2.natAbs < 10
  · rw [if_pos h] at hc
    rcases List.mem_cons.1 hc with h1 | h1
    · rw [h1]; decide
    · exact natDec_digits _ c h1
  · rw [if_neg h] at hc
    exact natDec_digits _ c hc

theorem expDigits_ne_nil (e2 : ℤ) :
    (if e2.natAbs < 10 then '0' :: natDec e2.natAbs else natDec e2.natAbs) ≠ [] := by
  by_cases h : e2.natAbs < 10
  · rw [if_pos h]; exact List.cons_ne_nil _ _
  · rw [if_neg h]; exact natDec_ne_nil _

/-- `float` on the canonical two-decimal scientific spelling: sign,
one digit, point, two digits, `E`, exponent sign, exponent digits. -/
theorem pyFloat_canonical (sgn : ℤ) (sc : Chars)
    (hs : (sc = [] ∧ sgn = 1) ∨ (sc = ['-'] ∧ sgn = -1))
    (a b c : ℕ) (ha : a < 10) (hb : b < 10) (hc : c < 10)
    (ev : ℤ) (se : Char) (hse : (se = '+' ∧ ev = 1) ∨ (se = '-' ∧ ev = -1))
    (eds : Chars) (hed : eds ≠ []) (hedd : ∀ x ∈ eds, x.isDigit = true) :
    pyFloat (sc ++ digitChar a :: '.' :: digitChar b :: digitChar c :: 'E' :: se :: eds)
      = some (qOfParts sgn [digitChar a] [digitChar b, digitChar c] (ev * digitsVal eds)) := by
  set T : Chars :=
    digitChar a :: '.' :: digitChar b :: digitChar c :: 'E' :: se :: eds with hT
  have hTns : ∀ x ∈ sc ++ T, pyIsSpace x = false := by
    intro x hx
    rcases List.mem_append.1 hx with h1 | h1
    · rcases hs with ⟨h2, _⟩ | ⟨h2, _⟩
      · rw [h2] at h1; cases h1
      · rw [h2] at h1
        rcases List.mem_cons.1 h1 with h3 | h3
        · rw [h3]; rfl
        · cases h3
    · rw [hT] at h1
      rcases List.mem_cons.1 h1 with h3 | h3
      · rw [h3]; exact digitChar_not_space a ha
      rcases List.mem_cons.1 h3 with h3 | h3
      · rw [h3]; rfl
      rcases List.mem_cons.1 h3 with h3 | h3
      · rw [h3]; exact digitChar_not_space b hb
      rcases List.mem_cons.1 h3 with h3 | h3
      · rw [h3]; exact digitChar_not_space c hc
      rcases List.mem_cons.1 h3 with h3 | h3
      · rw [h3]; rfl
      rcases List.mem_cons.1 h3 with h3 | h3
      · rcases hse with ⟨h4, _⟩ | ⟨h4, _⟩ <;> (rw [h3, h4]; rfl)
      · exact isDigit_not_space x (hedd x h3)
  have hsplit : signSplitZ (sc ++ T) = (sgn, T) := by
    rcases hs with ⟨h2, h3⟩ | ⟨h2, h3⟩
    · rw [h2, h3, List.nil_append]
      refine signSplitZ_default T ?_
      intro x hx
      rw [hT, List.head?_cons] at hx
      injection hx with hx
      constructor <;>
        (rw [← hx]; exact digit_ne_of_not_digit a ha _ (by decide))
    · rw [h2, h3, List.cons_append, List.nil_append, signSplitZ]
      simp
  have htd1 : takeDigitsU T
      = some ([digitChar a], '.' :: digitChar b :: digitChar c :: 'E' :: se :: eds) := by
    rw [hT]
    exact takeDigitsU_digits [digitChar a] _ (List.cons_ne_nil _ _)
      (by
        intro x hx
        rcases List.mem_cons.1 hx with h1 | h1
        · rw [h1]; exact digitChar_isDigit a ha
        · cases h1)
      (by
        intro x hx
        rw [List.head?_cons] at hx
        injection hx with hx
        rw [← hx]
        exact ⟨by decide, by decide⟩)
  have htd2 : takeDigitsU (digitChar b :: digitChar c :: 'E' :: se :: eds)
      = some ([digitChar b, digitChar c], 'E' :: se :: eds) := by
    exact takeDigitsU_digits [digitChar b, digitChar c] _ (List.cons_ne_nil _ _)
      (by
        intro x hx
        rcases List.mem_cons.1 hx with h1 | h1
        · rw [h1]; exact digitChar_isDigit b hb
        rcases List.mem_cons.1 h1 with h1 | h1
        · rw [h1]; exact digitChar_isDigit c hc
        · cases h1)
      (by
        intro x hx
        rw [List.head?_cons] at hx
        injection hx with hx
        rw [← hx]
        exact ⟨by decide, by decide⟩)
  have hexp : pyFloatExp ('E' :: se :: eds) = some (ev * (digitsVal eds : ℤ), []) := by
    rw [pyFloatExp]
    rw [if_pos (Or.inr rfl)]
    have hsgn2 : signSplitZ (se :: eds) = (ev, eds) := by
      rcases hse with ⟨h4, h5⟩ | ⟨h4, h5⟩
      · rw [h4, h5, signSplitZ]
        simp
      · rw [h4, h5, signSplitZ]
        simp
    rw [hsgn2]
    dsimp only
    have htde : takeDigitsU eds = some (eds, []) := by
      have h5 := takeDigitsU_digits eds [] hed hedd (fun x hx => by cases hx)
      rwa [List.append_nil] at h5
    rw [htde]
  unfold pyFloat
  rw [pyStrip_id _ hTns]
  dsimp only
  rw [hsplit]
  dsimp only
  rw [htd1]
  dsimp only
  split
  · rename_i r2 heq
    injection heq with h1 h2
    subst h2
    rw [htd2]
    dsimp only
    rw [hexp]
  · rename_i h
    exact absurd rfl (h _)

theorem digitsVal_one (c : Char) : digitsVal [c] = c.toNat - 48 := by
  unfold digitsVal
  simp

theorem digitsVal_two (c1 c2 : Char) :
    digitsVal [c1, c2] = 10 * (c1.toNat - 48) + (c2.toNat - 48) := by
  unfold digitsVal
  simp

/-- The integer alternative rejects anything with a decimal point right
after its leading digit. -/
theorem pyInt_canonical_none (sc : Chars) (hs : sc = [] ∨ sc = ['-'])
    (a : ℕ) (ha : a < 10) (rest : Chars) (hns : ∀ c ∈ rest, pyIsSpace c = false) :
    pyInt (sc ++ digitChar a :: '.' :: rest) = none := by
  have hall : ∀ c ∈ sc ++ digitChar a :: '.' :: rest, pyIsSpace c = false := by
    intro x hx
    rcases List.mem_append.1 hx with h1 | h1
    · rcases hs with h2 | h2 <;> rw [h2] at h1
      · cases h1
      · rcases List.mem_cons.1 h1 with h3 | h3
        · rw [h3]; rfl
        · cases h3
    · rcases List.mem_cons.1 h1 with h3 | h3
      · rw [h3]; exact digitChar_not_space a ha
      rcases List.mem_cons.1 h3 with h3 | h3
      · rw [h3]; rfl
      · exact hns x h3
  have hsplit : (signSplitZ (sc ++ digitChar a :: '.' :: rest)).2
      = digitChar a :: '.' :: rest := by
    rcases hs with h2 | h2 <;> rw [h2]
    · rw [List.nil_append,
        signSplitZ_default _ (fun x hx => by
          rw [List.head?_cons] at hx
          injection hx with hx
          constructor <;> (rw [← hx]; exact digit_ne_of_not_digit a ha _ (by decide)))]
    · rw [List.cons_append, List.nil_append, signSplitZ]
      simp
  have htd : takeDigitsU (digitChar a :: '.' :: rest)
      = some ([digitChar a], '.' :: rest) :=
    takeDigitsU_digits [digitChar a] _ (List.cons_ne_nil _ _)
      (by
        intro x hx
        rcases List.mem_cons.1 hx with h1 | h1
        · rw [h1]; exact digitChar_isDigit a ha
        · cases h1)
      (by
        intro x hx
        rw [List.head?_cons] at hx
        injection hx with hx
        rw [← hx]
        exact ⟨by decide, by decide⟩)
  unfold pyInt
  rw [pyStrip_id _ hall]
  dsimp only
  rw [hsplit, htd]

theorem replaceChar_append (a b : Char) (l1 l2 : Chars) :
    replaceChar a b (l1 ++ l2) = replaceChar a b l1 ++ replaceChar a b l2 := by
  unfold replaceChar
  exact List.map_append _ l1 l2

theorem replaceChar_cons_ne (a b c : Char) (l : Chars) (h : c ≠ a) :
    replaceChar a b (c :: l) = c :: replaceChar a b l := by
  unfold replaceChar
  rw [List.map_cons, if_neg h]

theorem replaceChar_cons_eq (a b : Char) (l : Chars) :
    replaceChar a b (a :: l) = b :: replaceChar a b l := by
  unfold replaceChar
  rw [List.map_cons, if_pos rfl]

theorem replaceChar_id (a b : Char) (l : Chars) (h : a ∉ l) :
    replaceChar a b l = l := by
  induction l with
  | nil => rfl
  | cons c r ih =>
    rw [replaceChar_cons_ne a b c r (fun he => h (he ▸ List.mem_cons_self _ _)),
      ih (fun hm => h (List.mem_cons_of_mem _ hm))]

theorem not_mem_of_all_digits (x : Char) (l : Chars)
    (hl : ∀ c ∈ l, c.isDigit = true) (hx : x.isDigit = false) : x ∉ l := by
  intro hm
  rw [hl x hm] at hx
  cases hx

theorem formatE2_decomp (q : ℚ) (hq : q ≠ 0) :
    formatE2 q = (if q < 0 then ['-'] else [])
      ++ [digitChar (fe2mn q / 100), '.', digitChar (fe2mn q / 10 % 10),
          digitChar (fe2mn q % 10), 'e']
      ++ (if fe2e q < 0 then ['-'] else ['+'])
      ++ (if (fe2e q).natAbs < 10 then '0' :: natDec (fe2e q).natAbs
          else natDec (fe2e q).natAbs) := by
  unfold formatE2 fe2mn fe2e
  rw [if_neg hq]
  dsimp only
  by_cases h : (mantissaE2 q.num.natAbs q.den).1 = 1000
  · rw [if_pos h, if_pos h, if_pos h]
  · rw [if_neg h, if_neg h, if_neg h]

theorem fe2mn_bounds (q : ℚ) (hq : q ≠ 0) : 100 ≤ fe2mn q ∧ fe2mn q ≤ 999 := by
  have hn1 : 1 ≤ q.num.natAbs := by
    have : q.num ≠ 0 := Rat.num_ne_zero.2 hq
    omega
  have hd1 : 1 ≤ q.den := q.pos
  obtain ⟨h1, h2⟩ := mantissaE2_bounds q.num.natAbs q.den hn1 hd1
  unfold fe2mn
  by_cases h : (mantissaE2 q.num.natAbs q.den).1 = 1000
  · rw [if_pos h]
    omega
  · rw [if_neg h]
    omega

theorem fmtRealF_decomp (q : ℚ) (hq : q ≠ 0) :
    fmtRealF q = (if q < 0 then ['-'] else [])
      ++ [digitChar (fe2mn q / 100), '.', digitChar (fe2mn q / 10 % 10),
          digitChar (fe2mn q % 10), 'd']
      ++ (if fe2e q < 0 then ['-'] else ['+'])
      ++ (if (fe2e q).natAbs < 10 then '0' :: natDec (fe2e q).natAbs
          else natDec (fe2e q).natAbs) := by
  obtain ⟨hmn1, hmn2⟩ := fe2mn_bounds q hq
  unfold fmtRealF
  rw [formatE2_decomp q hq, replaceChar_append, replaceChar_append, replaceChar_append]
  congr 1
  · congr 1
    · congr 1
      · split <;> rfl
      · rw [replaceChar_cons_ne _ _ _ _ (digit_ne_of_not_digit _ (by omega) _ (by decide)),
          replaceChar_cons_ne _ _ _ _ (by decide),
          replaceChar_cons_ne _ _ _ _ (digit_ne_of_not_digit _ (by omega) _ (by decide)),
          replaceChar_cons_ne _ _ _ _ (digit_ne_of_not_digit _ (by omega) _ (by decide)),
          replaceChar_cons_eq]
        rfl
    · split <;> rfl
  · exact replaceChar_id _ _ _
      (not_mem_of_all_digits _ _ (expDigits_digits (fe2e q)) (by decide))

theorem fmtRealF_dE (q : ℚ) (hq : q ≠ 0) :
    replaceChar 'd' 'E' (fmtRealF q) = (if q < 0 then ['-'] else [])
      ++ [digitChar (fe2mn q / 100), '.', digitChar (fe2mn q / 10 % 10),
          digitChar (fe2mn q % 10), 'E']
      ++ (if fe2e q < 0 then ['-'] else ['+'])
      ++ (if (fe2e q).natAbs < 10 then '0' :: natDec (fe2e q).natAbs
          else natDec (fe2e q).natAbs) := by
  obtain ⟨hmn1, hmn2⟩ := fe2mn_bounds q hq
  rw [fmtRealF_decomp q hq, replaceChar_append, replaceChar_append, replaceChar_append]
  congr 1
  · congr 1
    · congr 1
      · split <;> rfl
      · rw [replaceChar_cons_ne _ _ _ _ (digit_ne_of_not_digit _ (by omega) _ (by decide)),
          replaceChar_cons_ne _ _ _ _ (by decide),
          replaceChar_cons_ne _ _ _ _ (digit_ne_of_not_digit _ (by omega) _ (by decide)),
          replaceChar_cons_ne _ _ _ _ (digit_ne_of_not_digit _ (by omega) _ (by decide)),
          replaceChar_cons_eq]
        rfl
    · split <;> rfl
  · exact replaceChar_id _ _ _
      (not_mem_of_all_digits _ _ (expDigits_digits (fe2e q)) (by decide))

/-- Claim C1 building block: a formatted float re-parses (through the
`d`-to-`E` rewrite) to exactly the three-significant-digit rounded value. -/
theorem pyParseValue_real (q : ℚ) :
    pyParseValue (fmtRealF q) = .ok (.real (roundE2val q)) := by
  by_cases hq : q = 0
  · subst hq
    rfl
  · obtain ⟨hmn1, hmn2⟩ := fe2mn_bounds q hq
    have hd0 : fe2mn q / 100 < 10 := by omega
    have hd1 : fe2mn q / 10 % 10 < 10 := by omega
    have hd2 : fe2mn q % 10 < 10 := by omega
    set sc : Chars := if q < 0 then ['-'] else [] with hsc
    set sgn : ℤ := if q < 0 then (-1:ℤ) else 1 with hsgn
    have hs : (sc = [] ∧ sgn = 1) ∨ (sc = ['-'] ∧ sgn = -1) := by
      by_cases h : q < 0
      · right
        rw [hsc, hsgn, if_pos h, if_pos h]
        exact ⟨rfl, rfl⟩
      · left
        rw [hsc, hsgn, if_neg h, if_neg h]
        exact ⟨rfl, rfl⟩
    set se : Char := if fe2e q < 0 then '-' else '+' with hsec
    set ev : ℤ := if fe2e q < 0 then (-1:ℤ) else 1 with hev
    have hse : (se = '+' ∧ ev = 1) ∨ (se = '-' ∧ ev = -1) := by
      by_cases h : fe2e q < 0
      · right
        rw [hsec, hev, if_pos h, if_pos h]
        exact ⟨rfl, rfl⟩
      · left
        rw [hsec, hev, if_neg h, if_neg h]
        exact ⟨rfl, rfl⟩
    set eds : Chars := if (fe2e q).natAbs < 10 then '0' :: natDec (fe2e q).natAbs
      else natDec (fe2e q).natAbs with heds
    have hedsd : ∀ x ∈ eds, x.isDigit = true := by
      rw [heds]
      exact expDigits_digits (fe2e q)
    have hedne : eds ≠ [] := by
      rw [heds]
      exact expDigits_ne_nil (fe2e q)
    have hSL : (if fe2e q < 0 then ['-'] else ['+']) = [se] := by
      rw [hsec]
      split <;> rfl
    have hscOr : sc = [] ∨ sc = ['-'] := by
      rcases hs with ⟨h, _⟩ | ⟨h, _⟩
      · exact Or.inl h
      · exact Or.inr h
    have hint : pyInt (fmtRealF q) = none := by
      rw [fmtRealF_decomp q hq, ← hsc, ← heds, hSL, List.append_assoc, List.append_assoc]
      exact pyInt_canonical_none sc hscOr _ hd0
        (digitChar (fe2mn q / 10 % 10) :: digitChar (fe2mn q % 10) :: 'd' :: [se] ++ eds)
        (by
          intro x hx
          rcases List.mem_cons.1 hx with h1 | h1
          · rw [h1]; exact digitChar_not_space _ hd1
          rcases List.mem_cons.1 h1 with h1 | h1
          · rw [h1]; exact digitChar_not_space _ hd2
          rcases List.mem_cons.1 h1 with h1 | h1
          · rw [h1]; rfl
          rcases List.mem_append.1 h1 with h1 | h1
          · rcases List.mem_cons.1 h1 with h1 | h1
            · rcases hse with ⟨h4, _⟩ | ⟨h4, _⟩ <;> (rw [h1, h4]; rfl)
            · cases h1
          · exact isDigit_not_space x (hedsd x h1))
    have hfloat : pyFloat (replaceChar 'd' 'E' (fmtRealF q))
        = some (qOfParts sgn [digitChar (fe2mn q / 100)]
            [digitChar (fe2mn q / 10 % 10), digitChar (fe2mn q % 10)]
            (ev * digitsVal eds)) := by
      rw [fmtRealF_dE q hq, ← hsc, ← heds, hSL, List.append_assoc, List.append_assoc]
      exact pyFloat_canonical sgn sc hs _ _ _ hd0 hd1 hd2 ev se hse eds hedne hedsd
    have hval : qOfParts sgn [digitChar (fe2mn q / 100)]
        [digitChar (fe2mn q / 10 % 10), digitChar (fe2mn q % 10)] (ev * digitsVal eds)
        = roundE2val q := by
      have hex : ev * (digitsVal eds : ℤ) = fe2e q := by
        rw [heds, expDigits_val, hev]
        split <;> omega
      rw [qOfParts_val, roundE2val_val q hq, ← hsgn, hex]
      rw [digitsVal_one, digitsVal_two, digitChar_toNat _ hd0, digitChar_toNat _ hd1,
        digitChar_toNat _ hd2]
      rw [show (fe2mn q / 100) * 10 ^ (([digitChar (fe2mn q / 10 % 10),
            digitChar (fe2mn q % 10)] : Chars)).length
          + (10 * (fe2mn q / 10 % 10) + fe2mn q % 10) = fe2mn q by
        rw [List.length_cons, List.length_cons, List.length_nil]
        omega]
      rw [show (([digitChar (fe2mn q / 10 % 10), digitChar (fe2mn q % 10)] : Chars)).length
          = 2 from rfl]
      rw [show (((2:ℕ) : ℤ)) = (2:ℤ) from rfl]
      have hn1 : 1 ≤ q.num.natAbs := by
        have : q.num ≠ 0 := Rat.num_ne_zero.2 hq
        omega
      have hd1' : 1 ≤ q.den := q.pos
      obtain ⟨hm100, hm1000⟩ := mantissaE2_bounds q.num.natAbs q.den hn1 hd1'
      unfold fe2mn fe2e
      by_cases hcar : (mantissaE2 q.num.natAbs q.den).1 = 1000
      · rw [if_pos hcar, if_pos hcar, hcar]
        rw [show ((100:ℤ)).toNat = 100 from rfl]
        have h10 : (10:ℚ) ^ ((mantissaE2 q.num.natAbs q.den).2 + 1 - 2)
            = (10:ℚ) ^ ((mantissaE2 q.num.natAbs q.den).2 - 2) * 10 := by
          rw [← zpow_add_one₀ (by norm_num : (10:ℚ) ≠ 0)]
          congr 1
          ring
        rw [h10]
        push_cast
        ring
      · rw [if_neg hcar, if_neg hcar]
        rw [show ((mantissaE2 q.num.natAbs q.den).1.toNat : ℤ)
            = (mantissaE2 q.num.natAbs q.den).1 by omega]
    unfold pyParseValue
    rw [hint, hfloat]
    dsimp only
    rw [hval]

theorem goodTok_facts (c : Char) (h : goodTokChar c = true) :
    pyIsSpace c = false ∧ c ≠ '!' ∧ c ≠ '=' ∧ c ≠ '&' ∧ c ≠ '\n' ∧ c ≠ ','
      ∧ c ≠ '(' ∧ c ≠ ')' ∧ c ≠ '\'' ∧ c ≠ '"' := by
  unfold goodTokChar at h
  by_cases hd : c.isDigit = true
  · refine ⟨isDigit_not_space c hd, ?_, ?_, ?_, ?_, ?_, ?_, ?_, ?_, ?_⟩ <;>
      (intro he; rw [he] at hd; revert hd; decide)
  · rw [Bool.or_eq_true] at h
    rcases h with h | h
    · rw [Bool.or_eq_true] at h
      rcases h with h | h
      · rw [Bool.or_eq_true] at h
        rcases h with h | h
        · rw [Bool.or_eq_true] at h
          rcases h with h | h
          · rw [Bool.or_eq_true] at h
            rcases h with h | h
            · rw [Bool.or_eq_true] at h
              rcases h with h | h
              · rw [Bool.or_eq_true] at h
                rcases h with h | h
                · rw [Bool.or_eq_true] at h
                  rcases h with h | h
                  · rw [Bool.or_eq_true] at h
                    rcases h with h | h
                    · rw [Bool.or_eq_true] at h
                      rcases h with h | h
                      · rw [Bool.or_eq_true] at h
                        rcases h with h | h
                        · rw [Bool.or_eq_true] at h
                          rcases h with h | h
                          · exact absurd h hd
                          all_goals (rw [decide_eq_true_eq] at h; subst h; decide)
                        all_goals (rw [decide_eq_true_eq] at h; subst h; decide)
                      all_goals (rw [decide_eq_true_eq] at h; subst h; decide)
                    all_goals (rw [decide_eq_true_eq] at h; subst h; decide)
                  all_goals (rw [decide_eq_true_eq] at h; subst h; decide)
                all_goals (rw [decide_eq_true_eq] at h; subst h; decide)
              all_goals (rw [decide_eq_true_eq] at h; subst h; decide)
            all_goals (rw [decide_eq_true_eq] at h; subst h; decide)
          all_goals (rw [decide_eq_true_eq] at h; subst h; decide)
        all_goals (rw [decide_eq_true_eq] at h; subst h; decide)
      all_goals (rw [decide_eq_true_eq] at h; subst h; decide)
    all_goals (rw [decide_eq_true_eq] at h; subst h; decide)

theorem natDec_good (n : ℕ) : ∀ c ∈ natDec n, goodTokChar c = true := by
  intro c hc
  unfold goodTokChar
  rw [natDec_digits n c hc]
  rfl

theorem intDec_good (i : ℤ) : ∀ c ∈ intDec i, goodTokChar c = true := by
  intro c hc
  unfold intDec at hc
  by_cases h : i < 0
  · rw [if_pos h] at hc
    rcases List.mem_cons.1 hc with h1 | h1
    · rw [h1]; rfl
    · exact natDec_good _ c h1
  · rw [if_neg h] at hc
    exact natDec_good _ c hc

theorem fmtRealF_good (q : ℚ) : ∀ c ∈ fmtRealF q, goodTokChar c = true := by
  intro c hc
  by_cases hq : q = 0
  · subst hq
    have hall : ∀ x ∈ fmtRealF 0, goodTokChar x = true := by decide
    exact hall c hc
  · rw [fmtRealF_decomp q hq] at hc
    obtain ⟨hmn1, hmn2⟩ := fe2mn_bounds q hq
    rcases List.mem_append.1 hc with h1 | h1
    swap
    · by_cases h : (fe2e q).natAbs < 10
      · rw [if_pos h] at h1
        rcases List.mem_cons.1 h1 with h2 | h2
        · rw [h2]; rfl
        · exact natDec_good _ c h2
      · rw [if_neg h] at h1
        exact natDec_good _ c h1
    rcases List.mem_append.1 h1 with h2 | h2
    swap
    · by_cases h : fe2e q < 0
      · rw [if_pos h] at h2
        rcases List.mem_cons.1 h2 with h3 | h3
        · rw [h3]; rfl
        · cases h3
      · rw [if_neg h] at h2
        rcases List.mem_cons.1 h2 with h3 | h3
        · rw [h3]; rfl
        · cases h3
    rcases List.mem_append.1 h2 with h3 | h3
    · by_cases h : q < 0
      · rw [if_pos h] at h3
        rcases List.mem_cons.1 h3 with h4 | h4
        · rw [h4]; rfl
        · cases h4
      · rw [if_neg h] at h3
        cases h3
    · have hdig : ∀ k : ℕ, k < 10 → goodTokChar (digitChar k) = true := by
        intro k hk
        unfold goodTokChar
        rw [digitChar_isDigit k hk]
        rfl
      rcases List.mem_cons.1 h3 with h4 | h4
      · rw [h4]; exact hdig _ (by omega)
      rcases List.mem_cons.1 h4 with h4 | h4
      · rw [h4]; rfl
      rcases List.mem_cons.1 h4 with h4 | h4
      · rw [h4]; exact hdig _ (by omega)
      rcases List.mem_cons.1 h4 with h4 | h4
      · rw [h4]; exact hdig _ (by omega)
      rcases List.mem_cons.1 h4 with h4 | h4
      · rw [h4]; rfl
      · cases h4

theorem boolTok_good (b : Bool) :
    ∀ c ∈ (if b then ".true.".data else ".false.".data), goodTokChar c = true := by
  cases b <;> decide

theorem fmtRealF_ne_nil (q : ℚ) : fmtRealF q ≠ [] := by
  by_cases hq : q = 0
  · subst hq
    decide
  · rw [fmtRealF_decomp q hq]
    intro h
    rcases List.append_eq_nil.1 h with ⟨h1, _⟩
    rcases List.append_eq_nil.1 h1 with ⟨h2, _⟩
    rcases List.append_eq_nil.1 h2 with ⟨_, h3⟩
    cases h3

/-- A supported non-text scalar serializes to a nonempty all-`goodTokChar`
token that re-parses to its rounded value. -/
theorem format_num_spec (v : PyVal) (hv : numScalarB v = true) :
    ∃ t, formatValueToFortran v = .ok t ∧ pyParseValue t = .ok (roundVal v) ∧ t ≠ [] ∧
      ∀ c ∈ t, goodTokChar c = true := by
  cases v with
  | int i =>
    refine ⟨intDec i, rfl, pyParseValue_int i, ?_, intDec_good i⟩
    unfold intDec
    by_cases h : i < 0
    · rw [if_pos h]
      exact List.cons_ne_nil _ _
    · rw [if_neg h]
      exact natDec_ne_nil _
  | real q => exact ⟨fmtRealF q, rfl, pyParseValue_real q, fmtRealF_ne_nil q, fmtRealF_good q⟩
  | bool b =>
    refine ⟨if b then ".true.".data else ".false.".data, rfl, pyParseValue_bool b, ?_, boolTok_good b⟩
    cases b <;> decide
  | str s => cases hv
  | complex x y => cases hv
  | list xs => cases hv
  | noneV => cases hv

theorem mem_of_getLast?_eq (l : Chars) (c : Char) (h : l.getLast? = some c) : c ∈ l := by
  induction l with
  | nil => cases h
  | cons a t ih =>
    cases t with
    | nil =>
      rw [List.getLast?_singleton] at h
      injection h with h
      rw [h]
      exact List.mem_cons_self _ _
    | cons b r =>
      rw [List.getLast?_cons_cons] at h
      exact List.mem_cons_of_mem _ (ih h)

theorem strOKB_mem (s : Chars) (hs : strOKB s = true) (c : Char) (hc : c ∈ s) :
    c ≠ '\'' ∧ c ≠ '=' ∧ c ≠ '!' ∧ c ≠ '&' ∧ c ≠ '\n' := by
  unfold strOKB at hs
  rw [List.all_eq_true] at hs
  have h := hs c hc
  simp only [Bool.not_eq_true', Bool.or_eq_false_iff, decide_eq_false_iff_not] at h
  exact ⟨h.1.1.1.1, h.1.1.1.2, h.1.1.2, h.1.2, h.2⟩

/-- A supported scalar serializes to a token that re-parses to its rounded
value and is inert at every stage of line processing. -/
theorem format_scalar_spec (v : PyVal) (hv : scalarWF v = true) :
    ∃ t, formatValueToFortran v = .ok t ∧ pyParseValue t = .ok (roundVal v) ∧ t ≠ [] ∧
      '!' ∉ t ∧ '=' ∉ t ∧ '&' ∉ t ∧ '\n' ∉ t ∧
      (∀ c, t.head? = some c → pyIsSpace c = false) ∧
      (∀ c, t.getLast? = some c → pyIsSpace c = false ∧ c ≠ ',') := by
  cases v with
  | str s =>
    have hq : '\'' ∉ s := fun hm => absurd rfl (strOKB_mem s hv '\'' hm).1
    refine ⟨'\'' :: s ++ ['\''], rfl, pyParseValue_str s hq, List.cons_ne_nil _ _,
      ?_, ?_, ?_, ?_, ?_, ?_⟩
    · intro hm
      rcases List.mem_cons.1 hm with h1 | h1
      · cases h1
      rcases List.mem_append.1 h1 with h2 | h2
      · exact absurd rfl (strOKB_mem s hv _ h2).2.2.1
      · rcases List.mem_cons.1 h2 with h3 | h3
        · cases h3
        · cases h3
    · intro hm
      rcases List.mem_cons.1 hm with h1 | h1
      · cases h1
      rcases List.mem_append.1 h1 with h2 | h2
      · exact absurd rfl (strOKB_mem s hv _ h2).2.1
      · rcases List.mem_cons.1 h2 with h3 | h3
        · cases h3
        · cases h3
    · intro hm
      rcases List.mem_cons.1 hm with h1 | h1
      · cases h1
      rcases List.mem_append.1 h1 with h2 | h2
      · exact absurd rfl (strOKB_mem s hv _ h2).2.2.2.1
      · rcases List.mem_cons.1 h2 with h3 | h3
        · cases h3
        · cases h3
    · intro hm
      rcases List.mem_cons.1 hm with h1 | h1
      · cases h1
      rcases List.mem_append.1 h1 with h2 | h2
      · exact absurd rfl (strOKB_mem s hv _ h2).2.2.2.2
      · rcases List.mem_cons.1 h2 with h3 | h3
        · cases h3
        · cases h3
    · intro c hc
      rw [show (('\'' :: s ++ ['\'']) : Chars).head? = some '\'' from rfl] at hc
      injection hc with hc
      rw [← hc]
      rfl
    · intro c hc
      rw [show ('\'' :: s ++ ['\'']) = ('\'' :: s) ++ ['\''] from rfl,
        List.getLast?_concat] at hc
      injection hc with hc
      rw [← hc]
      exact ⟨rfl, by decide⟩
  | int i =>
    obtain ⟨t, h1, h2, h3, h4⟩ := format_num_spec (.int i) rfl
    refine ⟨t, h1, h2, h3, ?_, ?_, ?_, ?_, ?_, ?_⟩
    · intro hm; exact absurd rfl (goodTok_facts _ (h4 _ hm)).2.1
    · intro hm; exact absurd rfl (goodTok_facts _ (h4 _ hm)).2.2.1
    · intro hm; exact absurd rfl (goodTok_facts _ (h4 _ hm)).2.2.2.1
    · intro hm; exact absurd rfl (goodTok_facts _ (h4 _ hm)).2.2.2.2.1
    · intro c hc
      exact (goodTok_facts _ (h4 _ (List.mem_of_mem_head? hc))).1
    · intro c hc
      have hf := goodTok_facts _ (h4 _ (mem_of_getLast?_eq _ _ hc))
      exact ⟨hf.1, hf.2.2.2.2.2.1⟩
  | real q =>
    obtain ⟨t, h1, h2, h3, h4⟩ := format_num_spec (.real q) rfl
    refine ⟨t, h1, h2, h3, ?_, ?_, ?_, ?_, ?_, ?_⟩
    · intro hm; exact absurd rfl (goodTok_facts _ (h4 _ hm)).2.1
    · intro hm; exact absurd rfl (goodTok_facts _ (h4 _ hm)).2.2.1
    · intro hm; exact absurd rfl (goodTok_facts _ (h4 _ hm)).2.2.2.1
    · intro hm; exact absurd rfl (goodTok_facts _ (h4 _ hm)).2.2.2.2.1
    · intro c hc
      exact (goodTok_facts _ (h4 _ (List.mem_of_mem_head? hc))).1
    · intro c hc
      have hf := goodTok_facts _ (h4 _ (mem_of_getLast?_eq _ _ hc))
      exact ⟨hf.1, hf.2.2.2.2.2.1⟩
  | bool b =>
    obtain ⟨t, h1, h2, h3, h4⟩ := format_num_spec (.bool b) rfl
    refine ⟨t, h1, h2, h3, ?_, ?_, ?_, ?_, ?_, ?_⟩
    · intro hm; exact absurd rfl (goodTok_facts _ (h4 _ hm)).2.1
    · intro hm; exact absurd rfl (goodTok_facts _ (h4 _ hm)).2.2.1
    · intro hm; exact absurd rfl (goodTok_facts _ (h4 _ hm)).2.2.2.1
    · intro hm; exact absurd rfl (goodTok_facts _ (h4 _ hm)).2.2.2.2.1
    · intro c hc
      exact (goodTok_facts _ (h4 _ (List.mem_of_mem_head? hc))).1
    · intro c hc
      have hf := goodTok_facts _ (h4 _ (mem_of_getLast?_eq _ _ hc))
      exact ⟨hf.1, hf.2.2.2.2.2.1⟩
  | complex x y => cases hv
  | list xs => cases hv
  | noneV => cases hv

theorem digitsUAux_mem (u : Chars) (x : Char) (hx : x ∈ u) :
    x ∈ (digitsUAux u).2 ∨ x.isDigit = true ∨ x = '_' := by
  induction u with
  | nil => cases hx
  | cons c rest ih =>
    rw [digitsUAux.eq_def]
    dsimp only
    by_cases hd : c.isDigit = true
    · rw [if_pos hd]
      rcases List.mem_cons.1 hx with h1 | h1
      · right; left; rw [h1]; exact hd
      · exact ih h1
    · rw [if_neg hd]
      by_cases hu : c = '_'
      · rw [if_pos hu]
        cases rest with
        | nil =>
          left
          rcases List.mem_cons.1 hx with h1 | h1
          · rw [h1, hu]; exact List.mem_cons_self _ _
          · cases h1
        | cons d rest2 =>
          dsimp only
          by_cases hdd : d.isDigit = true
          · rw [if_pos hdd]
            rcases List.mem_cons.1 hx with h1 | h1
            · right; right; rw [h1]; exact hu
            rcases List.mem_cons.1 h1 with h2 | h2
            · right; left; rw [h2]; exact hdd
            · have ih2 := ih (List.mem_cons_of_mem _ h2)
              rw [digitsUAux.eq_def] at ih2
              dsimp only at ih2
              rw [if_pos hdd] at ih2
              exact ih2
          · rw [if_neg hdd]
            left
            exact hx
      · rw [if_neg hu]
        left
        exact hx

theorem takeDigitsU_mem (u ds rest : Chars) (h : takeDigitsU u = some (ds, rest))
    (x : Char) (hx : x ∈ u) : x ∈ rest ∨ x.isDigit = true ∨ x = '_' := by
  cases u with
  | nil => cases h
  | cons c r =>
    rw [takeDigitsU] at h
    by_cases hd : c.isDigit = true
    · rw [if_pos hd] at h
      dsimp only at h
      injection h with h
      injection h with h1 h2
      rcases List.mem_cons.1 hx with h3 | h3
      · right; left; rw [h3]; exact hd
      · rcases digitsUAux_mem r x h3 with h4 | h4
        · left; rw [← h2]; exact h4
        · right; exact h4
    · rw [if_neg hd] at h
      cases h

theorem pyFloatExp_mem (r : Chars) (ex : ℤ) (rest : Chars)
    (h : pyFloatExp r = some (ex, rest)) (x : Char) (hx : x ∈ r) :
    x ∈ rest ∨ x.isDigit = true ∨ x = '_' ∨ x = 'e' ∨ x = 'E' ∨ x = '+' ∨ x = '-' := by
  cases r with
  | nil => cases hx
  | cons c rr =>
    rw [pyFloatExp] at h
    by_cases hc : c = 'e' ∨ c = 'E'
    · rw [if_pos hc] at h
      dsimp only at h
      rcases List.mem_cons.1 hx with h1 | h1
      · rcases hc with hc | hc
        · right; right; right; left; rw [h1]; exact hc
        · right; right; right; right; left; rw [h1]; exact hc
      · have hsub : x ∈ (signSplitZ rr).2 ∨ x = '+' ∨ x = '-' := by
          cases rr with
          | nil => cases h1
          | cons c2 rr2 =>
            rw [signSplitZ]
            by_cases h2 : c2 = '+'
            · rw [if_pos h2]
              rcases List.mem_cons.1 h1 with h3 | h3
              · right; left; rw [h3]; exact h2
              · left; exact h3
            · rw [if_neg h2]
              by_cases h3 : c2 = '-'
              · rw [if_pos h3]
                rcases List.mem_cons.1 h1 with h4 | h4
                · right; right; rw [h4]; exact h3
                · left; exact h4
              · rw [if_neg h3]
                left
                exact h1
        rcases hsub with h2 | h2 | h2
        · cases htd : takeDigitsU (signSplitZ rr).2 with
          | none => rw [htd] at h; cases h
          | some p =>
            rw [htd] at h
            cases p with
            | mk ds rest2 =>
              dsimp only at h
              injection h with h
              injection h with h3 h4
              rcases takeDigitsU_mem _ _ _ htd x h2 with h5 | h5
              · left; rw [← h4]; exact h5
              · right
                rcases h5 with h5 | h5
                · left; exact h5
                · right; left; exact h5
        · right; right; right; right; right; left; exact h2
        · right; right; right; right; right; right; exact h2
    · rw [if_neg hc] at h
      injection h with h
      injection h with h1 h2
      left
      rw [← h2]
      exact hx

theorem signSplitZ_mem_snd (v : Chars) (x : Char) (hx : x ∈ v)
    (hx1 : x ≠ '+') (hx2 : x ≠ '-') : x ∈ (signSplitZ v).2 := by
  cases v with
  | nil => cases hx
  | cons c r =>
    rw [signSplitZ]
    by_cases h1 : c = '+'
    · rw [if_pos h1]
      rcases List.mem_cons.1 hx with h2 | h2
      · exact absurd (h2.trans h1) hx1
      · exact h2
    · rw [if_neg h1]
      by_cases h2 : c = '-'
      · rw [if_pos h2]
        rcases List.mem_cons.1 hx with h3 | h3
        · exact absurd (h3.trans h2) hx2
        · exact h3
      · rw [if_neg h2]
        exact hx

/-- `int(...)` rejects any stripped-in-place value containing a space. -/
theorem pyInt_none_of_space (v : Chars) (hstrip : pyStrip v = v) (hsp : ' ' ∈ v) :
    pyInt v = none := by
  have hm := signSplitZ_mem_snd v ' ' hsp (by decide) (by decide)
  unfold pyInt
  rw [hstrip]
  dsimp only
  cases htd : takeDigitsU (signSplitZ v).2 with
  | none => rfl
  | some p =>
    obtain ⟨ds, rest⟩ := p
    have h1 : ' ' ∈ rest := by
      rcases takeDigitsU_mem _ _ _ htd ' ' hm with h | h | h
      · exact h
      · exact absurd h (by decide)
      · exact absurd h (by decide)
    cases rest with
    | nil => cases h1
    | cons c r => rfl

/-- `float(...)` rejects any stripped-in-place value containing a space. -/
theorem pyFloat_none_of_space (v : Chars) (hstrip : pyStrip v = v) (hsp : ' ' ∈ v) :
    pyFloat v = none := by
  have hm := signSplitZ_mem_snd v ' ' hsp (by decide) (by decide)
  have hexp : ∀ (X : Chars), ' ' ∈ X → ∀ (ex : ℤ) (rest : Chars),
      pyFloatExp X = some (ex, rest) → rest ≠ [] := by
    intro X hX ex rest hpe hnil
    subst hnil
    rcases pyFloatExp_mem X ex [] hpe ' ' hX with h | h | h | h | h | h | h
    · cases h
    all_goals exact absurd h (by decide)
  unfold pyFloat
  rw [hstrip]
  dsimp only
  cases htd : takeDigitsU (signSplitZ v).2 with
  | some p =>
    obtain ⟨ip, r1⟩ := p
    have h1 : ' ' ∈ r1 := by
      rcases takeDigitsU_mem _ _ _ htd ' ' hm with h | h | h
      · exact h
      · exact absurd h (by decide)
      · exact absurd h (by decide)
    dsimp only
    split
    · rename_i r2
      have h2 : ' ' ∈ r2 := by
        rcases List.mem_cons.1 h1 with h3 | h3
        · exact absurd h3 (by decide)
        · exact h3
      cases htd2 : takeDigitsU r2 with
      | some p2 =>
        obtain ⟨fp, r3⟩ := p2
        have h3 : ' ' ∈ r3 := by
          rcases takeDigitsU_mem _ _ _ htd2 ' ' h2 with h | h | h
          · exact h
          · exact absurd h (by decide)
          · exact absurd h (by decide)
        dsimp only
        cases hpe : pyFloatExp r3 with
        | none => rfl
        | some pe =>
          obtain ⟨ex, rest⟩ := pe
          have h4 := hexp r3 h3 ex rest hpe
          cases rest with
          | nil => exact absurd rfl h4
          | cons c r => rfl
      | none =>
        dsimp only
        cases hpe : pyFloatExp r2 with
        | none => rfl
        | some pe =>
          obtain ⟨ex, rest⟩ := pe
          have h4 := hexp r2 h2 ex rest hpe
          cases rest with
          | nil => exact absurd rfl h4
          | cons c r => rfl
    · cases hpe : pyFloatExp r1 with
      | none => rfl
      | some pe =>
        obtain ⟨ex, rest⟩ := pe
        have h4 := hexp r1 h1 ex rest hpe
        cases rest with
        | nil => exact absurd rfl h4
        | cons c r => rfl
  | none =>
    dsimp only
    split
    · rename_i r2 heq
      have h2 : ' ' ∈ r2 := by
        rw [heq] at hm
        rcases List.mem_cons.1 hm with h3 | h3
        · exact absurd h3 (by decide)
        · exact h3
      cases htd2 : takeDigitsU r2 with
      | some p2 =>
        obtain ⟨fp, r3⟩ := p2
        have h3 : ' ' ∈ r3 := by
          rcases takeDigitsU_mem _ _ _ htd2 ' ' h2 with h | h | h
          · exact h
          · exact absurd h (by decide)
          · exact absurd h (by decide)
        dsimp only
        cases hpe : pyFloatExp r3 with
        | none => rfl
        | some pe =>
          obtain ⟨ex, rest⟩ := pe
          have h4 := hexp r3 h3 ex rest hpe
          cases rest with
          | nil => exact absurd rfl h4
          | cons c r => rfl
      | none => rfl
    · rfl

theorem matchComplex_not_paren (v : Chars) (h : ∀ r, v ≠ '(' :: r) :
    matchComplex v = none := by
  unfold matchComplex
  split
  · rename_i rest
    exact absurd rfl (h rest)
  · rfl

theorem pyLStrip_id_of_head (v : Chars)
    (h : ∀ c, v.head? = some c → pyIsSpace c = false) : pyLStrip v = v := by
  cases v with
  | nil => rfl
  | cons c r =>
    unfold pyLStrip
    rw [List.dropWhile_cons]
    rw [h c rfl]
    rfl

theorem pyRStrip_id_of_last (v : Chars)
    (h : ∀ c, v.getLast? = some c → pyIsSpace c = false) : pyRStrip v = v := by
  unfold pyRStrip
  rw [show v.reverse.dropWhile pyIsSpace = pyLStrip v.reverse from rfl]
  rw [pyLStrip_id_of_head v.reverse (by
    intro c hc
    rw [List.head?_reverse] at hc
    exact h c hc)]
  exact List.reverse_reverse v

theorem pyStrip_id_of_ends (v : Chars)
    (hh : ∀ c, v.head? = some c → pyIsSpace c = false)
    (hl : ∀ c, v.getLast? = some c → pyIsSpace c = false) : pyStrip v = v := by
  unfold pyStrip
  rw [pyLStrip_id_of_head v hh, pyRStrip_id_of_last v hl]

/-- A value containing a space whose ends are inert fails every scalar
alternative of `_parse_value` with `NoSingleValueFoundException`. -/
theorem pyParseValue_inline_fail (v : Chars) (hsp : ' ' ∈ v)
    (hh : ∀ c, v.head? = some c → pyIsSpace c = false ∧ c ≠ '(' ∧ c ≠ '\'' ∧ c ≠ '"')
    (hl : ∀ c, v.getLast? = some c → pyIsSpace c = false) :
    pyParseValue v = .error (.noSingleValue v) := by
  have hstrip : pyStrip v = v := pyStrip_id_of_ends v (fun c hc => (hh c hc).1) hl
  have hstrip2 : pyStrip (replaceChar 'd' 'E' v) = replaceChar 'd' 'E' v := by
    refine pyStrip_id_of_ends _ ?_ ?_
    · intro c hc
      unfold replaceChar at hc
      rw [List.head?_map] at hc
      cases hv : v.head? with
      | none => rw [hv] at hc; cases hc
      | some c0 =>
        rw [hv] at hc
        injection hc with hc
        dsimp only at hc
        have h0 := (hh c0 hv).1
        by_cases hd : c0 = 'd'
        · rw [hd] at hc
          rw [← hc]
          rfl
        · rw [if_neg hd] at hc
          rw [← hc]
          exact h0
    · intro c hc
      unfold replaceChar at hc
      rw [List.getLast?_map] at hc
      cases hv : v.getLast? with
      | none => rw [hv] at hc; cases hc
      | some c0 =>
        rw [hv] at hc
        injection hc with hc
        dsimp only at hc
        have h0 := hl c0 hv
        by_cases hd : c0 = 'd'
        · rw [hd] at hc
          rw [← hc]
          rfl
        · rw [if_neg hd] at hc
          rw [← hc]
          exact h0
  have hsp2 : ' ' ∈ replaceChar 'd' 'E' v := by
    unfold replaceChar
    have h5 := List.mem_map_of_mem (fun c => if c = 'd' then 'E' else c) hsp
    dsimp only at h5
    rw [if_neg (by decide : ¬(' ' = 'd'))] at h5
    exact h5
  have hne : v ≠ [] := fun he => by rw [he] at hsp; cases hsp
  unfold pyParseValue
  rw [pyInt_none_of_space v hstrip hsp]
  dsimp only
  rw [pyFloat_none_of_space _ hstrip2 hsp2]
  dsimp only
  rw [matchComplex_not_paren v (by
    intro r he
    have h1 : v.head? = some '(' := by rw [he]; rfl
    exact absurd rfl (hh '(' h1).2.1)]
  dsimp only
  rw [if_neg (by
    rintro (he | he) <;> (rw [he] at hsp; revert hsp; decide))]
  rw [if_neg (by
    rintro (he | he) <;> (rw [he] at hsp; revert hsp; decide))]
  rw [if_neg (by
    rintro ⟨h1, _, _⟩
    exact absurd rfl (hh '\'' h1).2.2.1)]
  rw [if_neg (by
    rintro ⟨h1, _, _⟩
    exact absurd rfl (hh '"' h1).2.2.2)]

theorem splitWsGo_nonspace (t : Chars) (ht : ∀ c ∈ t, pyIsSpace c = false) :
    ∀ (cur l : Chars), splitWsGo cur (t ++ l) = splitWsGo (t.reverse ++ cur) l := by
  induction t with
  | nil =>
    intro cur l
    rfl
  | cons c r ih =>
    intro cur l
    rw [List.cons_append, splitWsGo,
      if_neg (show ¬(pyIsSpace c = true) by simp [ht c (List.mem_cons_self _ _)])]
    rw [ih (fun x hx => ht x (List.mem_cons_of_mem _ hx)) (c :: cur) l]
    congr 1
    simp

theorem intercalate_cons₂ (s a b : Chars) (l : List Chars) :
    List.intercalate s (a :: b :: l) = a ++ s ++ List.intercalate s (b :: l) := by
  unfold List.intercalate
  rw [List.intersperse_cons_cons, List.flatten_cons, List.flatten_cons,
    List.append_assoc]

theorem splitWsGo_nil_done (X : Chars) : splitWsGo X [] = if X = [] then [] else [X.reverse] := by
  rfl

theorem splitWs_intercalate (toks : List Chars) (hne : toks ≠ [])
    (ht : ∀ t ∈ toks, t ≠ [] ∧ ∀ c ∈ t, pyIsSpace c = false) :
    splitWs (List.intercalate [' '] toks) = toks := by
  induction toks with
  | nil => exact absurd rfl hne
  | cons t rest ih =>
    obtain ⟨htne, htns⟩ := ht t (List.mem_cons_self _ _)
    cases rest with
    | nil =>
      rw [show List.intercalate [' '] [t] = t by
        unfold List.intercalate
        simp]
      unfold splitWs
      rw [show t = t ++ [] from (List.append_nil t).symm, splitWsGo_nonspace t htns [] [],
        List.append_nil, List.append_nil, splitWsGo_nil_done,
        if_neg (fun he => htne (by simpa using congrArg List.reverse he)),
        List.reverse_reverse]
    | cons t2 rest2 =>
      rw [intercalate_cons₂, List.append_assoc]
      unfold splitWs
      rw [splitWsGo_nonspace t htns [] _, List.append_nil]
      rw [show ([' '] ++ List.intercalate [' '] (t2 :: rest2))
          = ' ' :: List.intercalate [' '] (t2 :: rest2) from rfl]
      rw [splitWsGo, if_pos (show pyIsSpace ' ' = true from rfl)]
      rw [if_neg (fun he => htne (by simpa using congrArg List.reverse he)),
        List.reverse_reverse]
      rw [show splitWsGo [] (List.intercalate [' '] (t2 :: rest2))
          = splitWs (List.intercalate [' '] (t2 :: rest2)) from rfl]
      rw [ih (List.cons_ne_nil _ _) (fun x hx => ht x (List.mem_cons_of_mem _ hx))]

theorem findallArrayGo_nil : ∀ (fuel : ℕ) (l : Chars), '(' ∉ l → findallArrayGo fuel l = []
  | 0, _, _ => rfl
  | fuel + 1, [], _ => rfl
  | fuel + 1, c :: rest, h => by
    rw [findallArrayGo]
    have hrest : '(' ∉ rest := fun hm => h (List.mem_cons_of_mem _ hm)
    by_cases hw : isWordChar c = true
    · rw [if_pos hw]
      have hsub : '(' ∉ rest.dropWhile isWordChar :=
        fun hm => hrest ((List.dropWhile_sublist _).subset hm)
      dsimp only
      split
      · rename_i r2 heq
        exact absurd (heq ▸ List.mem_cons_self '(' r2) hsub
      · exact findallArrayGo_nil fuel _ hsub
    · rw [if_neg hw]
      exact findallArrayGo_nil fuel rest hrest

theorem findallArray_nil (l : Chars) (h : '(' ∉ l) : findallArray l = [] :=
  findallArrayGo_nil _ l h

theorem exMapM_cons_ok {α β : Type} (f : α → Except PyErr β) (x : α) (xs : List α)
    (ys : List β) (h : exMapM f (x :: xs) = .ok ys) :
    ∃ y ys2, f x = .ok y ∧ exMapM f xs = .ok ys2 ∧ ys = y :: ys2 := by
  rw [exMapM] at h
  cases hfx : f x with
  | error e => rw [hfx] at h; cases h
  | ok y =>
    rw [hfx, exc_bind_ok] at h
    cases hrest : exMapM f xs with
    | error e => rw [hrest] at h; cases h
    | ok ys2 =>
      rw [hrest, exc_bind_ok] at h
      injection h with h
      exact ⟨y, ys2, rfl, rfl, h.symm⟩

theorem exMapM_nil_ok {α β : Type} (f : α → Except PyErr β) (ys : List β)
    (h : exMapM f ([] : List α) = .ok ys) : ys = [] := by
  rw [exMapM] at h
  injection h with h
  exact h.symm

theorem lookupA_append_left {α β : Type} [DecidableEq α] (g tail : List (α × β)) (k : α)
    (h : lookupA g k = none) : lookupA (g ++ tail) k = lookupA tail k := by
  induction g with
  | nil => rfl
  | cons p rest ih =>
    obtain ⟨k1, v1⟩ := p
    rw [lookupA] at h
    rw [List.cons_append, lookupA]
    by_cases he : k = k1
    · rw [if_pos he] at h; cases h
    · rw [if_neg he] at h ⊢
      exact ih h

theorem updateA_append_fresh {α β : Type} [DecidableEq α] (g : List (α × β)) (k : α)
    (h : lookupA g k = none) (x y : β) :
    updateA (g ++ [(k, x)]) k y = g ++ [(k, y)] := by
  induction g with
  | nil =>
    rw [List.nil_append, updateA, if_pos rfl, List.nil_append]
  | cons p rest ih =>
    obtain ⟨k1, v1⟩ := p
    rw [lookupA] at h
    by_cases he : k = k1
    · rw [if_pos he] at h; cases h
    · rw [if_neg he] at h
      rw [List.cons_append, updateA, if_neg he, ih h, List.cons_append]

theorem lookupA_none_of_keys {α β : Type} [DecidableEq α] (es : List (α × β)) (k : α)
    (h : ∀ ki ∈ es.map Prod.fst, ki ≠ k) : lookupA es k = none := by
  induction es with
  | nil => rfl
  | cons p rest ih =>
    obtain ⟨k1, v1⟩ := p
    rw [lookupA, if_neg (fun he => absurd he.symm
      (h k1 (by rw [List.map_cons]; exact List.mem_cons_self _ _)))]
    exact ih (fun ki hki => h ki (by rw [List.map_cons]; exact List.mem_cons_of_mem _ hki))

theorem insertOrUpdate_fresh {α β : Type} [DecidableEq α] (d : List (α × β)) (k : α)
    (h : lookupA d k = none) (v : β) : insertOrUpdate d k v = d ++ [(k, v)] := by
  unfold insertOrUpdate
  rw [h]

theorem arrFold_enumFrom (nm : Chars) :
    ∀ (toks : List Chars) (vs : List PyVal),
      exMapM pyParseValue toks = .ok vs →
      ∀ (j : ℕ) (g : NlGroup) (es : List (ℤ × PyVal)),
        lookupA g nm = none →
        (∀ ki ∈ es.map Prod.fst, ki < (j:ℤ)) →
        (List.enumFrom j toks).foldlM
          (fun acc p => do
            let pv ← pyParseValue p.2
            arrInsert acc nm (p.1 : ℤ) pv)
          (g ++ [(nm, GVal.arr es)])
        = .ok (g ++ [(nm,
            GVal.arr (es ++ (List.enumFrom j vs).map (fun p => ((p.1 : ℤ), p.2))))]) := by
  intro toks
  induction toks with
  | nil =>
    intro vs hp j g es hfresh hkeys
    rw [exMapM_nil_ok _ _ hp]
    simp
    rfl
  | cons t ts ih =>
    intro vs hp j g es hfresh hkeys
    obtain ⟨y, ys2, hy, hys, hvs⟩ := exMapM_cons_ok _ _ _ _ hp
    subst hvs
    rw [show List.enumFrom j (t :: ts) = (j, t) :: List.enumFrom (j + 1) ts from rfl,
      List.foldlM_cons]
    have hstep : (do
        let pv ← pyParseValue t
        arrInsert (g ++ [(nm, GVal.arr es)]) nm ((j : ℕ) : ℤ) pv)
        = .ok (g ++ [(nm, GVal.arr (es ++ [((j : ℤ), y)]))]) := by
      rw [hy, exc_bind_ok]
      rw [arrInsert, lookupA_append_left g _ nm hfresh]
      rw [show lookupA [(nm, GVal.arr es)] nm = some (GVal.arr es) from by
        rw [lookupA, if_pos rfl]]
      dsimp only
      rw [insertOrUpdate_fresh es ((j : ℕ) : ℤ)
        (lookupA_none_of_keys es ((j : ℕ) : ℤ)
          (fun ki hki he => absurd (he ▸ hkeys ki hki) (lt_irrefl _))) y]
      rw [updateA_append_fresh g nm hfresh]
    rw [hstep, exc_bind_ok]
    rw [ih ys2 hys (j + 1) g (es ++ [((j : ℤ), y)]) hfresh (by
      intro ki hki
      rw [List.map_append] at hki
      rcases List.mem_append.1 hki with h1 | h1
      · have h2 := hkeys ki h1
        push_cast at h2 ⊢
        omega
      · rcases List.mem_cons.1 h1 with h2 | h2
        · rw [h2]
          push_cast
          omega
        · cases h2)]
    rw [show List.enumFrom j (y :: ys2) = (j, y) :: List.enumFrom (j + 1) ys2 from rfl,
      List.map_cons, List.append_assoc]
    rfl

/-- The inline-array loop on a fresh name: the tokens are parsed and
collected into the index dict at enumeration indices `0, 1, …`. -/
theorem inlineAssign_fresh (g : NlGroup) (nm : Chars) (vval : Chars)
    (t : Chars) (ts : List Chars) (vs : List PyVal)
    (htoks : inlineTokens vval = t :: ts)
    (hparse : exMapM pyParseValue (t :: ts) = .ok vs)
    (hfresh : lookupA g nm = none) :
    inlineAssign g nm vval
      = .ok (g ++ [(nm, GVal.arr (vs.enum.map (fun p => ((p.1 : ℤ), p.2))))]) := by
  obtain ⟨y, ys2, hy, hys, hvs⟩ := exMapM_cons_ok _ _ _ _ hparse
  subst hvs
  unfold inlineAssign
  rw [htoks]
  rw [show (t :: ts).enum = (0, t) :: List.enumFrom 1 ts from rfl, List.foldlM_cons]
  have hstep : (do
      let pv ← pyParseValue t
      arrInsert g nm ((0 : ℕ) : ℤ) pv)
      = .ok (g ++ [(nm, GVal.arr [(((0:ℕ) : ℤ), y)])]) := by
    rw [hy, exc_bind_ok, arrInsert, hfresh]
  rw [hstep, exc_bind_ok]
  rw [arrFold_enumFrom nm ts ys2 hys 1 g [(((0:ℕ):ℤ), y)] hfresh (by
    intro ki hki
    rcases List.mem_cons.1 hki with h1 | h1
    · rw [h1]; simp
    · cases h1)]
  rw [show List.enum (y :: ys2) = (0, y) :: List.enumFrom 1 ys2 from rfl, List.map_cons]
  rfl

theorem set_at_append {α : Type} (A : List α) (b : α) (B : List α) (v : α) :
    (A ++ b :: B).set A.length v = A ++ v :: B := by
  induction A with
  | nil => rfl
  | cons a t ih =>
    rw [List.cons_append, List.length_cons, List.set_cons_succ, ih, List.cons_append]

theorem set_at_append2 {α : Type} (A : List α) (b : α) (B : List α) (v : α) (n : ℕ)
    (h : n = A.length) : (A ++ b :: B).set n v = A ++ v :: B := by
  rw [h]
  exact set_at_append A b B v

theorem densify_go (full : List PyVal) :
    ∀ (vsr : List PyVal) (j : ℕ),
      vsr = full.drop j →
      j + vsr.length = full.length →
      (List.enumFrom j vsr).foldlM
        (fun lst q =>
          if ((full.length : ℤ)) ≤ ((q.1 : ℕ) : ℤ) then
            Except.error (PyErr.nameErr "variable".data)
          else pyListSet lst ((q.1 : ℕ) : ℤ) q.2)
        (full.take j ++ List.replicate (full.length - j) PyVal.noneV)
      = .ok full := by
  intro vsr
  induction vsr with
  | nil =>
    intro j hdrop hlen
    rw [show List.enumFrom j ([] : List PyVal) = [] from rfl]
    have hj : j = full.length := by simpa using hlen
    rw [hj, List.take_length, Nat.sub_self, List.replicate_zero, List.append_nil]
    rfl
  | cons v vt ih =>
    intro j hdrop hlen
    rw [List.length_cons] at hlen
    have hjlt : j < full.length := by omega
    rw [show List.enumFrom j (v :: vt) = (j, v) :: List.enumFrom (j + 1) vt from rfl,
      List.foldlM_cons]
    have htlen : (full.take j).length = j := by
      rw [List.length_take]
      omega
    have hstep : (if ((full.length : ℤ)) ≤ ((j : ℕ) : ℤ) then
          Except.error (PyErr.nameErr "variable".data)
        else pyListSet (full.take j ++ List.replicate (full.length - j) PyVal.noneV)
          ((j : ℕ) : ℤ) v)
        = .ok (full.take (j + 1) ++ List.replicate (full.length - (j + 1)) PyVal.noneV) := by
      rw [if_neg (by omega)]
      unfold pyListSet
      dsimp only
      rw [if_neg (show ¬((j : ℤ) < 0) from not_lt.2 (Int.natCast_nonneg j))]
      have hlst : (full.take j ++ List.replicate (full.length - j) PyVal.noneV).length
          = full.length := by
        rw [List.length_append, List.length_take, List.length_replicate]
        omega
      rw [if_pos ⟨Int.natCast_nonneg j, by rw [hlst]; omega⟩]
      rw [Int.toNat_natCast]
      have hrepl : List.replicate (full.length - j) PyVal.noneV
          = PyVal.noneV :: List.replicate (full.length - (j + 1)) PyVal.noneV := by
        rw [show full.length - j = (full.length - (j + 1)) + 1 by omega, List.replicate_succ]
      rw [hrepl]
      rw [set_at_append2 (full.take j) PyVal.noneV
        (List.replicate (full.length - (j + 1)) PyVal.noneV) v j htlen.symm]
      have htake : full.take (j + 1) = full.take j ++ [v] := by
        rw [List.take_succ]
        have hv : full[j]? = some v := by
          rw [show full[j]? = (full.drop j).head? from (List.head?_drop full j).symm, ← hdrop]
          rfl
        rw [hv]
        rfl
      rw [htake, List.append_assoc]
      rfl
    rw [show ((j, v).1) = j from rfl, show ((j, v).2) = v from rfl]
    rw [hstep, exc_bind_ok]
    have h1 : List.drop 1 (full.drop j) = full.drop (j + 1) := by
      rw [List.drop_drop, Nat.add_comm]
    refine ih (j + 1) ?_ (by omega)
    rw [← h1, ← hdrop, List.drop_one]
    rfl

theorem densify_enum (vs : List PyVal) :
    densifyArr (vs.enum.map (fun p => ((p.1 : ℤ), p.2))) = .ok vs := by
  unfold densifyArr
  rw [List.foldlM_map]
  simp only [List.length_map, List.enum_length]
  have h0 := densify_go vs vs 0 (List.drop_zero vs).symm (by simp)
  rw [List.take_zero, List.nil_append, Nat.sub_zero] at h0
  exact h0

theorem roundVal_eq_roundScalar (v : PyVal) (h : numScalarB v = true) :
    roundVal v = roundScalar v := by
  cases v with
  | int i => rfl
  | real q => rfl
  | bool b => rfl
  | str s => cases h
  | complex x y => cases h
  | list xs => cases h
  | noneV => cases h

/-- Formatting a list of supported non-text scalars: the tokens, their
re-parses, and their character sets, in one induction. -/
theorem format_tokens_spec (xs : List PyVal) (hxs : ∀ x ∈ xs, numScalarB x = true) :
    ∃ toks, exMapM formatValueToFortran xs = .ok toks ∧
      exMapM pyParseValue toks = .ok (xs.map roundScalar) ∧
      toks.length = xs.length ∧
      ∀ t ∈ toks, t ≠ [] ∧ ∀ c ∈ t, goodTokChar c = true := by
  induction xs with
  | nil => exact ⟨[], rfl, rfl, rfl, fun t ht => absurd ht (List.not_mem_nil t)⟩
  | cons x xt ih =>
    obtain ⟨toks2, h1, h2, h3, h4⟩ := ih (fun y hy => hxs y (List.mem_cons_of_mem _ hy))
    have hx := hxs x (List.mem_cons_self _ _)
    obtain ⟨t, ht1, ht2, ht3, ht4⟩ := format_num_spec x hx
    refine ⟨t :: toks2, ?_, ?_, ?_, ?_⟩
    · rw [exMapM, ht1, exc_bind_ok, h1, exc_bind_ok]
    · rw [exMapM, ht2, exc_bind_ok, h2, exc_bind_ok, List.map_cons,
        roundVal_eq_roundScalar x hx]
    · rw [List.length_cons, List.length_cons, h3]
    · intro u hu
      rcases List.mem_cons.1 hu with h5 | h5
      · rw [h5]; exact ⟨ht3, ht4⟩
      · exact h4 u h5

theorem intercalate_sp_mem (toks : List Chars) (c : Char)
    (hc : c ∈ List.intercalate [' '] toks) : (∃ t ∈ toks, c ∈ t) ∨ c = ' ' := by
  induction toks with
  | nil =>
    rw [show List.intercalate [' '] [] = [] from rfl] at hc
    cases hc
  | cons t rest ih =>
    cases rest with
    | nil =>
      rw [show List.intercalate [' '] [t] = t by unfold List.intercalate; simp] at hc
      exact Or.inl ⟨t, List.mem_cons_self _ _, hc⟩
    | cons t2 rest2 =>
      rw [intercalate_cons₂] at hc
      rcases List.mem_append.1 hc with h1 | h1
      · rcases List.mem_append.1 h1 with h2 | h2
        · exact Or.inl ⟨t, List.mem_cons_self _ _, h2⟩
        · rcases List.mem_cons.1 h2 with h3 | h3
          · exact Or.inr h3
          · cases h3
      · rcases ih h1 with ⟨u, hu, hcu⟩ | h2
        · exact Or.inl ⟨u, List.mem_cons_of_mem _ hu, hcu⟩
        · exact Or.inr h2

theorem intercalate_sp_ne_nil (t : Chars) (ts : List Chars) (ht : t ≠ []) :
    List.intercalate [' '] (t :: ts) ≠ [] := by
  cases ts with
  | nil =>
    rw [show List.intercalate [' '] [t] = t by unfold List.intercalate; simp]
    exact ht
  | cons t2 rest =>
    rw [intercalate_cons₂]
    intro he
    rcases List.append_eq_nil.1 he with ⟨h1, _⟩
    rcases List.append_eq_nil.1 h1 with ⟨h2, _⟩
    exact ht h2

theorem intercalate_sp_head (t : Chars) (ts : List Chars) (ht : t ≠ []) :
    (List.intercalate [' '] (t :: ts)).head? = t.head? := by
  cases ts with
  | nil => rw [show List.intercalate [' '] [t] = t by unfold List.intercalate; simp]
  | cons t2 rest =>
    rw [intercalate_cons₂, List.append_assoc, List.head?_append, List.head?_append]
    cases hh : t.head? with
    | none =>
      rw [List.head?_eq_none_iff] at hh
      exact absurd hh ht
    | some c => rfl

theorem intercalate_sp_last (toks : List Chars) (htne : ∀ t ∈ toks, t ≠ []) :
    ∀ c, (List.intercalate [' '] toks).getLast? = some c → ∃ t ∈ toks, t.getLast? = some c := by
  induction toks with
  | nil =>
    intro c hc
    rw [show List.intercalate [' '] [] = [] from rfl] at hc
    cases hc
  | cons t rest ih =>
    intro c hc
    cases rest with
    | nil =>
      rw [show List.intercalate [' '] [t] = t by unfold List.intercalate; simp] at hc
      exact ⟨t, List.mem_cons_self _ _, hc⟩
    | cons t2 rest2 =>
      have hIne : List.intercalate [' '] (t2 :: rest2) ≠ [] :=
        intercalate_sp_ne_nil t2 rest2
          (htne t2 (List.mem_cons_of_mem _ (List.mem_cons_self _ _)))
      cases hI : (List.intercalate [' '] (t2 :: rest2)).getLast? with
      | none =>
        rw [List.getLast?_eq_none_iff] at hI
        exact absurd hI hIne
      | some d =>
        have hor : ∀ (x : Option Char), (some d).or x = some d := fun x => rfl
        rw [intercalate_cons₂, List.append_assoc, List.getLast?_append,
          List.getLast?_append, hI, hor, hor] at hc
        injection hc with hc
        obtain ⟨u, hu, hcu⟩ := ih (fun x hx => htne x (List.mem_cons_of_mem _ hx)) d hI
        refine ⟨u, List.mem_cons_of_mem _ hu, ?_⟩
        rw [hcu, hc]

theorem wordChar_facts (c : Char) (h : isWordChar c = true) :
    pyIsSpace c = false ∧ c ≠ '!' ∧ c ≠ '=' ∧ c ≠ '&' ∧ c ≠ '\n' ∧ c ≠ '('
      ∧ c ≠ '/' ∧ c ≠ ',' ∧ c ≠ '\'' ∧ c ≠ '&' := by
  refine ⟨?_, ?_, ?_, ?_, ?_, ?_, ?_, ?_, ?_, ?_⟩
  · cases hsp : pyIsSpace c with
    | false => rfl
    | true =>
      exfalso
      simp only [pyIsSpace, Bool.or_eq_true, decide_eq_true_eq] at hsp
      rcases hsp with ((((h1 | h1) | h1) | h1) | h1) | h1 <;> (subst h1; revert h; decide)
  all_goals (intro he; subst he; revert h; decide)

theorem takeWhile_append_stop (p : Char → Bool) :
    ∀ (A : Chars), (∀ c ∈ A, p c = true) → ∀ (z : Char), p z = false → ∀ (Z : Chars),
      (A ++ z :: Z).takeWhile p = A ∧ (A ++ z :: Z).dropWhile p = z :: Z := by
  intro A
  induction A with
  | nil =>
    intro _ z hz Z
    rw [List.nil_append, List.takeWhile_cons, List.dropWhile_cons, hz]
    exact ⟨rfl, rfl⟩
  | cons a t ih =>
    intro hA z hz Z
    obtain ⟨ih1, ih2⟩ := ih (fun c hc => hA c (List.mem_cons_of_mem _ hc)) z hz Z
    constructor
    · rw [List.cons_append, List.takeWhile_cons, hA a (List.mem_cons_self _ _),
        if_pos rfl, ih1]
    · rw [List.cons_append, List.dropWhile_cons, hA a (List.mem_cons_self _ _),
        if_pos rfl, ih2]

theorem pyInt_quotehead_none (Y : Chars) (hstrip : pyStrip ('\'' :: Y) = '\'' :: Y) :
    pyInt ('\'' :: Y) = none := by
  unfold pyInt
  rw [hstrip]
  dsimp only
  rw [signSplitZ_default _ (by
    intro c hc
    rw [List.head?_cons] at hc
    injection hc with hc
    rw [← hc]
    exact ⟨by decide, by decide⟩)]
  rfl

theorem pyFloat_quotehead_none (Y : Chars) (hstrip : pyStrip ('\'' :: Y) = '\'' :: Y) :
    pyFloat ('\'' :: Y) = none := by
  unfold pyFloat
  rw [hstrip]
  dsimp only
  rw [signSplitZ_default _ (by
    intro c hc
    rw [List.head?_cons] at hc
    injection hc with hc
    rw [← hc]
    exact ⟨by decide, by decide⟩)]
  rfl

theorem strip_id_replace_dE (v : Chars)
    (hh : ∀ c, v.head? = some c → pyIsSpace c = false)
    (hl : ∀ c, v.getLast? = some c → pyIsSpace c = false) :
    pyStrip (replaceChar 'd' 'E' v) = replaceChar 'd' 'E' v := by
  refine pyStrip_id_of_ends _ ?_ ?_
  · intro c hc
    unfold replaceChar at hc
    rw [List.head?_map] at hc
    cases hv : v.head? with
    | none => rw [hv] at hc; cases hc
    | some c0 =>
      rw [hv] at hc
      injection hc with hc
      dsimp only at hc
      have h0 := hh c0 hv
      by_cases hd : c0 = 'd'
      · rw [hd] at hc
        rw [← hc]
        rfl
      · rw [if_neg hd] at hc
        rw [← hc]
        exact h0
  · intro c hc
    unfold replaceChar at hc
    rw [List.getLast?_map] at hc
    cases hv : v.getLast? with
    | none => rw [hv] at hc; cases hc
    | some c0 =>
      rw [hv] at hc
      injection hc with hc
      dsimp only at hc
      have h0 := hl c0 hv
      by_cases hd : c0 = 'd'
      · rw [hd] at hc
        rw [← hc]
        rfl
      · rw [if_neg hd] at hc
        rw [← hc]
        exact h0

/-- A value starting with a quote but not containing exactly two quotes
fails every alternative of `_parse_value`. -/
theorem pyParseValue_multiquote_fail (Y : Chars)
    (hlast : ∀ c, ('\'' :: Y).getLast? = some c → pyIsSpace c = false)
    (hcount : countChar '\'' ('\'' :: Y) ≠ 2) :
    pyParseValue ('\'' :: Y) = .error (.noSingleValue ('\'' :: Y)) := by
  have hhead : ∀ c, ('\'' :: Y).head? = some c → pyIsSpace c = false := by
    intro c hc
    rw [List.head?_cons] at hc
    injection hc with hc
    rw [← hc]
    rfl
  have hstrip : pyStrip ('\'' :: Y) = '\'' :: Y := pyStrip_id_of_ends _ hhead hlast
  have hrepl : replaceChar 'd' 'E' ('\'' :: Y) = '\'' :: replaceChar 'd' 'E' Y := by
    unfold replaceChar
    rw [List.map_cons]
    rfl
  have hstrip2 : pyStrip ('\'' :: replaceChar 'd' 'E' Y) = '\'' :: replaceChar 'd' 'E' Y := by
    rw [← hrepl]
    exact strip_id_replace_dE _ hhead hlast
  unfold pyParseValue
  rw [pyInt_quotehead_none Y hstrip]
  dsimp only
  rw [hrepl, pyFloat_quotehead_none _ hstrip2]
  dsimp only
  rw [matchComplex_not_paren _ (by
    intro r he
    cases he)]
  dsimp only
  rw [if_neg (by
    rintro (he | he) <;> (injection he with h1 _; cases h1))]
  rw [if_neg (by
    rintro (he | he) <;> (injection he with h1 _; cases h1))]
  rw [if_neg (by
    rintro ⟨_, _, h3⟩
    exact hcount h3)]
  rw [if_neg (by
    rintro ⟨h1, _, _⟩
    rw [List.head?_cons] at h1
    injection h1 with h1
    cases h1)]

/-- The `string_re` scan over space-joined quoted tokens returns exactly the
tokens: at each quote the maximal space run, a word character and the
quote-free body are consumed up to the closing quote. -/
theorem stringReGo_scan : ∀ (ss : List Chars) (fuel : ℕ),
    (∀ s ∈ ss, '\'' ∉ s ∧ ∃ w b, pyLStrip s = w :: b ∧ isWordChar w = true) →
    (List.intercalate [' '] (ss.map (fun s => '\'' :: s ++ ['\'']))).length < fuel →
    stringReGo fuel (List.intercalate [' '] (ss.map (fun s => '\'' :: s ++ ['\''])))
      = ss.map (fun s => '\'' :: s ++ ['\'']) := by
  intro ss
  induction ss with
  | nil =>
    intro fuel _ hlen
    cases fuel with
    | zero => cases hlen
    | succ f => rfl
  | cons s rest ih =>
    intro fuel hss hlen
    obtain ⟨hq, w, b, hlsp, hw⟩ := hss s (List.mem_cons_self _ _)
    have hsdecomp : s = s.takeWhile pyIsSpace ++ w :: b := by
      have h2 := List.takeWhile_append_dropWhile pyIsSpace s
      rw [show List.dropWhile pyIsSpace s = pyLStrip s from rfl, hlsp] at h2
      exact h2.symm
    have hspspace : ∀ c ∈ s.takeWhile pyIsSpace, pyIsSpace c = true :=
      fun c hc => List.mem_takeWhile_imp hc
    have hwns : pyIsSpace w = false := (wordChar_facts w hw).1
    have hbq : ∀ c ∈ b, (fun x => decide (x ≠ '\'')) c = true := by
      intro c hc
      have : c ∈ s := by
        rw [hsdecomp]
        exact List.mem_append.2 (Or.inr (List.mem_cons_of_mem _ hc))
      simp only [decide_eq_true_eq]
      intro he
      rw [he] at this
      exact hq this
    have hqq : (fun x => decide (x ≠ '\'')) '\'' = false := by simp
    cases rest with
    | nil =>
      rw [List.map_cons, List.map_nil,
        show List.intercalate [' '] [('\'' :: s ++ ['\''] : Chars)]
          = '\'' :: s ++ ['\''] by unfold List.intercalate; simp] at hlen ⊢
      cases fuel with
      | zero => cases hlen
      | succ f =>
        rw [show (('\'' :: s ++ ['\'']) : Chars) = '\'' :: (s ++ ['\'']) from rfl,
          stringReGo, if_pos rfl]
        dsimp only
        have hrw : s ++ ['\''] = s.takeWhile pyIsSpace ++ w :: (b ++ ['\'']) := by
          conv_lhs => rw [hsdecomp]
          simp
        rw [hrw]
        obtain ⟨ht1, ht2⟩ := takeWhile_append_stop pyIsSpace
          (s.takeWhile pyIsSpace) hspspace w hwns (b ++ ['\''])
        rw [ht1, ht2]
        dsimp only
        rw [if_pos hw]
        obtain ⟨hb1, hb2⟩ := takeWhile_append_stop (fun x => decide (x ≠ '\''))
          b hbq '\'' hqq []
        rw [hb1, hb2]
        dsimp only
        cases f with
        | zero =>
          exfalso
          rw [List.length_append, List.length_cons] at hlen
          omega
        | succ f2 =>
          rw [show stringReGo (f2 + 1) ([] : Chars) = [] from rfl]
          simp
    | cons r0 rest2 =>
      rw [List.map_cons, List.map_cons] at hlen ⊢
      rw [intercalate_cons₂] at hlen ⊢
      cases fuel with
      | zero => cases hlen
      | succ f =>
        rw [show ((('\'' :: s ++ ['\'']) : Chars) ++ [' ']
              ++ List.intercalate [' ']
                (('\'' :: r0 ++ ['\'']) :: rest2.map (fun s => '\'' :: s ++ ['\''])))
            = '\'' :: ((s ++ ['\'']) ++ ' '
              :: List.intercalate [' ']
                (('\'' :: r0 ++ ['\'']) :: rest2.map (fun s => '\'' :: s ++ ['\''])))
            by simp]
        rw [stringReGo, if_pos rfl]
        dsimp only
        have hrw : (s ++ ['\'']) ++ ' '
            :: List.intercalate [' ']
              (('\'' :: r0 ++ ['\'']) :: rest2.map (fun s => '\'' :: s ++ ['\'']))
            = s.takeWhile pyIsSpace ++ w :: (b ++ '\''
              :: ' ' :: List.intercalate [' ']
                (('\'' :: r0 ++ ['\'']) :: rest2.map (fun s => '\'' :: s ++ ['\'']))) := by
          conv_lhs => rw [hsdecomp]
          simp
        rw [hrw]
        obtain ⟨ht1, ht2⟩ := takeWhile_append_stop pyIsSpace
          (s.takeWhile pyIsSpace) hspspace w hwns _
        rw [ht1, ht2]
        dsimp only
        rw [if_pos hw]
        obtain ⟨hb1, hb2⟩ := takeWhile_append_stop (fun x => decide (x ≠ '\''))
          b hbq '\'' hqq _
        rw [hb1, hb2]
        dsimp only
        cases f with
        | zero =>
          exfalso
          rw [List.length_append, List.length_append, List.length_cons] at hlen
          omega
        | succ f2 =>
          rw [show stringReGo (f2 + 1) (' '
              :: List.intercalate [' ']
                (('\'' :: r0 ++ ['\'']) :: rest2.map (fun s => '\'' :: s ++ ['\''])))
              = stringReGo f2 (List.intercalate [' ']
                  (('\'' :: r0 ++ ['\'']) :: rest2.map (fun s => '\'' :: s ++ ['\'']))) from by
            rw [stringReGo, if_neg (by decide)]]
          have hih := ih f2 (fun x hx => hss x (List.mem_cons_of_mem _ hx)) (by
            rw [List.map_cons]
            simp only [List.length_append, List.length_cons, List.length_nil] at hlen
            omega)
          rw [List.map_cons] at hih
          rw [hih]
          congr 1
          rw [hsdecomp]
          simp
          exact (takeWhile_append_stop pyIsSpace (s.takeWhile pyIsSpace) hspspace w hwns b).1

theorem textElemB_str (s : Chars) (h : textElemB (.str s) = true) :
    strOKB s = true ∧ '\'' ∉ s ∧ ∃ w b, pyLStrip s = w :: b ∧ isWordChar w = true := by
  unfold textElemB at h
  rw [Bool.and_eq_true] at h
  obtain ⟨h1, h2⟩ := h
  refine ⟨h1, fun hm => absurd rfl (strOKB_mem s h1 '\'' hm).1, ?_⟩
  cases hls : pyLStrip s with
  | nil => rw [hls] at h2; cases h2
  | cons w b =>
    rw [hls] at h2
    exact ⟨w, b, rfl, h2⟩

/-- A list of supported texts is the `PyVal.str` image of its string list,
with the per-string facts the scan needs. -/
theorem textList_decomp : ∀ (xs : List PyVal), (∀ x ∈ xs, textElemB x = true) →
    ∃ ss : List Chars, xs = ss.map PyVal.str ∧
      ∀ s ∈ ss, strOKB s = true ∧ '\'' ∉ s ∧
        ∃ w b, pyLStrip s = w :: b ∧ isWordChar w = true := by
  intro xs
  induction xs with
  | nil => exact fun _ => ⟨[], rfl, fun s hs => absurd hs (List.not_mem_nil s)⟩
  | cons x xt ih =>
    intro hall
    obtain ⟨ss2, hss1, hss2⟩ := ih (fun y hy => hall y (List.mem_cons_of_mem _ hy))
    have hx := hall x (List.mem_cons_self _ _)
    cases x with
    | str s =>
      refine ⟨s :: ss2, by rw [List.map_cons, hss1], ?_⟩
      intro u hu
      rcases List.mem_cons.1 hu with h1 | h1
      · rw [h1]; exact textElemB_str s hx
      · exact hss2 u h1
    | int i => cases hx
    | real q => cases hx
    | bool b => cases hx
    | complex a b => cases hx
    | list l => cases hx
    | noneV => cases hx

/-- Serializing a list of texts yields their singly-quoted tokens. -/
theorem format_text_tokens (ss : List Chars) :
    exMapM formatValueToFortran (ss.map PyVal.str)
      = .ok (ss.map (fun s => '\'' :: s ++ ['\''])) := by
  induction ss with
  | nil => rfl
  | cons s rest ih =>
    rw [List.map_cons, exMapM,
      show formatValueToFortran (PyVal.str s) = .ok ('\'' :: s ++ ['\'']) from rfl,
      exc_bind_ok, ih, exc_bind_ok, List.map_cons]

/-- Each quoted token re-parses to its text. -/
theorem parse_text_tokens (ss : List Chars) (h : ∀ s ∈ ss, '\'' ∉ s) :
    exMapM pyParseValue (ss.map (fun s => '\'' :: s ++ ['\'']))
      = .ok (ss.map PyVal.str) := by
  induction ss with
  | nil => rfl
  | cons s rest ih =>
    rw [List.map_cons, exMapM, pyParseValue_str s (h s (List.mem_cons_self _ _)),
      exc_bind_ok, ih (fun u hu => h u (List.mem_cons_of_mem _ hu)), exc_bind_ok,
      List.map_cons]

/-- The quote count of the space-joined quoted tokens: two per token. -/
theorem countChar_q_intercalate : ∀ (ss : List Chars), (∀ s ∈ ss, '\'' ∉ s) →
    countChar '\'' (List.intercalate [' '] (ss.map (fun s => '\'' :: s ++ ['\''])))
      = 2 * ss.length := by
  intro ss
  induction ss with
  | nil => exact fun _ => rfl
  | cons s rest ih =>
    intro hq
    have hs : countChar '\'' ('\'' :: s ++ ['\'']) = 2 := by
      rw [show ('\'' :: s ++ ['\''] : Chars) = ('\'' :: s) ++ ['\''] from rfl,
        countChar_append, countChar, countChar_eq_zero _ _ (hq s (List.mem_cons_self _ _))]
      rfl
    cases rest with
    | nil =>
      rw [List.map_cons, List.map_nil,
        show List.intercalate [' '] [('\'' :: s ++ ['\''])] = '\'' :: s ++ ['\''] by
          unfold List.intercalate; simp]
      rw [hs]
      rfl
    | cons s2 rest2 =>
      rw [List.map_cons, List.map_cons, intercalate_cons₂, countChar_append,
        countChar_append, hs]
      rw [show countChar '\'' [' '] = 0 from rfl]
      have h := ih (fun u hu => hq u (List.mem_cons_of_mem _ hu))
      rw [List.map_cons] at h
      rw [h]
      simp only [List.length_cons]
      ring

/-- Stripping a quoted token is the identity. -/
theorem pyStrip_quoted (s : Chars) : pyStrip ('\'' :: s ++ ['\'']) = '\'' :: s ++ ['\''] := by
  refine pyStrip_id_of_ends _ ?_ ?_
  · intro c hc
    rw [show ('\'' :: s ++ ['\''] : Chars).head? = some '\'' from rfl] at hc
    injection hc with hc
    rw [← hc]
    rfl
  · intro c hc
    rw [show ('\'' :: s ++ ['\''] : Chars) = ('\'' :: s) ++ ['\''] from rfl,
      List.getLast?_concat] at hc
    injection hc with hc
    rw [← hc]
    rfl

/-- The serialized value text of a supported value, with every fact the
line round trip needs. -/
theorem value_V_spec (v : PyVal) (hv : valWF v = true) :
    ∃ V, (∀ nm, dumpLines nm (GVal.val v) true
        = .ok ["   ".data ++ nm ++ " = ".data ++ V]) ∧
      V ≠ [] ∧ '=' ∉ V ∧ '!' ∉ V ∧ '&' ∉ V ∧ '\n' ∉ V ∧
      (∀ c, V.head? = some c → pyIsSpace c = false) ∧
      (∀ c, V.getLast? = some c → pyIsSpace c = false ∧ c ≠ ',') ∧
      ((pyParseValue V = .ok (roundVal v) ∧ rawEntry v = GVal.val (roundVal v)) ∨
        (pyParseValue V = .error (.noSingleValue V) ∧
          ∀ g nm, lookupA g nm = none →
            inlineAssign g nm V = .ok (g ++ [(nm, rawEntry v)]))) := by
  cases v with
  | list xs =>
    unfold valWF at hv
    rw [Bool.and_eq_true] at hv
    obtain ⟨hlen, hall⟩ := hv
    rw [decide_eq_true_eq] at hlen
    rw [Bool.or_eq_true] at hall
    rcases hall with hall | hall
    · rw [List.all_eq_true] at hall
      have hall2 : ∀ x ∈ xs, numScalarB x = true := fun x hx => hall x hx
      obtain ⟨toks, ht1, ht2, ht3, ht4⟩ := format_tokens_spec xs hall2
      set V := List.intercalate [' '] toks with hV
      have htoks2 : ∃ t ts, toks = t :: ts ∧ ts ≠ [] := by
        cases toks with
        | nil => rw [← ht3] at hlen; cases hlen
        | cons t ts =>
          cases ts with
          | nil =>
            rw [← ht3] at hlen
            cases hlen
            rename_i hle
            cases hle
          | cons t2 ts2 => exact ⟨t, t2 :: ts2, rfl, List.cons_ne_nil _ _⟩
      obtain ⟨t, ts, htts, htsne⟩ := htoks2
      have hsp : ' ' ∈ V := by
        rw [hV, htts]
        cases ts with
        | nil => exact absurd rfl htsne
        | cons t2 ts2 =>
          rw [intercalate_cons₂]
          exact List.mem_append.2 (Or.inl (List.mem_append.2 (Or.inr (List.mem_cons_self _ _))))
      have hVmem : ∀ c ∈ V, goodTokChar c = true ∨ c = ' ' := by
        intro c hc
        rcases intercalate_sp_mem toks c hc with ⟨u, hu, hcu⟩ | h1
        · exact Or.inl ((ht4 u hu).2 c hcu)
        · exact Or.inr h1
      have hVhead : ∀ c, V.head? = some c → goodTokChar c = true := by
        intro c hc
        rw [hV, htts, intercalate_sp_head t ts (ht4 t (htts ▸ List.mem_cons_self _ _)).1] at hc
        exact (ht4 t (htts ▸ List.mem_cons_self _ _)).2 c (List.mem_of_mem_head? hc)
      have hVlast : ∀ c, V.getLast? = some c → goodTokChar c = true := by
        intro c hc
        obtain ⟨u, hu, hcu⟩ := intercalate_sp_last toks (fun u hu => (ht4 u hu).1) c hc
        exact (ht4 u hu).2 c (mem_of_getLast?_eq _ _ hcu)
      have hfail : pyParseValue V = .error (.noSingleValue V) := by
        refine pyParseValue_inline_fail V hsp ?_ ?_
        · intro c hc
          have hg := goodTok_facts c (hVhead c hc)
          exact ⟨hg.1, hg.2.2.2.2.2.2.1, hg.2.2.2.2.2.2.2.2.1, hg.2.2.2.2.2.2.2.2.2⟩
        · intro c hc
          exact (goodTok_facts c (hVlast c hc)).1
      refine ⟨V, ?_, ?_, ?_, ?_, ?_, ?_, ?_, ?_, Or.inr ⟨hfail, ?_⟩⟩
      · intro nm
        rw [dumpLines]
        rw [if_pos rfl, ht1, exc_bind_ok]
      · rw [hV, htts]
        exact intercalate_sp_ne_nil t ts (ht4 t (htts ▸ List.mem_cons_self _ _)).1
      · intro hm
        rcases hVmem '=' hm with h1 | h1
        · exact absurd rfl (goodTok_facts _ h1).2.2.1
        · cases h1
      · intro hm
        rcases hVmem '!' hm with h1 | h1
        · exact absurd rfl (goodTok_facts _ h1).2.1
        · cases h1
      · intro hm
        rcases hVmem '&' hm with h1 | h1
        · exact absurd rfl (goodTok_facts _ h1).2.2.2.1
        · cases h1
      · intro hm
        rcases hVmem '\n' hm with h1 | h1
        · exact absurd rfl (goodTok_facts _ h1).2.2.2.2.1
        · cases h1
      · intro c hc
        exact (goodTok_facts c (hVhead c hc)).1
      · intro c hc
        have hg := goodTok_facts c (hVlast c hc)
        exact ⟨hg.1, hg.2.2.2.2.2.1⟩
      · intro g nm hfresh
        have hquote : countChar '\'' V = 0 := by
          refine countChar_eq_zero _ _ ?_
          intro hm
          rcases hVmem '\'' hm with h1 | h1
          · exact absurd rfl (goodTok_facts _ h1).2.2.2.2.2.2.2.2.1
          · cases h1
        have hparen : countChar '(' V = 0 := by
          refine countChar_eq_zero _ _ ?_
          intro hm
          rcases hVmem '(' hm with h1 | h1
          · exact absurd rfl (goodTok_facts _ h1).2.2.2.2.2.2.1
          · cases h1
        have hcomma : ',' ∉ V := by
          intro hm
          rcases hVmem ',' hm with h1 | h1
          · exact absurd rfl (goodTok_facts _ h1).2.2.2.2.2.1
          · cases h1
        have htokens : inlineTokens V = toks := by
          unfold inlineTokens
          rw [if_pos (Or.inl hquote), if_neg (by rw [hparen]; exact fun h => h rfl)]
          rw [replaceChar_id _ _ _ hcomma]
          rw [hV]
          exact splitWs_intercalate toks (htts ▸ List.cons_ne_nil _ _)
            (fun u hu => ⟨(ht4 u hu).1, fun c hc =>
              (goodTok_facts c ((ht4 u hu).2 c hc)).1⟩)
        rw [rawEntry]
        exact inlineAssign_fresh g nm V t ts (xs.map roundScalar)
          (htts ▸ htokens) (htts ▸ ht2) hfresh
    · rw [List.all_eq_true] at hall
      obtain ⟨ss, hssx, hssf⟩ := textList_decomp xs (fun x hx => hall x hx)
      subst hssx
      rw [List.length_map] at hlen
      obtain ⟨s0, s1, srest, hsseq⟩ : ∃ s0 s1 srest, ss = s0 :: s1 :: srest := by
        cases ss with
        | nil =>
          exfalso
          rw [List.length_nil] at hlen
          omega
        | cons a t =>
          cases t with
          | nil =>
            exfalso
            rw [List.length_cons, List.length_nil] at hlen
            omega
          | cons b t2 => exact ⟨a, b, t2, rfl⟩
      subst hsseq
      have hqs : ∀ s ∈ (s0 :: s1 :: srest : List Chars), '\'' ∉ s :=
        fun s hs => (hssf s hs).2.1
      have hscan : ∀ s ∈ (s0 :: s1 :: srest : List Chars),
          '\'' ∉ s ∧ ∃ w b, pyLStrip s = w :: b ∧ isWordChar w = true :=
        fun s hs => ⟨(hssf s hs).2.1, (hssf s hs).2.2⟩
      have hok : ∀ s ∈ (s0 :: s1 :: srest : List Chars), strOKB s = true :=
        fun s hs => (hssf s hs).1
      have htokne : ∀ t ∈ (s0 :: s1 :: srest).map (fun s => '\'' :: s ++ ['\'']),
          t ≠ [] := by
        intro t ht
        obtain ⟨s, _, hs⟩ := List.mem_map.1 ht
        rw [← hs]
        exact List.cons_ne_nil _ _
      have htoklast : ∀ t ∈ (s0 :: s1 :: srest).map (fun s => '\'' :: s ++ ['\'']),
          t.getLast? = some '\'' := by
        intro t ht
        obtain ⟨s, _, hs⟩ := List.mem_map.1 ht
        rw [← hs, show ('\'' :: s ++ ['\''] : Chars) = ('\'' :: s) ++ ['\''] from rfl,
          List.getLast?_concat]
      have hVmem : ∀ c ∈ List.intercalate [' ']
            ((s0 :: s1 :: srest).map (fun s => '\'' :: s ++ ['\''])),
          (c = '\'' ∨ ∃ s ∈ (s0 :: s1 :: srest : List Chars), c ∈ s) ∨ c = ' ' := by
        intro c hc
        rcases intercalate_sp_mem _ c hc with ⟨t, ht, hct⟩ | h1
        · obtain ⟨s, hsmem, hs⟩ := List.mem_map.1 ht
          rw [← hs] at hct
          rcases List.mem_append.1 hct with h2 | h2
          · rcases List.mem_cons.1 h2 with h3 | h3
            · exact Or.inl (Or.inl h3)
            · exact Or.inl (Or.inr ⟨s, hsmem, h3⟩)
          · rcases List.mem_cons.1 h2 with h3 | h3
            · exact Or.inl (Or.inl h3)
            · cases h3
        · exact Or.inr h1
      have hnotin : ∀ X : Char, X ≠ '\'' → X ≠ ' ' →
          (∀ s ∈ (s0 :: s1 :: srest : List Chars), X ∉ s) →
          X ∉ List.intercalate [' ']
            ((s0 :: s1 :: srest).map (fun s => '\'' :: s ++ ['\''])) := by
        intro X hX1 hX2 hX3 hm
        rcases hVmem X hm with (h1 | ⟨s, hs, hXs⟩) | h1
        · exact hX1 h1
        · exact hX3 s hs hXs
        · exact hX2 h1
      have hVlastq : ∀ c, (List.intercalate [' ']
            ((s0 :: s1 :: srest).map (fun s => '\'' :: s ++ ['\'']))).getLast?
          = some c → c = '\'' := by
        intro c hc
        obtain ⟨u, hu, hcu⟩ := intercalate_sp_last _ htokne c hc
        rw [htoklast u hu] at hcu
        injection hcu with hcu
        exact hcu.symm
      have hVcons : List.intercalate [' ']
            ((s0 :: s1 :: srest).map (fun s => '\'' :: s ++ ['\'']))
          = '\'' :: (s0 ++ ['\''] ++ ' ' :: List.intercalate [' ']
              (('\'' :: s1 ++ ['\'']) :: srest.map (fun s => '\'' :: s ++ ['\'']))) := by
        rw [List.map_cons, List.map_cons, intercalate_cons₂]
        simp
      have hcountV : countChar '\''
            (List.intercalate [' '] ((s0 :: s1 :: srest).map (fun s => '\'' :: s ++ ['\''])))
          = 2 * (s0 :: s1 :: srest).length :=
        countChar_q_intercalate _ hqs
      have hfail : pyParseValue (List.intercalate [' ']
            ((s0 :: s1 :: srest).map (fun s => '\'' :: s ++ ['\''])))
          = .error (.noSingleValue (List.intercalate [' ']
              ((s0 :: s1 :: srest).map (fun s => '\'' :: s ++ ['\''])))) := by
        rw [hVcons]
        refine pyParseValue_multiquote_fail _ ?_ ?_
        · intro c hc
          rw [← hVcons] at hc
          rw [hVlastq c hc]
          rfl
        · rw [← hVcons, hcountV, List.length_cons, List.length_cons]
          omega
      have htokens : inlineTokens (List.intercalate [' ']
            ((s0 :: s1 :: srest).map (fun s => '\'' :: s ++ ['\''])))
          = (s0 :: s1 :: srest).map (fun s => '\'' :: s ++ ['\'']) := by
        unfold inlineTokens
        rw [if_neg (by
          rw [hcountV, List.length_cons, List.length_cons]
          rintro (h | h) <;> omega)]
        rw [show stringReFindall (List.intercalate [' ']
              ((s0 :: s1 :: srest).map (fun s => '\'' :: s ++ ['\''])))
            = (s0 :: s1 :: srest).map (fun s => '\'' :: s ++ ['\''])
            from stringReGo_scan _ _ hscan (Nat.lt_succ_self _)]
        rw [List.map_map]
        exact List.map_congr_left (fun a ha => pyStrip_quoted a)
      have hmaps : ((s0 :: s1 :: srest).map PyVal.str).map roundScalar
          = (s0 :: s1 :: srest).map PyVal.str := by
        rw [List.map_map]
        exact List.map_congr_left (fun a ha => rfl)
      refine ⟨List.intercalate [' '] ((s0 :: s1 :: srest).map (fun s => '\'' :: s ++ ['\''])),
        ?_, ?_, ?_, ?_, ?_, ?_, ?_, ?_, Or.inr ⟨hfail, ?_⟩⟩
      · intro nm
        rw [dumpLines]
        rw [if_pos rfl, format_text_tokens, exc_bind_ok]
      · rw [List.map_cons]
        refine intercalate_sp_ne_nil _ _ ?_
        intro he
        rcases List.append_eq_nil.1 he with ⟨h1, _⟩
        cases h1
      · exact hnotin '=' (by decide) (by decide)
          (fun s hs hm => absurd rfl (strOKB_mem s (hok s hs) '=' hm).2.1)
      · exact hnotin '!' (by decide) (by decide)
          (fun s hs hm => absurd rfl (strOKB_mem s (hok s hs) '!' hm).2.2.1)
      · exact hnotin '&' (by decide) (by decide)
          (fun s hs hm => absurd rfl (strOKB_mem s (hok s hs) '&' hm).2.2.2.1)
      · exact hnotin '\n' (by decide) (by decide)
          (fun s hs hm => absurd rfl (strOKB_mem s (hok s hs) '\n' hm).2.2.2.2)
      · intro c hc
        rw [List.map_cons, intercalate_sp_head _ _ (by
          intro he
          rcases List.append_eq_nil.1 he with ⟨h1, _⟩
          cases h1)] at hc
        rw [show (('\'' :: s0 ++ ['\''] : Chars)).head? = some '\'' from rfl] at hc
        injection hc with hc
        rw [← hc]
        rfl
      · intro c hc
        rw [hVlastq c hc]
        exact ⟨rfl, by decide⟩
      · intro g nm hfresh
        have htoks2 : inlineTokens (List.intercalate [' ']
              ((s0 :: s1 :: srest).map (fun s => '\'' :: s ++ ['\''])))
            = ('\'' :: s0 ++ ['\'']) :: (s1 :: srest).map (fun s => '\'' :: s ++ ['\'']) := by
          have h := htokens
          rw [List.map_cons] at h
          exact h
        have hparse2 : exMapM pyParseValue (('\'' :: s0 ++ ['\'']) ::
              (s1 :: srest).map (fun s => '\'' :: s ++ ['\'']))
            = .ok ((s0 :: s1 :: srest).map PyVal.str) := by
          have h := parse_text_tokens (s0 :: s1 :: srest) hqs
          rw [List.map_cons] at h
          exact h
        rw [rawEntry, hmaps]
        exact inlineAssign_fresh g nm _ _ _ _ htoks2 hparse2 hfresh
  | int i =>
    obtain ⟨t, h1, h2, h3, h4, h5, h6, h7, h8, h9⟩ := format_scalar_spec (.int i) rfl
    refine ⟨t, ?_, h3, h5, h4, h6, h7, h8, h9, Or.inl ⟨h2, rfl⟩⟩
    intro nm
    rw [dumpLines, h1, exc_bind_ok]
    intro xs hxs
    cases hxs
  | real q =>
    obtain ⟨t, h1, h2, h3, h4, h5, h6, h7, h8, h9⟩ := format_scalar_spec (.real q) rfl
    refine ⟨t, ?_, h3, h5, h4, h6, h7, h8, h9, Or.inl ⟨h2, rfl⟩⟩
    intro nm
    rw [dumpLines, h1, exc_bind_ok]
    intro xs hxs
    cases hxs
  | bool b =>
    obtain ⟨t, h1, h2, h3, h4, h5, h6, h7, h8, h9⟩ := format_scalar_spec (.bool b) rfl
    refine ⟨t, ?_, h3, h5, h4, h6, h7, h8, h9, Or.inl ⟨h2, rfl⟩⟩
    intro nm
    rw [dumpLines, h1, exc_bind_ok]
    intro xs hxs
    cases hxs
  | str s =>
    obtain ⟨t, h1, h2, h3, h4, h5, h6, h7, h8, h9⟩ := format_scalar_spec (.str s) hv
    refine ⟨t, ?_, h3, h5, h4, h6, h7, h8, h9, Or.inl ⟨h2, rfl⟩⟩
    intro nm
    rw [dumpLines, h1, exc_bind_ok]
    intro xs hxs
    cases hxs
  | complex x y => cases hv
  | noneV => cases hv

/-- One serialized entry line: its dump text, its inertness in the line
assembly, and its processing into the fresh group slot. -/
theorem processLine_entry (nm : Chars) (v : PyVal)
    (hnm1 : nm ≠ []) (hnm2 : ∀ c ∈ nm, isWordChar c = true) (hv : valWF v = true) :
    ∃ V, dumpLines nm (GVal.val v) true = .ok ["   ".data ++ nm ++ " = ".data ++ V] ∧
      '\n' ∉ ("   ".data ++ nm ++ " = ".data ++ V) ∧
      '&' ∉ ("   ".data ++ nm ++ " = ".data ++ V) ∧
      pyStrip ("   ".data ++ nm ++ " = ".data ++ V) = nm ++ " = ".data ++ V ∧
      (nm ++ " = ".data ++ V) ≠ [] ∧
      startsWithBang (nm ++ " = ".data ++ V) = false ∧
      (splitEq2 (nm ++ " = ".data ++ V)).isSome = true ∧
      ∀ g, lookupA g nm = none →
        processLine g (nm ++ " = ".data ++ V) = .ok (g ++ [(nm, rawEntry v)]) := by
  obtain ⟨V, hd, hVne, hVeq, hVbang, hVamp, hVnl, hVhead, hVlast, hbranch⟩ := value_V_spec v hv
  obtain ⟨c0, nmt, hcons⟩ : ∃ c0 nmt, nm = c0 :: nmt := by
    cases nm with
    | nil => exact absurd rfl hnm1
    | cons a b => exact ⟨a, b, rfl⟩
  have hc0 : isWordChar c0 = true := hnm2 c0 (hcons ▸ List.mem_cons_self _ _)
  have hVlastSome : ∃ d, V.getLast? = some d := by
    cases hVl : V.getLast? with
    | none => exact absurd (List.getLast?_eq_none_iff.1 hVl) hVne
    | some d => exact ⟨d, rfl⟩
  obtain ⟨dl, hdl⟩ := hVlastSome
  have hlineLast : (nm ++ " = ".data ++ V).getLast? = some dl := by
    rw [List.getLast?_append, hdl]
    rfl
  have hshape : nm ++ " = ".data ++ V = (nm ++ [' ']) ++ '=' :: (' ' :: V) := by
    simp
  have hmemline : ∀ x ∈ nm ++ " = ".data ++ V,
      x ∈ nm ∨ x = ' ' ∨ x = '=' ∨ x ∈ V := by
    intro x hx
    rcases List.mem_append.1 hx with h1 | h1
    · rcases List.mem_append.1 h1 with h2 | h2
      · exact Or.inl h2
      · rcases List.mem_cons.1 h2 with h3 | h3
        · exact Or.inr (Or.inl h3)
        rcases List.mem_cons.1 h3 with h4 | h4
        · exact Or.inr (Or.inr (Or.inl h4))
        rcases List.mem_cons.1 h4 with h5 | h5
        · exact Or.inr (Or.inl h5)
        · cases h5
    · exact Or.inr (Or.inr (Or.inr h1))
  have hnl : '\n' ∉ (nm ++ " = ".data ++ V) := by
    intro hm
    rcases hmemline '\n' hm with h1 | h1 | h1 | h1
    · exact absurd rfl (wordChar_facts _ (hnm2 _ h1)).2.2.2.2.1
    · cases h1
    · cases h1
    · exact hVnl h1
  have hamp : '&' ∉ (nm ++ " = ".data ++ V) := by
    intro hm
    rcases hmemline '&' hm with h1 | h1 | h1 | h1
    · exact absurd rfl (wordChar_facts _ (hnm2 _ h1)).2.2.2.1
    · cases h1
    · cases h1
    · exact hVamp h1
  have hbang2 : '!' ∉ (nm ++ " = ".data ++ V) := by
    intro hm
    rcases hmemline '!' hm with h1 | h1 | h1 | h1
    · exact absurd rfl (wordChar_facts _ (hnm2 _ h1)).2.1
    · cases h1
    · cases h1
    · exact hVbang h1
  have hsplit : splitOnChar '=' (nm ++ " = ".data ++ V) = [nm ++ [' '], ' ' :: V] := by
    rw [hshape, splitOnChar_append_sep _ _ _ (by
      intro hm
      rcases List.mem_append.1 hm with h1 | h1
      · exact absurd rfl (wordChar_facts _ (hnm2 _ h1)).2.2.1
      · rcases List.mem_cons.1 h1 with h2 | h2
        · cases h2
        · cases h2)]
    rw [splitOnChar_no_sep _ _ (by
      intro hm
      rcases List.mem_cons.1 hm with h1 | h1
      · cases h1
      · exact hVeq h1)]
  have hsplitEq : splitEq2 (nm ++ " = ".data ++ V) = some (nm ++ [' '], ' ' :: V) := by
    unfold splitEq2
    rw [hsplit]
  have hlstrip : pyLStrip (nm ++ " = ".data ++ V) = nm ++ " = ".data ++ V := by
    refine pyLStrip_id_of_head _ ?_
    intro x hx
    rw [hcons, show ((c0 :: nmt) ++ " = ".data) ++ V = c0 :: ((nmt ++ " = ".data) ++ V)
      from rfl, List.head?_cons] at hx
    injection hx with hx
    rw [← hx]
    exact (wordChar_facts c0 hc0).1
  have hrstrip : pyRStrip (nm ++ " = ".data ++ V) = nm ++ " = ".data ++ V := by
    refine pyRStrip_id_of_last _ ?_
    intro x hx
    rw [hlineLast] at hx
    injection hx with hx
    rw [← hx]
    exact (hVlast dl hdl).1
  have hstripline : pyStrip (nm ++ " = ".data ++ V) = nm ++ " = ".data ++ V := by
    unfold pyStrip
    rw [hlstrip, hrstrip]
  have hstripfull : pyStrip ("   ".data ++ nm ++ " = ".data ++ V)
      = nm ++ " = ".data ++ V := by
    unfold pyStrip
    rw [show pyLStrip ("   ".data ++ nm ++ " = ".data ++ V)
        = pyLStrip (nm ++ " = ".data ++ V) from rfl, hlstrip, hrstrip]
  have hbangfalse : startsWithBang (nm ++ " = ".data ++ V) = false := by
    rw [startsWithBang.eq_def]
    split
    · rename_i t heq
      exact absurd (by rw [heq]; exact List.mem_cons_self '!' t) hbang2
    · rfl
  have hvname : pyStrip (nm ++ [' ']) = nm := by
    unfold pyStrip
    rw [pyLStrip_id_of_head _ (by
      intro x hx
      rw [hcons, List.cons_append, List.head?_cons] at hx
      injection hx with hx
      rw [← hx]
      exact (wordChar_facts c0 hc0).1)]
    unfold pyRStrip
    rw [List.reverse_append]
    rw [show (([' '] : Chars)).reverse ++ nm.reverse = ' ' :: nm.reverse from rfl]
    rw [show (' ' :: nm.reverse).dropWhile pyIsSpace
        = nm.reverse.dropWhile pyIsSpace from rfl]
    rw [show nm.reverse.dropWhile pyIsSpace = pyLStrip nm.reverse from rfl]
    rw [pyLStrip_id_of_head _ (by
      intro x hx
      rw [List.head?_reverse] at hx
      exact (wordChar_facts _ (hnm2 _ (mem_of_getLast?_eq _ _ hx))).1)]
    exact List.reverse_reverse nm
  have hvval : pyStrip (' ' :: V) = V := by
    unfold pyStrip
    rw [show pyLStrip (' ' :: V) = pyLStrip V from rfl]
    rw [pyLStrip_id_of_head _ hVhead]
    exact pyRStrip_id_of_last _ (fun x hx => (hVlast x hx).1)
  have hKV : perLineKV (nm ++ " = ".data ++ V) = .ok (nm ++ [' '], ' ' :: V) := by
    have hbang3 := hbang2
    have hlast3 := hlineLast
    have hsplitEq3 := hsplitEq
    unfold perLineKV
    dsimp only
    dsimp only at hbang3 hlast3 hsplitEq3
    rw [hlast3]
    rw [if_neg (show ¬((some dl : Option Char) = some ',') from by
      intro he
      injection he with he
      exact (hVlast dl hdl).2 he)]
    rw [if_neg hbang3]
    rw [hsplitEq3]
  have hproc : ∀ g, lookupA g nm = none →
      processLine g (nm ++ " = ".data ++ V) = .ok (g ++ [(nm, rawEntry v)]) := by
    intro g hfresh
    unfold processLine
    rw [hKV, exc_bind_ok]
    dsimp only
    rw [hvname, hvval]
    rw [findallArray_nil (nm ++ [' ']) (by
      intro hm
      rcases List.mem_append.1 hm with h1 | h1
      · exact absurd rfl (wordChar_facts _ (hnm2 _ h1)).2.2.2.2.2.1
      · rcases List.mem_cons.1 h1 with h2 | h2
        · cases h2
        · cases h2)]
    dsimp only
    rcases hbranch with ⟨hpv, hraw⟩ | ⟨hpv, hassign⟩
    · rw [hpv]
      dsimp only
      rw [insertOrUpdate_fresh g nm hfresh, hraw]
    · rw [hpv]
      dsimp only
      exact hassign g nm hfresh
  refine ⟨V, hd nm, ?_, ?_, hstripfull, ?_, hbangfalse, by rw [hsplitEq]; rfl, hproc⟩
  · intro hm
    have hm2 : '\n' ∈ ("   ".data : Chars) ++ (nm ++ " = ".data ++ V) := by
      simpa [List.append_assoc] using hm
    rcases List.mem_append.1 hm2 with h1 | h1
    · revert h1
      decide
    · exact hnl h1
  · intro hm
    have hm2 : '&' ∈ ("   ".data : Chars) ++ (nm ++ " = ".data ++ V) := by
      simpa [List.append_assoc] using hm
    rcases List.mem_append.1 hm2 with h1 | h1
    · revert h1
      decide
    · exact hamp h1
  · intro he
    rw [hcons] at he
    cases he

theorem assembleBody_lines : ∀ (lines : List Chars) (acc : List Chars),
    (∀ l ∈ lines, pyStrip l ≠ [] ∧ startsWithBang (pyStrip l) = false ∧
      (splitEq2 (pyStrip l)).isSome = true) →
    assembleBody acc (lines ++ [[]]) = .ok (acc ++ lines.map pyStrip) := by
  intro lines
  induction lines with
  | nil =>
    intro acc h
    rw [List.nil_append, List.map_nil, List.append_nil]
    rfl
  | cons l ls ih =>
    intro acc h
    obtain ⟨h1, h2, h3⟩ := h l (List.mem_cons_self _ _)
    rw [List.cons_append, assembleBody]
    rw [if_neg h1,
      if_neg (show ¬(startsWithBang (pyStrip l) = true) by rw [h2]; exact Bool.false_ne_true),
      if_pos h3]
    rw [ih (acc ++ [pyStrip l]) (fun x hx => h x (List.mem_cons_of_mem _ hx))]
    rw [List.map_cons, List.append_assoc]
    rfl

theorem flatten_singletons (L : List Chars) :
    (L.map (fun l => [l])).flatten = L := by
  induction L with
  | nil => rfl
  | cons x xs ih =>
    rw [List.map_cons, List.flatten_cons, ih]
    rfl

theorem splitOnChar_intercalate (c : Char) :
    ∀ (ls : List Chars), ls ≠ [] → (∀ l ∈ ls, c ∉ l) →
      splitOnChar c (List.intercalate [c] ls) = ls := by
  intro ls
  induction ls with
  | nil => intro h; exact absurd rfl h
  | cons a rest ih =>
    intro _ hmem
    cases rest with
    | nil =>
      rw [show List.intercalate [c] [a] = a by unfold List.intercalate; simp]
      exact splitOnChar_no_sep c a (hmem a (List.mem_cons_self _ _))
    | cons b rest2 =>
      rw [intercalate_cons₂, List.append_assoc,
        show ([c] ++ List.intercalate [c] (b :: rest2))
          = c :: List.intercalate [c] (b :: rest2) from rfl]
      rw [splitOnChar_append_sep c a _ (hmem a (List.mem_cons_self _ _))]
      rw [ih (List.cons_ne_nil _ _) (fun x hx => hmem x (List.mem_cons_of_mem _ hx))]

theorem intercalate_append_nil (s : Chars) (A : List Chars) (hA : A ≠ []) :
    List.intercalate s (A ++ [[]]) = List.intercalate s A ++ s := by
  induction A with
  | nil => exact absurd rfl hA
  | cons a rest ih =>
    cases rest with
    | nil =>
      rw [show ([a] : List Chars) ++ [[]] = [a, []] from rfl]
      rw [show List.intercalate s [a, ([] : Chars)] = a ++ s ++ List.intercalate s [([] : Chars)] from
        intercalate_cons₂ s a [] []]
      rw [show List.intercalate s [([] : Chars)] = [] by unfold List.intercalate; simp]
      rw [show List.intercalate s [a] = a by unfold List.intercalate; simp]
      rw [List.append_nil]
    | cons b rest2 =>
      rw [show ((a :: b :: rest2) : List Chars) ++ [[]]
          = a :: (b :: (rest2 ++ [[]])) from rfl]
      rw [intercalate_cons₂ s a b (rest2 ++ [[]])]
      rw [show (b :: (rest2 ++ [[]]) : List Chars) = (b :: rest2) ++ [[]] from rfl]
      rw [ih (List.cons_ne_nil _ _)]
      rw [intercalate_cons₂ s a b rest2]
      simp [List.append_assoc]

theorem lastSlashCapture_mid (A B : Chars) (hA : A ≠ []) (hB : '/' ∉ B) :
    lastSlashCapture (A ++ '/' :: B) = some A := by
  unfold lastSlashCapture
  rw [show (A ++ '/' :: B).reverse = B.reverse ++ '/' :: A.reverse by simp]
  rw [splitAtFirstChar_append '/' B.reverse A.reverse (by
    intro hm
    exact hB (List.mem_reverse.1 hm))]
  rw [show (B.reverse, A.reverse) = ((B.reverse : Chars), (A.reverse : Chars)) from rfl]
  dsimp only
  rw [if_neg (by
    intro he
    exact hA (by simpa using congrArg List.reverse he))]
  rw [List.reverse_reverse]

/-- All serialized lines of a group: their dumps, their inertness facts and
the body fold that rebuilds the group, in one induction over the entries. -/
theorem entries_spec : ∀ (entries : NlGroup),
    (∀ e ∈ entries, entryWF e = true) →
    (entries.map Prod.fst).Nodup →
    ∃ (lines : List Chars),
      exMapM (fun p => dumpLines p.1 p.2 true) entries = .ok (lines.map (fun l => [l])) ∧
      (∀ l ∈ lines, '\n' ∉ l ∧ '&' ∉ l) ∧
      (∀ l ∈ lines, pyStrip l ≠ [] ∧ startsWithBang (pyStrip l) = false ∧
        (splitEq2 (pyStrip l)).isSome = true) ∧
      (∀ g, (∀ nm ∈ entries.map Prod.fst, lookupA g nm = none) →
        (lines.map pyStrip).foldlM processLine g = .ok (g ++ rawGroup entries)) := by
  intro entries
  induction entries with
  | nil =>
    intro _ _
    refine ⟨[], rfl, ?_, ?_, ?_⟩
    · intro l hl; cases hl
    · intro l hl; cases hl
    · intro g _
      rw [show rawGroup [] = [] from rfl, List.append_nil]
      rfl
  | cons e rest ih =>
    intro hWF hnd
    obtain ⟨nm, gv⟩ := e
    have hWFe := hWF (nm, gv) (List.mem_cons_self _ _)
    obtain ⟨v, hval⟩ : ∃ v, gv = GVal.val v := by
      cases gv with
      | val v => exact ⟨v, rfl⟩
      | arr es => cases hWFe
    subst hval
    unfold entryWF at hWFe
    rw [Bool.and_eq_true, Bool.and_eq_true] at hWFe
    obtain ⟨⟨hnm1, hnm2⟩, hv⟩ := hWFe
    have hnm1' : nm ≠ [] := by
      intro he
      rw [he] at hnm1
      cases hnm1
    have hnm2' : ∀ c ∈ nm, isWordChar c = true := by
      rw [List.all_eq_true] at hnm2
      exact fun c hc => hnm2 c hc
    rw [List.map_cons, List.nodup_cons] at hnd
    obtain ⟨hnd1, hnd2⟩ := hnd
    obtain ⟨lines2, hL1, hL3, hL4, hL5⟩ := ih
      (fun x hx => hWF x (List.mem_cons_of_mem _ hx)) hnd2
    obtain ⟨V, hdump, hVnl, hVamp, hVstrip, hVne, hVbang, hVsplit, hVproc⟩ :=
      processLine_entry nm v hnm1' hnm2' hv
    refine ⟨("   ".data ++ nm ++ " = ".data ++ V) :: lines2, ?_, ?_, ?_, ?_⟩
    · rw [exMapM]
      rw [show dumpLines (nm, GVal.val v).1 (nm, GVal.val v).2 true
          = dumpLines nm (GVal.val v) true from rfl, hdump, exc_bind_ok, hL1, exc_bind_ok,
        List.map_cons]
    · intro l hl
      rcases List.mem_cons.1 hl with h1 | h1
      · rw [h1]
        exact ⟨hVnl, hVamp⟩
      · exact hL3 l h1
    · intro l hl
      rcases List.mem_cons.1 hl with h1 | h1
      · rw [h1, hVstrip]
        exact ⟨hVne, hVbang, hVsplit⟩
      · exact hL4 l h1
    · intro g hfresh
      rw [List.map_cons, List.foldlM_cons, hVstrip,
        hVproc g (hfresh nm (List.mem_cons_self _ _)), exc_bind_ok]
      rw [hL5 (g ++ [(nm, rawEntry v)]) (by
        intro nm2 hnm2m
        rw [lookupA_append_left g _ nm2 (hfresh nm2 (List.mem_cons_of_mem _ hnm2m))]
        rw [lookupA, if_neg (by
          intro he
          exact hnd1 (he ▸ hnm2m))]
        rfl)]
      rw [show rawGroup ((nm, GVal.val v) :: rest)
          = (nm, rawEntry v) :: rawGroup rest from rfl]
      rw [List.append_assoc]
      rfl

/-- `_check_lists` turns the fold's raw group into the rounded group: plain
scalars pass through, enumeration-indexed dicts densify to their lists. -/
theorem checkLists_entry (nm : Chars) (v : PyVal) :
    (match (nm, rawEntryG (GVal.val v)).2 with
      | (GVal.arr es : GVal) =>
        (densifyArr es).map (fun lv => ((nm, rawEntryG (GVal.val v)).1, GVal.val (.list lv)))
      | gv => .ok ((nm, rawEntryG (GVal.val v)).1, gv))
    = .ok (nm, roundGVal (GVal.val v)) := by
  cases v with
  | list xs =>
    dsimp only
    rw [show rawEntryG (GVal.val (PyVal.list xs)) = GVal.arr
        ((xs.map roundScalar).enum.map (fun p => ((p.1 : ℤ), p.2))) from rfl]
    dsimp only
    rw [densify_enum (xs.map roundScalar), exc_map_ok]
    rfl
  | int i => rfl
  | real q => rfl
  | bool b => rfl
  | str s => rfl
  | complex x y => rfl
  | noneV => rfl

theorem checkLists_rawGroup : ∀ (entries : NlGroup),
    (∀ e ∈ entries, entryWF e = true) →
    checkListsGroup (rawGroup entries) = .ok (roundGroup entries) := by
  intro entries
  induction entries with
  | nil => intro _; rfl
  | cons e rest ih =>
    intro hWF
    obtain ⟨nm, gv⟩ := e
    have hWFe := hWF (nm, gv) (List.mem_cons_self _ _)
    obtain ⟨v, hval⟩ : ∃ v, gv = GVal.val v := by
      cases gv with
      | val v => exact ⟨v, rfl⟩
      | arr es => cases hWFe
    subst hval
    have ih2 := ih (fun x hx => hWF x (List.mem_cons_of_mem _ hx))
    rw [show rawGroup ((nm, GVal.val v) :: rest)
        = (nm, rawEntryG (GVal.val v)) :: rawGroup rest from rfl]
    rw [show roundGroup ((nm, GVal.val v) :: rest)
        = (nm, roundGVal (GVal.val v)) :: roundGroup rest from rfl]
    unfold checkListsGroup at ih2 ⊢
    rw [exMapM, checkLists_entry nm v, exc_bind_ok, ih2, exc_bind_ok]

theorem intercalate_ch_mem (sep : Char) (toks : List Chars) (c : Char)
    (hc : c ∈ List.intercalate [sep] toks) : (∃ t ∈ toks, c ∈ t) ∨ c = sep := by
  induction toks with
  | nil =>
    rw [show List.intercalate [sep] [] = [] from rfl] at hc
    cases hc
  | cons t rest ih =>
    cases rest with
    | nil =>
      rw [show List.intercalate [sep] [t] = t by unfold List.intercalate; simp] at hc
      exact Or.inl ⟨t, List.mem_cons_self _ _, hc⟩
    | cons t2 rest2 =>
      rw [intercalate_cons₂] at hc
      rcases List.mem_append.1 hc with h1 | h1
      · rcases List.mem_append.1 h1 with h2 | h2
        · exact Or.inl ⟨t, List.mem_cons_self _ _, h2⟩
        · rcases List.mem_cons.1 h2 with h3 | h3
          · exact Or.inr h3
          · cases h3
      · rcases ih h1 with ⟨u, hu, hcu⟩ | h2
        · exact Or.inl ⟨u, List.mem_cons_of_mem _ hu, hcu⟩
        · exact Or.inr h2

theorem intercalate_append_last (s : Chars) : ∀ (A : List Chars), A ≠ [] → ∀ (b : Chars),
    List.intercalate s (A ++ [b]) = List.intercalate s A ++ s ++ b := by
  intro A
  induction A with
  | nil => intro h; exact absurd rfl h
  | cons a rest ih =>
    intro _ b
    cases rest with
    | nil =>
      rw [show ([a] : List Chars) ++ [b] = [a, b] from rfl, intercalate_cons₂ s a b []]
      rw [show List.intercalate s [a] = a by unfold List.intercalate; simp]
      rw [show List.intercalate s [b] = b by unfold List.intercalate; simp]
    | cons a2 rest2 =>
      rw [show ((a :: a2 :: rest2) : List Chars) ++ [b] = a :: ((a2 :: rest2) ++ [b]) from rfl]
      rw [show ((a2 :: rest2) : List Chars) ++ [b] = a2 :: (rest2 ++ [b]) from rfl]
      rw [intercalate_cons₂ s a a2 (rest2 ++ [b])]
      rw [show (a2 :: (rest2 ++ [b]) : List Chars) = (a2 :: rest2) ++ [b] from rfl]
      rw [ih (List.cons_ne_nil _ _) b]
      rw [intercalate_cons₂ s a a2 rest2]
      simp [List.append_assoc]

theorem intercalate_cons_head (s : Chars) (c : Char) (x : Chars) (rest : List Chars) :
    List.intercalate s ((c :: x) :: rest) = c :: List.intercalate s (x :: rest) := by
  cases rest with
  | nil =>
    rw [show List.intercalate s [c :: x] = c :: x by unfold List.intercalate; simp]
    rw [show List.intercalate s [x] = x by unfold List.intercalate; simp]
  | cons r2 rest2 =>
    rw [intercalate_cons₂, intercalate_cons₂]
    rfl

/-- Processing the assembled block of a dumped group rebuilds the rounded
group under a fresh name with an untouched counter. -/
theorem processBlock_entries (gn : Chars) (entries : NlGroup) (lines : List Chars)
    (hgn1 : gn ≠ []) (hgn2 : ∀ c ∈ gn, isWordChar c = true)
    (hWF : ∀ e ∈ entries, entryWF e = true)
    (hL3 : ∀ l ∈ lines, '\n' ∉ l ∧ '&' ∉ l)
    (hL4 : ∀ l ∈ lines, pyStrip l ≠ [] ∧ startsWithBang (pyStrip l) = false ∧
      (splitEq2 (pyStrip l)).isSome = true)
    (hL5 : ∀ g, (∀ nm ∈ entries.map Prod.fst, lookupA g nm = none) →
      (lines.map pyStrip).foldlM processLine g = .ok (g ++ rawGroup entries)) :
    processBlock (([] : NlDoc), ([] : List (Chars × ℕ)))
      (List.intercalate ['\n'] (gn :: lines) ++ ['\n'])
      = .ok ([(gn, roundGroup entries)], []) := by
  have hgstrip : pyStrip gn = gn := by
    refine pyStrip_id_of_ends gn ?_ ?_
    · intro c hc
      exact (wordChar_facts _ (hgn2 _ (List.mem_of_mem_head? hc))).1
    · intro c hc
      exact (wordChar_facts _ (hgn2 _ (mem_of_getLast?_eq _ _ hc))).1
  have hAsplit : splitOnChar '\n' (List.intercalate ['\n'] (gn :: lines) ++ ['\n'])
      = gn :: (lines ++ [[]]) := by
    rw [← intercalate_append_nil ['\n'] (gn :: lines) (List.cons_ne_nil _ _)]
    rw [splitOnChar_intercalate '\n' ((gn :: lines) ++ [[]]) (by
      intro he
      rcases List.append_eq_nil.1 he with ⟨h1, _⟩
      cases h1) (by
      intro l hl
      rcases List.mem_append.1 hl with h1 | h1
      · rcases List.mem_cons.1 h1 with h2 | h2
        · rw [h2]
          intro hm
          exact absurd rfl (wordChar_facts _ (hgn2 _ hm)).2.2.2.2.1
        · exact (hL3 l h2).1
      · rcases List.mem_cons.1 h1 with h2 | h2
        · rw [h2]
          exact List.not_mem_nil _
        · cases h2)]
    rfl
  unfold processBlock
  rw [hAsplit]
  dsimp only
  rw [show ((gn :: (lines ++ [[]])).headI) = gn from rfl,
    show ((gn :: (lines ++ [[]])).tail) = lines ++ [[]] from rfl, hgstrip]
  rw [assembleBody_lines lines [] hL4, List.nil_append, exc_bind_ok]
  rw [hL5 [] (fun nm _ => rfl), List.nil_append, exc_bind_ok]
  rw [show lookupA ([] : NlDoc) gn = none from rfl]
  rw [if_neg (show ¬((none : Option NlGroup).isSome = true) from Bool.false_ne_true)]
  dsimp only
  rw [insertOrUpdate_fresh ([] : NlDoc) gn rfl (rawGroup entries), List.nil_append]
  rw [show checkListsDoc [(gn, rawGroup entries)]
      = (checkListsGroup (rawGroup entries)).map (fun g2 => [(gn, g2)]) from by
    unfold checkListsDoc
    rw [exMapM]
    cases hc : checkListsGroup (rawGroup entries) with
    | error e => rw [exc_map_err, exc_bind_err, exc_map_err]
    | ok g2 =>
      rw [exc_map_ok, exc_bind_ok, exMapM, exc_bind_ok, exc_map_ok]]
  rw [checkLists_rawGroup entries hWF, exc_map_ok, exc_bind_ok]

/-- The document round trip: dumping a wellformed single-group document and
re-parsing the text restores the group with rounded values. -/
theorem roundtrip_doc (gn : Chars) (entries : NlGroup)
    (hgn1 : gn ≠ []) (hgn2 : ∀ c ∈ gn, isWordChar c = true)
    (hWF : ∀ e ∈ entries, entryWF e = true)
    (hnd : (entries.map Prod.fst).Nodup) :
    ∃ txt, pyDump [(gn, entries)] gn true = .ok txt ∧
      pyNamelist txt = .ok [(gn, roundGroup entries)] := by
  obtain ⟨lines, hL1, hL3, hL4, hL5⟩ := entries_spec entries hWF hnd
  refine ⟨List.intercalate ['\n']
      (('&' :: gn) :: lines ++ ["/ ! end of ".data ++ gn ++ " namelist".data]) ++ ['\n'],
    ?_, ?_⟩
  · unfold pyDump
    rw [lookupA, if_pos rfl]
    dsimp only
    rw [hL1, exc_bind_ok, flatten_singletons]
  · have hterm_nl : '\n' ∉ "/ ! end of ".data ++ gn ++ " namelist".data := by
      intro hm
      rcases List.mem_append.1 hm with h1 | h1
      · rcases List.mem_append.1 h1 with h2 | h2
        · revert h2; decide
        · exact absurd rfl (wordChar_facts _ (hgn2 _ h2)).2.2.2.2.1
      · revert h1; decide
    have hterm_amp : '&' ∉ "/ ! end of ".data ++ gn ++ " namelist".data := by
      intro hm
      rcases List.mem_append.1 hm with h1 | h1
      · rcases List.mem_append.1 h1 with h2 | h2
        · revert h2; decide
        · exact absurd rfl (wordChar_facts _ (hgn2 _ h2)).2.2.2.1
      · revert h1; decide
    have hterm_strip : pyStrip ("/ ! end of ".data ++ gn ++ " namelist".data)
        = "/ ! end of ".data ++ gn ++ " namelist".data := by
      refine pyStrip_id_of_ends _ ?_ ?_
      · intro c hc
        rw [show ("/ ! end of ".data ++ gn ++ " namelist".data).head? = some '/' from rfl] at hc
        injection hc with hc
        rw [← hc]
        rfl
      · intro c hc
        rw [List.getLast?_append,
          show (" namelist".data : Chars).getLast? = some 't' from rfl] at hc
        injection hc with hc
        rw [← hc]
        rfl
    have hterm_bang : startsWithBang (pyStrip ("/ ! end of ".data ++ gn ++ " namelist".data))
        = false := by
      rw [hterm_strip, startsWithBang.eq_def]
      split
      · rename_i t heq
        have : ("/ ! end of ".data ++ gn ++ " namelist".data).head? = some '!' := by
          rw [heq]
          rfl
        rw [show ("/ ! end of ".data ++ gn ++ " namelist".data).head? = some '/' from rfl] at this
        injection this with h2
        cases h2
      · rfl
    have hheader_strip : pyStrip ('&' :: gn) = '&' :: gn := by
      refine pyStrip_id_of_ends _ ?_ ?_
      · intro c hc
        rw [List.head?_cons] at hc
        injection hc with hc
        rw [← hc]
        rfl
      · intro c hc
        rw [show ('&' :: gn).getLast? = gn.getLast?.or (some '&') from by
          rw [show ('&' :: gn : Chars) = ['&'] ++ gn from rfl, List.getLast?_append]
          rfl] at hc
        cases hg : gn.getLast? with
        | none =>
          rw [hg] at hc
          injection hc with hc
          rw [← hc]
          rfl
        | some d =>
          rw [hg] at hc
          injection hc with hc
          rw [← hc]
          exact (wordChar_facts _ (hgn2 _ (mem_of_getLast?_eq _ _ hg))).1
    have hheader_bang : startsWithBang (pyStrip ('&' :: gn)) = false := by
      rw [hheader_strip]
      rfl
    have hfiltered : filteredLines (List.intercalate ['\n']
        (('&' :: gn) :: lines ++ ["/ ! end of ".data ++ gn ++ " namelist".data]) ++ ['\n'])
        = (('&' :: gn) :: lines ++ ["/ ! end of ".data ++ gn ++ " namelist".data]) ++ [[]] := by
      unfold filteredLines
      rw [← intercalate_append_nil ['\n'] (('&' :: gn) :: lines
          ++ ["/ ! end of ".data ++ gn ++ " namelist".data]) (by
        intro he
        rcases List.append_eq_nil.1 he with ⟨h1, _⟩
        cases h1)]
      rw [splitOnChar_intercalate '\n' _ (by
        intro he
        rcases List.append_eq_nil.1 he with ⟨h1, _⟩
        cases h1) (by
        intro l hl
        rcases List.mem_append.1 hl with h1 | h1
        · rcases List.mem_cons.1 h1 with h2 | h2
          · rw [h2]
            intro hm
            rcases List.mem_cons.1 hm with h3 | h3
            · cases h3
            · exact absurd rfl (wordChar_facts _ (hgn2 _ h3)).2.2.2.2.1
          · rcases List.mem_append.1 h2 with h3 | h3
            · exact (hL3 l h3).1
            · rcases List.mem_cons.1 h3 with h4 | h4
              · rw [h4]
                exact hterm_nl
              · cases h4
        · rcases List.mem_cons.1 h1 with h2 | h2
          · rw [h2]
            exact List.not_mem_nil _
          · cases h2)]
      rw [List.filter_eq_self.mpr (by
        intro l hl
        rcases List.mem_append.1 hl with h1 | h1
        · rcases List.mem_cons.1 h1 with h2 | h2
          · rw [h2, hheader_bang]
            rfl
          · rcases List.mem_append.1 h2 with h3 | h3
            · rw [(hL4 l h3).2.1]
              rfl
            · rcases List.mem_cons.1 h3 with h4 | h4
              · rw [h4, hterm_bang]
                rfl
              · cases h4
        · rcases List.mem_cons.1 h1 with h2 | h2
          · rw [h2]
            rfl
          · cases h2)]
    unfold pyNamelist
    rw [hfiltered]
    rw [intercalate_append_nil ['\n'] (('&' :: gn) :: lines
        ++ ["/ ! end of ".data ++ gn ++ " namelist".data]) (by
      intro he
      rcases List.append_eq_nil.1 he with ⟨h1, _⟩
      cases h1)]
    have htextshape : List.intercalate ['\n']
        (('&' :: gn) :: lines ++ ["/ ! end of ".data ++ gn ++ " namelist".data]) ++ ['\n']
        = '&' :: ((List.intercalate ['\n'] (gn :: lines) ++ ['\n'])
            ++ '/' :: (" ! end of ".data ++ gn ++ " namelist".data ++ ['\n'])) := by
      rw [show (('&' :: gn) :: lines ++ ["/ ! end of ".data ++ gn ++ " namelist".data]
            : List Chars)
          = (('&' :: gn) :: lines) ++ ["/ ! end of ".data ++ gn ++ " namelist".data] from rfl]
      rw [intercalate_append_last ['\n'] (('&' :: gn) :: lines) (List.cons_ne_nil _ _)]
      rw [intercalate_cons_head ['\n'] '&' gn lines]
      simp [List.append_assoc]
    rw [htextshape]
    have hAne : List.intercalate ['\n'] (gn :: lines) ++ ['\n'] ≠ [] := by
      intro he
      rcases List.append_eq_nil.1 he with ⟨_, h2⟩
      cases h2
    have hfind : pyFindGroups ('&' :: ((List.intercalate ['\n'] (gn :: lines) ++ ['\n'])
        ++ '/' :: (" ! end of ".data ++ gn ++ " namelist".data ++ ['\n'])))
        = [List.intercalate ['\n'] (gn :: lines) ++ ['\n']] := by
      unfold pyFindGroups
      rw [splitOnChar]
      rw [if_pos rfl]
      rw [splitOnChar_no_sep '&' _ (by
        intro hm
        rcases List.mem_append.1 hm with h1 | h1
        · rcases List.mem_append.1 h1 with h2 | h2
          · rcases intercalate_ch_mem '\n' (gn :: lines) '&' h2 with ⟨t, ht, hmt⟩ | h3
            · rcases List.mem_cons.1 ht with h4 | h4
              · rw [h4] at hmt
                exact absurd rfl (wordChar_facts _ (hgn2 _ hmt)).2.2.2.1
              · exact (hL3 t h4).2 hmt
            · cases h3
          · rcases List.mem_cons.1 h2 with h3 | h3
            · cases h3
            · cases h3
        · rcases List.mem_cons.1 h1 with h2 | h2
          · cases h2
          · rcases List.mem_append.1 h2 with h3 | h3
            · rcases List.mem_append.1 h3 with h4 | h4
              · rcases List.mem_append.1 h4 with h5 | h5
                · revert h5; decide
                · exact absurd rfl (wordChar_facts _ (hgn2 _ h5)).2.2.2.1
              · revert h4; decide
            · rcases List.mem_cons.1 h3 with h4 | h4
              · cases h4
              · cases h4)]
      show List.filterMap lastSlashCapture
          [(List.intercalate ['\n'] (gn :: lines) ++ ['\n'])
            ++ '/' :: (" ! end of ".data ++ gn ++ " namelist".data ++ ['\n'])]
          = [List.intercalate ['\n'] (gn :: lines) ++ ['\n']]
      rw [List.filterMap_cons, lastSlashCapture_mid _ _ hAne (by
        intro hm
        rcases List.mem_append.1 hm with h1 | h1
        · rcases List.mem_append.1 h1 with h2 | h2
          · rcases List.mem_append.1 h2 with h3 | h3
            · revert h3; decide
            · exact absurd rfl (wordChar_facts _ (hgn2 _ h3)).2.2.2.2.2.2.1
          · revert h2; decide
        · rcases List.mem_cons.1 h1 with h2 | h2
          · cases h2
          · cases h2)]
      rfl
    rw [hfind]
    rw [List.foldlM_cons,
      processBlock_entries gn entries lines hgn1 hgn2 hWF hL3 hL4 hL5, exc_bind_ok]
    rfl

/-- Claim C1 (corrected).  Serializing one group of a document with
`dump(..., array_inline=True)` and re-parsing restores the group exactly up
to float rounding, on the Complex-free fragment: word-character group and
variable names (distinct), Integer/Real/Boolean scalars, quote/`=`/`!`/`&`/
newline-free Text scalars, and flat Lists of two or more elements that are
either all non-text scalars or all supported texts (each starting, after
optional spaces, with a word character).  Every Real comes back as its
three-significant-digit
round-half-even value `roundE2val`, which stays within
`10^(e-2)/2` of the original. -/
theorem roundtrip_restricted (gn : Chars) (entries : NlGroup)
    (hgn1 : gn ≠ []) (hgn2 : ∀ c ∈ gn, isWordChar c = true)
    (hWF : ∀ e ∈ entries, entryWF e = true)
    (hnd : (entries.map Prod.fst).Nodup) :
    ∃ txt, pyDump [(gn, entries)] gn true = .ok txt ∧
      pyNamelist txt = .ok [(gn, roundGroup entries)] ∧
      ∀ nm q, lookupA entries nm = some (GVal.val (PyVal.real q)) → q ≠ 0 →
        |roundE2val q - q| ≤ (10:ℚ) ^ ((mantissaE2 q.num.natAbs q.den).2 - 2) / 2 := by
  obtain ⟨txt, h1, h2⟩ := roundtrip_doc gn entries hgn1 hgn2 hWF hnd
  exact ⟨txt, h1, h2, fun nm q _ hq => roundE2val_close q hq⟩

/-- Witness for `roundtrip_restricted` at a concrete six-entry group with
an integer, a float, a boolean, a text, a numeric inline list and a text
inline list. -/
theorem roundtrip_restricted_witness :
    ∃ txt, pyDump [("star_job".data,
        [("i1".data, GVal.val (PyVal.int 42)),
         ("r1".data, GVal.val (PyVal.real (mkRat 5 2))),
         ("b1".data, GVal.val (PyVal.bool true)),
         ("s1".data, GVal.val (PyVal.str "hello world".data)),
         ("l1".data, GVal.val (PyVal.list [PyVal.real (mkRat 1 2), PyVal.int 3])),
         ("t1".data, GVal.val (PyVal.list [PyVal.str "abc".data, PyVal.str "de f".data]))])]
      "star_job".data true = .ok txt ∧
      pyNamelist txt = .ok [("star_job".data, roundGroup
        [("i1".data, GVal.val (PyVal.int 42)),
         ("r1".data, GVal.val (PyVal.real (mkRat 5 2))),
         ("b1".data, GVal.val (PyVal.bool true)),
         ("s1".data, GVal.val (PyVal.str "hello world".data)),
         ("l1".data, GVal.val (PyVal.list [PyVal.real (mkRat 1 2), PyVal.int 3])),
         ("t1".data, GVal.val (PyVal.list [PyVal.str "abc".data, PyVal.str "de f".data]))])] ∧
      ∀ nm q, lookupA
        [("i1".data, GVal.val (PyVal.int 42)),
         ("r1".data, GVal.val (PyVal.real (mkRat 5 2))),
         ("b1".data, GVal.val (PyVal.bool true)),
         ("s1".data, GVal.val (PyVal.str "hello world".data)),
         ("l1".data, GVal.val (PyVal.list [PyVal.real (mkRat 1 2), PyVal.int 3])),
         ("t1".data, GVal.val (PyVal.list [PyVal.str "abc".data, PyVal.str "de f".data]))] nm
          = some (GVal.val (PyVal.real q)) → q ≠ 0 →
        |roundE2val q - q| ≤ (10:ℚ) ^ ((mantissaE2 q.num.natAbs q.den).2 - 2) / 2 :=
  roundtrip_restricted "star_job".data
    [("i1".data, GVal.val (PyVal.int 42)),
     ("r1".data, GVal.val (PyVal.real (mkRat 5 2))),
     ("b1".data, GVal.val (PyVal.bool true)),
     ("s1".data, GVal.val (PyVal.str "hello world".data)),
     ("l1".data, GVal.val (PyVal.list [PyVal.real (mkRat 1 2), PyVal.int 3])),
     ("t1".data, GVal.val (PyVal.list [PyVal.str "abc".data, PyVal.str "de f".data]))]
    (by decide) (by decide) (by decide) (by decide)
